import Mathlib

/-!
Verification of the PAMI `parallelFPGrowth` miner
(`PAMI/frequentPattern/pyspark/parallelFPGrowth.py`).

The Python code is shallowly embedded as executable Lean functions:

* Python `dict`s (insertion-ordered, unique keys) are association lists with
  `alGet` (lookup), `alPut` (assignment: update in place, append if new) and
  `alBump` (`defaultdict(int)` increment).
* `_Tree` is embedded path-indexed: a tree node is addressed by the list of
  items on the walk from the root to it (children are keyed by item, so this
  addressing is a bijection onto the Python node objects).  `nodes` maps each
  node path to the node's `count` and stored `prefix`; `nodeLink` maps each
  item to the paths of the nodes carrying it, in creation order, mirroring the
  Python list of node references; `itemCount` mirrors the `defaultdict`.
* Fallible Python code (`KeyError` on a missing `nodeLink` entry, unbounded
  recursion) becomes `Option`-valued code; the recursion of `genFreqPatterns`
  is fuelled, and the development proves the fuel used by the model never
  runs out.
* The Spark pipeline of `startMine` (map / reduceByKey / groupByKey /
  foldByKey / flatMap / collect) is embedded with a fixed deterministic
  schedule: per-key data arrives in input order and partitions are visited in
  ascending order.  Where Spark leaves an order unspecified (tie order of
  `sortBy`), the model fixes one; the main theorems are stated so that they
  do not depend on that choice.
-/

namespace PFPG

abbrev Item := String

/-- Python `dict` lookup on an insertion-ordered association list. -/
def alGet {κ β : Type} [DecidableEq κ] : List (κ × β) → κ → Option β
  | [], _ => none
  | e :: r, k => if e.1 = k then some e.2 else alGet r k

/-- Python `d[k] = v`: overwrite in place if the key exists, else append. -/
def alPut {κ β : Type} [DecidableEq κ] : List (κ × β) → κ → β → List (κ × β)
  | [], k, v => [(k, v)]
  | e :: r, k, v => if e.1 = k then (k, v) :: r else e :: alPut r k v

/-- Python `defaultdict(int)` increment `d[k] += c`. -/
def alBump {κ : Type} [DecidableEq κ] (l : List (κ × Nat)) (k : κ) (c : Nat) :
    List (κ × Nat) :=
  alPut l k ((alGet l k).getD 0 + c)

/-- Python `d.update(e)`. -/
def dictUpdate {κ β : Type} [DecidableEq κ] (d e : List (κ × β)) : List (κ × β) :=
  e.foldl (fun acc kv => alPut acc kv.1 kv.2) d

/-- Python `list.index`: index of the first occurrence (0 when absent;
the code only calls it on members). -/
def pyIndex (a : Nat) : List Nat → Nat
  | [] => 0
  | b :: t => if b = a then 0 else pyIndex a t + 1

/-- `_Tree`, path-indexed.  `nodes` maps a node's path from the root to its
`count` and its stored `prefix` field; the root itself (empty path, never
carrying a count that is read) is left implicit. -/
structure Tree where
  nodes : List (List Nat × (Nat × List Nat))
  nodeLink : List (Nat × List (List Nat))
  itemCount : List (Nat × Nat)
  deriving DecidableEq, Repr

/-- `_Tree.__init__`. -/
def emptyTree : Tree := ⟨[], [], []⟩

/-- `_Tree.addNodeToNodeLink` (the node is identified by its path). -/
def addNodeToNodeLink (nl : List (Nat × List (List Nat))) (item : Nat) (q : List Nat) :
    List (Nat × List (List Nat)) :=
  match alGet nl item with
  | none => nl ++ [(item, [q])]
  | some l => alPut nl item (l ++ [q])

/-- The walk of `_Tree.addTransaction`: `cur` is the path of `current`,
`rest` the items still to be consumed, `tr` the whole transaction (needed
because the code stores `transaction[0:transaction.index(item)]` as the new
node's `prefix`).  A created node's count is `0 + c = c`. -/
def addTransGo (tr : List Nat) (c : Nat) : Tree → List Nat → List Nat → Tree
  | t, _, [] => t
  | t, cur, item :: rest =>
    let q := cur ++ [item]
    let t1 : Tree :=
      match alGet t.nodes q with
      | some pr => { t with nodes := alPut t.nodes q (pr.1 + c, pr.2) }
      | none =>
        { t with
          nodes := t.nodes ++ [(q, (c, tr.take (pyIndex item tr)))]
          nodeLink := addNodeToNodeLink t.nodeLink item q }
    let t2 : Tree := { t1 with itemCount := alBump t1.itemCount item c }
    addTransGo tr c t2 q rest

/-- `_Tree.addTransaction`. -/
def Tree.addTransaction (t : Tree) (tr : List Nat) (c : Nat) : Tree :=
  addTransGo tr c t [] tr

/-- `_Tree.generateConditionalTree`: `none` models the `KeyError` if `item`
is absent from `nodeLink`, and a dangling node reference (which never occurs;
see the nodeLink soundness lemma). -/
def Tree.generateConditionalTree (t : Tree) (item : Nat) : Option Tree :=
  (alGet t.nodeLink item).bind fun paths =>
    paths.foldlM
      (fun acc q => (alGet t.nodes q).map fun pr => acc.addTransaction pr.2 pr.1)
      emptyTree

/-- Sum of `node.count` over a list of node references (paths), as in the
`freqItems` loop of `genFreqPatterns`. -/
def linkSum (t : Tree) (paths : List (List Nat)) : Option Nat :=
  paths.foldlM (fun s q => (alGet t.nodes q).map fun pr => s + pr.1) 0

/-- The `freqItems` dict computed at the top of `genFreqPatterns`:
one entry per `nodeLink` key, in key order. -/
def freqItemsOf (t : Tree) : Option (List (Nat × Nat)) :=
  t.nodeLink.mapM fun e => (linkSum t e.2).map fun s => (e.1, s)

/-- `parallelFPGrowth.genFreqPatterns`, fuelled.  Patterns are keyed by the
rank sequence (`tuple(pattern)` in Python). -/
def genFreqPatterns (minSup : ℚ) : Nat → Nat → List Nat → Tree →
    Option (List (List Nat × Nat))
  | 0, _, _, _ => none
  | fuel + 1, item, pre, tree =>
    (tree.generateConditionalTree item).bind fun condTree =>
    (freqItemsOf condTree).bind fun fi =>
    (fi.filter fun e => minSup ≤ (e.2 : ℚ)).foldlM
      (fun acc e =>
        (genFreqPatterns minSup fuel e.1 (pre ++ [e.1]) condTree).map fun sub =>
          dictUpdate (alPut acc (pre ++ [e.1]) e.2) sub)
      []

/-- `parallelFPGrowth.getPartitionId`. -/
def getPartitionId (np : Nat) (value : Nat) : Nat := value % np

/-- `parallelFPGrowth.genAllFrequentPatterns` for the pair `(p, t)`:
items sorted ascending by `itemCount` value; an item is mined only when its
partition id equals `p`.  Each top-level mining call is given fuel
`item + 1`, which the termination theorem shows is enough. -/
def genAllFrequentPatterns (minSup : ℚ) (np : Nat) (p : Nat) (t : Tree) :
    Option (List (List Nat × Nat)) :=
  ((t.itemCount.insertionSort fun a b => a.2 ≤ b.2).map Prod.fst).foldlM
    (fun acc i =>
      if getPartitionId np i = p then
        (genFreqPatterns minSup (i + 1) i [i] t).map fun sub => dictUpdate acc sub
      else
        pure acc)
    []

/-- `parallelFPGrowth.genCondTransaction`. -/
def genCondTransaction (transaction : List Item) (rank : Item → Option Nat) (np : Nat) :
    List (Nat × List Nat) :=
  let newTrans := (transaction.filterMap rank).insertionSort (· ≤ ·)
  newTrans.reverse.foldl
    (fun acc i =>
      if (alGet acc (getPartitionId np i)).isSome then acc
      else acc ++ [(getPartitionId np i, newTrans.take (pyIndex i newTrans + 1))])
    []

/-- The singleton pass of `startMine`: `flatMap` of `(item, 1)` pairs plus
`reduceByKey(add)`, i.e. the number of occurrences of each item (an item
occurring twice in one line is counted twice), keys in first-occurrence
order. -/
def itemOccCounts (db : List (List Item)) : List (Item × Nat) :=
  db.foldl (fun acc t => t.foldl (fun a x => alBump a x 1) acc) []

/-- `freqItems` of `startMine`: occurrence counts filtered by
`count >= minSup` and sorted by count descending. -/
def freqItemsSorted (db : List (List Item)) (minSup : ℚ) : List (Item × Nat) :=
  ((itemOccCounts db).filter fun e => minSup ≤ (e.2 : ℚ)).insertionSort
    fun a b => b.2 ≤ a.2

/-- The `rank` dict of `startMine`: item to its index in `FPList`. -/
def rankMap : List Item → Item → Option Nat
  | [], _ => none
  | y :: r, x => if y = x then some 0 else (rankMap r x).map (· + 1)

/-- The projected transactions routed to partition `p`
(`flatMap(genCondTransaction) + groupByKey`), in input order. -/
def partTrans (db : List (List Item)) (rank : Item → Option Nat) (np : Nat) (p : Nat) :
    List (List Nat) :=
  db.filterMap fun t => alGet (genCondTransaction t rank np) p

/-- `parallelFPGrowth.buildTree` folded over a partition's projected
transactions (`foldByKey(_Tree(), buildTree)`). -/
def buildTree (data : List (List Nat)) : Tree :=
  data.foldl (fun tr t => tr.addTransaction t 1) emptyTree

/-- Mining all partitions (`trees.flatMap(genAllFrequentPatterns)` plus
`dict(result)`): `groupByKey` produces a group exactly for the partitions
that received at least one projected transaction. -/
def minedAll (db : List (List Item)) (rank : Item → Option Nat) (np : Nat) (minSup : ℚ) :
    Option (List (List Nat × Nat)) :=
  ((List.range np).filter fun p => !(partTrans db rank np p).isEmpty).foldlM
    (fun acc p =>
      (genAllFrequentPatterns minSup np p (buildTree (partTrans db rank np p))).map
        fun sub => dictUpdate acc sub)
    []

/-- The final pattern mapping of `startMine`, for an already-parsed input
`db` and an already-resolved threshold `minSup`: the singleton patterns from
the first pass (Python keys them by the bare label string, modelled as the
one-element list), updated with the multi-item patterns translated back to
labels through `FPList`. -/
def startMineModel (db : List (List Item)) (minSup : ℚ) (np : Nat) :
    Option (List (List Item × Nat)) :=
  let fi := freqItemsSorted db minSup
  let fpl := fi.map Prod.fst
  (minedAll db (rankMap fpl) np minSup).bind fun mined =>
    (mined.mapM fun (e : List Nat × Nat) =>
        (e.1.mapM fun z => fpl.get? z).map fun labs => (labs, e.2)).map
      fun result => dictUpdate (fi.map fun e => ([e.1], e.2)) result

/-- Python `str.rstrip()`: drop trailing whitespace. -/
def pyRstrip (line : String) : String :=
  ⟨(line.toList.reverse.dropWhile Char.isWhitespace).reverse⟩

/-- Python `str.split` with a one-character separator (empty pieces kept):
the semantics of `split('\t')`. -/
def splitChars (sep : Char) : List Char → List (List Char)
  | [] => [[]]
  | c :: r =>
    let rest := splitChars sep r
    if c = sep then [] :: rest
    else
      match rest with
      | [] => [[c]]
      | g :: gs => (c :: g) :: gs

/-- The per-line parsing done by `startMine`:
`x.rstrip().split('\t')`.  The configured separator `sep` is accepted (it is
part of the object's configuration) but the code splits on a hard-coded tab,
so `sep` is unused here — that is the point of the separator claim. -/
def startMineSplitLine (_sep : Char) (line : String) : List String :=
  (splitChars '\t' (pyRstrip line).toList).map fun l => ⟨l⟩

/-- A Python runtime value in the positions `_convert` inspects:
an `int`, a `float` (modelled as an exact rational), a `str`, or a value of
any other type. -/
inductive PyVal : Type where
  | pint (n : Int)
  | pfloat (q : ℚ)
  | pstr (s : String)
  | pother
  deriving DecidableEq, Repr

/-- Outcome of `_convert`: a numeric threshold, an uncaught `ValueError`
raised by `int(...)`/`float(...)`, or the input value returned unchanged
(the `else` branch only prints "minSup is not correct" and falls through to
`return value`). -/
inductive ConvResult : Type where
  | ok (q : ℚ)
  | valueError
  | unconverted (v : PyVal)
  deriving DecidableEq, Repr

/-- Numeric value of a digit string (meaningful when all characters are
digits). -/
def digitsNat (l : List Char) : Nat :=
  l.foldl (fun a c => a * 10 + (c.toNat - 48)) 0

/-- Python `int(s)` on a plain decimal literal: optional minus sign then at
least one digit; anything else raises `ValueError`. -/
def pyParseInt (s : String) : Option Int :=
  match s.toList with
  | '-' :: rest =>
    if rest ≠ [] ∧ rest.all Char.isDigit then some (-(digitsNat rest : Int)) else none
  | l => if l ≠ [] ∧ l.all Char.isDigit then some ((digitsNat l : Int)) else none

/-- Python `float(s)` on a plain decimal literal containing a dot:
optional minus sign, digits, one dot, digits, with at least one digit
present; anything else raises `ValueError`. -/
def pyParseFloat (s : String) : Option ℚ :=
  let core : List Char → Option ℚ := fun l =>
    match l.splitOn '.' with
    | [ip, fp] =>
      if ip.all Char.isDigit ∧ fp.all Char.isDigit ∧ (ip ≠ [] ∨ fp ≠ []) then
        some ((digitsNat ip : ℚ) + (digitsNat fp : ℚ) / ((10 : ℚ) ^ fp.length))
      else none
    | _ => none
  match s.toList with
  | '-' :: rest => (core rest).map Neg.neg
  | l => core l

/-- `parallelFPGrowth._convert`, with `lno` the transaction count:
an `int` is kept as an absolute count; a `float` is multiplied by `lno`;
a `str` is parsed (through `float` when it contains a dot, else through
`int`, either of which may raise `ValueError`); any other value is printed
about and returned unchanged. -/
def pyConvert (lno : Nat) : PyVal → ConvResult
  | .pint n => .ok (n : ℚ)
  | .pfloat q => .ok ((lno : ℚ) * q)
  | .pstr s =>
    if '.' ∈ s.toList then
      match pyParseFloat s with
      | some q => .ok ((lno : ℚ) * q)
      | none => .valueError
    else
      match pyParseInt s with
      | some n => .ok ((n : ℚ))
      | none => .valueError
  | .pother => .unconverted .pother

/-- The walk described by the specification text for `addTransaction`:
identical to `addTransGo` except that a created node's `prefix` is the
sequence of ranks walked so far (the code instead stores
`transaction[0:transaction.index(item)]`). -/
def specAddGo (c : Nat) : Tree → List Nat → List Nat → Tree
  | t, _, [] => t
  | t, walked, item :: rest =>
    let q := walked ++ [item]
    let t1 : Tree :=
      match alGet t.nodes q with
      | some pr => { t with nodes := alPut t.nodes q (pr.1 + c, pr.2) }
      | none =>
        { t with
          nodes := t.nodes ++ [(q, (c, walked))]
          nodeLink := addNodeToNodeLink t.nodeLink item q }
    let t2 : Tree := { t1 with itemCount := alBump t1.itemCount item c }
    specAddGo c t2 q rest

/-- Modelled from the spec: `addTransaction` as §4.3 of the specification
describes it (create missing children with the walked-so-far ranks as
`prefix`, register them in `nodeLink`, bump counts, descend). -/
def specAddTransaction (t : Tree) (tr : List Nat) (c : Nat) : Tree :=
  specAddGo c t [] tr

/-- Number of transactions containing every item of `S` (the true support of
the itemset `S` in the input). -/
def trueSupport (db : List (List Item)) (S : Finset Item) : Nat :=
  (db.filter fun t => decide (∀ x ∈ S, x ∈ t)).length

/-- Weighted support of a rank set in a weighted transaction list. -/
def wsupp (W : List (List Nat × Nat)) (S : Finset Nat) : Nat :=
  ((W.filter fun e => decide (∀ x ∈ S, x ∈ e.1)).map Prod.snd).sum

/-- The `newTrans` list of `genCondTransaction`: the transaction mapped to
ranks, unranked items dropped, sorted ascending. -/
def rankedTrans (transaction : List Item) (rank : Item → Option Nat) : List Nat :=
  (transaction.filterMap rank).insertionSort (· ≤ ·)

/-- Fold `addTransaction` over a weighted transaction list. -/
def buildOf (W : List (List Nat × Nat)) : Tree :=
  W.foldl (fun t e => t.addTransaction e.1 e.2) emptyTree

/-- `listLeads q t`: `q` is an initial segment of `t`. -/
def listLeads : List Nat → List Nat → Bool
  | [], _ => true
  | _ :: _, [] => false
  | a :: q, b :: t => if a = b then listLeads q t else false

/-- Total weight of the transactions of `W` that pass through path `q`. -/
def pathWeight (W : List (List Nat × Nat)) (q : List Nat) : Nat :=
  ((W.filter fun e => listLeads q e.1).map Prod.snd).sum

/-- Specification of the `nodes` map of `buildOf W`: a node exists at a
nonempty path `q` iff some transaction passes through it; its count is the
total weight through it and its stored `prefix` is the part of `q` before
the first occurrence of `q`'s last item. -/
def nodeSpec (W : List (List Nat × Nat)) (q : List Nat) : Option (Nat × List Nat) :=
  match q.getLast? with
  | none => none
  | some item =>
    if W.any fun e => listLeads q e.1 then
      some (pathWeight W q, q.take (pyIndex item q))
    else none

/-- Total weighted number of occurrences of the rank `r` in `W`. -/
def occWeight (W : List (List Nat × Nat)) (r : Nat) : Nat :=
  (W.map fun e => e.2 * e.1.count r).sum

/-- Specification of the `itemCount` map of `buildOf W`. -/
def icSpec (W : List (List Nat × Nat)) (r : Nat) : Option Nat :=
  if W.any fun e => decide (r ∈ e.1) then some (occWeight W r) else none

/-- `nodeLink` entry of a tree, defaulting to the empty list. -/
def linkOf (t : Tree) (item : Nat) : List (List Nat) :=
  (alGet t.nodeLink item).getD []

/-- The node paths visited (created or bumped) by one `addTransaction`
walk that starts at `cur` with remaining items `rest`. -/
def pathSteps (cur : List Nat) : List Nat → List (List Nat)
  | [] => []
  | item :: rest => (cur ++ [item]) :: pathSteps (cur ++ [item]) rest

/-- One iteration of the `addTransaction` loop body. -/
def stepOnce (tr : List Nat) (c : Nat) (T : Tree) (cur : List Nat) (item : Nat) : Tree :=
  let q := cur ++ [item]
  let t1 : Tree :=
    match alGet T.nodes q with
    | some pr => { T with nodes := alPut T.nodes q (pr.1 + c, pr.2) }
    | none =>
      { T with
        nodes := T.nodes ++ [(q, (c, tr.take (pyIndex item tr)))]
        nodeLink := addNodeToNodeLink T.nodeLink item q }
  { t1 with itemCount := alBump t1.itemCount item c }

/-- Well-formedness maintained by every tree the code builds: dict keys are
unique and `nodeLink` values are nonempty lists. -/
def TreeWF (T : Tree) : Prop :=
  ((T.nodeLink.map Prod.fst).Nodup) ∧ ((T.itemCount.map Prod.fst).Nodup) ∧
    ∀ item l, alGet T.nodeLink item = some l → l ≠ []

/-- The `(prefix, count)` pairs read off the nodes referenced by a
`nodeLink` list, in list order: the insertions `generateConditionalTree`
performs. -/
def condData (t : Tree) (l : List (List Nat)) : List (List Nat × Nat) :=
  l.filterMap fun q => (alGet t.nodes q).map fun pr => (pr.2, pr.1)

/-- Number of database transactions whose rank sequence contains the whole
rank set `S`. -/
def suppRank (db : List (List Item)) (rk : Item → Option Nat) (S : Finset Nat) : Nat :=
  (db.filter fun t => decide (∀ x ∈ S, x ∈ rankedTrans t rk)).length

/-! ### Association-list toolkit -/

section AList

variable {κ β : Type} [DecidableEq κ]

theorem alGet_nil (k : κ) : alGet ([] : List (κ × β)) k = none := rfl

theorem alGet_cons (e : κ × β) (l : List (κ × β)) (k : κ) :
    alGet (e :: l) k = if e.1 = k then some e.2 else alGet l k := rfl

theorem alGet_append (l m : List (κ × β)) (k : κ) :
    alGet (l ++ m) k = ((alGet l k).rec (alGet m k) (fun v => some v)) := by
  induction l with
  | nil => rfl
  | cons e r ih =>
    by_cases h : e.1 = k
    · simp [alGet_cons, h]
    · simpa [alGet_cons, h] using ih

theorem alGet_append_of_isSome (l m : List (κ × β)) (k : κ) (h : (alGet l k).isSome) :
    alGet (l ++ m) k = alGet l k := by
  rw [alGet_append]
  cases hv : alGet l k with
  | none => rw [hv] at h; simp at h
  | some v => rfl

theorem alGet_append_of_eq_none (l m : List (κ × β)) (k : κ) (h : alGet l k = none) :
    alGet (l ++ m) k = alGet m k := by
  rw [alGet_append, h]

theorem alGet_isSome_iff_mem (l : List (κ × β)) (k : κ) :
    (alGet l k).isSome ↔ k ∈ l.map Prod.fst := by
  induction l with
  | nil => simp [alGet_nil]
  | cons e r ih =>
    by_cases h : e.1 = k
    · simp [alGet_cons, h]
    · simp only [alGet_cons, if_neg h, List.map_cons, List.mem_cons, ih]
      constructor
      · exact fun hm => Or.inr hm
      · rintro (hk | hm)
        · exact absurd hk.symm h
        · exact hm

theorem alGet_eq_none_iff_not_mem (l : List (κ × β)) (k : κ) :
    alGet l k = none ↔ k ∉ l.map Prod.fst := by
  rw [← alGet_isSome_iff_mem]
  cases alGet l k <;> simp

theorem mem_of_alGet_eq_some {l : List (κ × β)} {k : κ} {v : β}
    (h : alGet l k = some v) : (k, v) ∈ l := by
  induction l with
  | nil => simp [alGet_nil] at h
  | cons e r ih =>
    by_cases he : e.1 = k
    · rw [alGet_cons, if_pos he] at h
      obtain rfl : e.2 = v := by injection h
      obtain ⟨a, b⟩ := e
      obtain rfl : a = k := he
      exact List.mem_cons_self _ _
    · rw [alGet_cons, if_neg he] at h
      exact List.mem_cons_of_mem _ (ih h)

theorem alGet_eq_some_of_mem {l : List (κ × β)} (hnd : (l.map Prod.fst).Nodup)
    {k : κ} {v : β} (h : (k, v) ∈ l) : alGet l k = some v := by
  induction l with
  | nil => simp at h
  | cons e r ih =>
    simp only [List.map_cons, List.nodup_cons] at hnd
    rcases List.mem_cons.mp h with h | h
    · subst h; simp [alGet_cons]
    · have hk : e.1 ≠ k := by
        intro he
        exact hnd.1 (he ▸ (List.mem_map.mpr ⟨_, h, rfl⟩))
      rw [alGet_cons, if_neg hk]
      exact ih hnd.2 h

theorem alGet_eq_some_iff_mem {l : List (κ × β)} (hnd : (l.map Prod.fst).Nodup)
    (k : κ) (v : β) : alGet l k = some v ↔ (k, v) ∈ l :=
  ⟨mem_of_alGet_eq_some, alGet_eq_some_of_mem hnd⟩

theorem alGet_alPut_self (l : List (κ × β)) (k : κ) (v : β) :
    alGet (alPut l k v) k = some v := by
  induction l with
  | nil => simp [alPut, alGet_cons]
  | cons e r ih =>
    by_cases h : e.1 = k
    · simp [alPut, h, alGet_cons]
    · simp [alPut, h, alGet_cons, ih]

theorem alGet_alPut_ne (l : List (κ × β)) (k k' : κ) (v : β) (h : k ≠ k') :
    alGet (alPut l k v) k' = alGet l k' := by
  induction l with
  | nil => simp [alPut, alGet_cons, alGet_nil, h]
  | cons e r ih =>
    by_cases he : e.1 = k
    · simp [alPut, he, alGet_cons, h]
    · simp [alPut, he, alGet_cons, ih]

theorem alGet_alPut (l : List (κ × β)) (k k' : κ) (v : β) :
    alGet (alPut l k v) k' = if k = k' then some v else alGet l k' := by
  by_cases h : k = k'
  · subst h; simp [alGet_alPut_self]
  · simp [h, alGet_alPut_ne l k k' v h]

theorem alPut_keys (l : List (κ × β)) (k : κ) (v : β) :
    (alPut l k v).map Prod.fst =
      if k ∈ l.map Prod.fst then l.map Prod.fst else l.map Prod.fst ++ [k] := by
  induction l with
  | nil => simp [alPut]
  | cons e r ih =>
    by_cases h : e.1 = k
    · simp [alPut, h]
    · have : k ∈ (e :: r).map Prod.fst ↔ k ∈ r.map Prod.fst := by
        simp only [List.map_cons, List.mem_cons]
        constructor
        · rintro (hk | hm)
          · exact absurd hk.symm h
          · exact hm
        · exact fun hm => Or.inr hm
      by_cases hm : k ∈ r.map Prod.fst
      · simp [alPut, h, ih, hm, this]
      · have hne : ¬(k = e.1) := fun hk => h hk.symm
        simp [alPut, h, ih, hm, this, hne]

theorem alPut_nodup_keys (l : List (κ × β)) (k : κ) (v : β)
    (hnd : (l.map Prod.fst).Nodup) : ((alPut l k v).map Prod.fst).Nodup := by
  rw [alPut_keys]
  by_cases h : k ∈ l.map Prod.fst
  · simpa [h]
  · simpa [h] using List.Nodup.append hnd (List.nodup_singleton k) (by simpa using h)

theorem alGet_alBump (l : List (κ × Nat)) (k k' : κ) (c : Nat) :
    alGet (alBump l k c) k' =
      if k = k' then some ((alGet l k).getD 0 + c) else alGet l k' := by
  unfold alBump
  exact alGet_alPut l k k' _

theorem alBump_nodup_keys (l : List (κ × Nat)) (k : κ) (c : Nat)
    (hnd : (l.map Prod.fst).Nodup) : ((alBump l k c).map Prod.fst).Nodup :=
  alPut_nodup_keys l k _ hnd

theorem dictUpdate_nil (d : List (κ × β)) : dictUpdate d [] = d := rfl

theorem dictUpdate_cons (d : List (κ × β)) (e : κ × β) (r : List (κ × β)) :
    dictUpdate d (e :: r) = dictUpdate (alPut d e.1 e.2) r := rfl

end AList

/-! ### C4: `_convert` -/

/-- C4 counterexample: on a value that is neither `int`, `float` nor `str`
(e.g. a list), `_convert` does not fail at all — it prints a message and
returns the value unchanged, so the run silently proceeds instead of raising
an `InvalidConfiguration` error (no such error exists in the code). -/
theorem convert_cases_cex :
    pyConvert 5 PyVal.pother = ConvResult.unconverted PyVal.pother ∧
      ConvResult.unconverted PyVal.pother ≠ ConvResult.valueError := by
  decide

/-- C4 (amended): `_convert` resolves the minimum support before mining:
an `int` is used as an absolute count; a `float` is multiplied by the total
transaction count `lno`; a `str` containing a dot is parsed as a float and
multiplied by `lno`, a dot-free `str` is parsed as an absolute integer
count, and a non-numeric `str` raises an uncaught `ValueError`; a value of
any other type does not fail: the code prints "minSup is not correct" and
returns the value unchanged, silently proceeding. -/
theorem convert_cases (lno : Nat) :
    (∀ n : Int, pyConvert lno (.pint n) = .ok (n : ℚ)) ∧
    (∀ q : ℚ, pyConvert lno (.pfloat q) = .ok ((lno : ℚ) * q)) ∧
    (∀ s q, '.' ∈ s.toList → pyParseFloat s = some q →
      pyConvert lno (.pstr s) = .ok ((lno : ℚ) * q)) ∧
    (∀ s, '.' ∈ s.toList → pyParseFloat s = none →
      pyConvert lno (.pstr s) = .valueError) ∧
    (∀ s n, '.' ∉ s.toList → pyParseInt s = some n →
      pyConvert lno (.pstr s) = .ok (n : ℚ)) ∧
    (∀ s, '.' ∉ s.toList → pyParseInt s = none →
      pyConvert lno (.pstr s) = .valueError) ∧
    pyConvert lno .pother = .unconverted .pother := by
  refine ⟨fun n => rfl, fun q => rfl, ?_, ?_, ?_, ?_, rfl⟩
  · intro s q hdot hp
    simp only [pyConvert]
    rw [if_pos hdot, hp]
  · intro s hdot hp
    simp only [pyConvert]
    rw [if_pos hdot, hp]
  · intro s n hdot hp
    simp only [pyConvert]
    rw [if_neg hdot, hp]
  · intro s hdot hp
    simp only [pyConvert]
    rw [if_neg hdot, hp]

/-- Witness for `convert_cases` at `lno = 4` and the dot-free numeric string
`"7"`. -/
theorem convert_cases_witness :
    ('.' ∉ "7".toList) ∧ pyParseInt "7" = some 7 ∧
      pyConvert 4 (.pstr "7") = .ok ((7 : Int) : ℚ) :=
  ⟨by decide, by decide,
    (convert_cases 4).2.2.2.2.1 "7" 7 (by decide) (by decide)⟩

/-! ### C5: the separator is ignored by `startMine` -/

/-- C5: with the configured separator `','` and the line `"a,b"`,
`startMine`'s line parsing (`x.rstrip().split('\t')`) yields the single
item `"a,b"` instead of the two items `"a"`, `"b"` the documented,
configurable separator would produce: the `sep` argument accepted and
stored by `__init__` is never used by `startMine`. -/
theorem split_ignores_sep :
    startMineSplitLine ',' "a,b" = ["a,b"] ∧
      startMineSplitLine ',' "a,b" ≠ ["a", "b"] := by
  decide

/-! ### C8: `addTransaction` walk -/

theorem pyIndex_nil (a : Nat) : pyIndex a [] = 0 := rfl

theorem pyIndex_cons (a b : Nat) (t : List Nat) :
    pyIndex a (b :: t) = if b = a then 0 else pyIndex a t + 1 := rfl

theorem pyIndex_append_not_mem (item : Nat) (cur rest : List Nat) (h : item ∉ cur) :
    pyIndex item (cur ++ item :: rest) = cur.length := by
  induction cur with
  | nil => simp [pyIndex]
  | cons a r ih =>
    have ha : a ≠ item := fun hh => h (hh ▸ List.mem_cons_self a r)
    have : item ∉ r := fun hm => h (List.mem_cons_of_mem a hm)
    simp [pyIndex_cons, ha, ih this]

theorem addTransGo_eq_specAddGo (tr : List Nat) (c : Nat) :
    ∀ (rest cur : List Nat) (t : Tree), cur ++ rest = tr → tr.Nodup →
      addTransGo tr c t cur rest = specAddGo c t cur rest := by
  intro rest
  induction rest with
  | nil => intro cur t _ _; rfl
  | cons item rest' ih =>
    intro cur t heq hnd
    have hitem : item ∉ cur := by
      have hnd' : (cur ++ item :: rest').Nodup := heq ▸ hnd
      intro hm
      exact (List.disjoint_of_nodup_append hnd') hm (List.mem_cons_self item rest')
    have hpfx : tr.take (pyIndex item tr) = cur := by
      rw [← heq, pyIndex_append_not_mem item cur rest' hitem, List.take_left]
    show addTransGo tr c _ _ (item :: rest') = specAddGo c _ _ (item :: rest')
    rw [addTransGo, specAddGo, hpfx]
    exact ih (cur ++ [item]) _ (by rw [List.append_assoc]; exact heq) hnd

/-- C8: on a transaction of distinct ranks, `addTransaction` performs
exactly the walk of the specification: from the root, for each rank in
order, it creates the missing child with `prefix` equal to the ranks walked
so far and registers it in `nodeLink`, adds `count` to the child's count and
to `itemCount`, and descends; nothing else changes (the code's stored
`transaction[0:transaction.index(item)]` equals the walked-so-far sequence
precisely because the ranks are distinct). -/
theorem addTransaction_matches_spec (t : Tree) (tr : List Nat) (c : Nat)
    (h : tr.Nodup) : t.addTransaction tr c = specAddTransaction t tr c :=
  addTransGo_eq_specAddGo tr c tr [] t rfl h

/-- Witness for `addTransaction_matches_spec` on the transaction
`[0, 2, 5]`. -/
theorem addTransaction_matches_spec_witness :
    ([0, 2, 5] : List Nat).Nodup ∧
      emptyTree.addTransaction [0, 2, 5] 1 = specAddTransaction emptyTree [0, 2, 5] 1 :=
  ⟨by decide, addTransaction_matches_spec emptyTree [0, 2, 5] 1 (by decide)⟩

/-! ### C2: `genCondTransaction` -/


theorem genCondTransaction_eq_fold (transaction : List Item)
    (rank : Item → Option Nat) (np : Nat) :
    genCondTransaction transaction rank np =
      (rankedTrans transaction rank).reverse.foldl
        (fun acc i =>
          if (alGet acc (getPartitionId np i)).isSome then acc
          else acc ++
            [(getPartitionId np i,
              (rankedTrans transaction rank).take
                (pyIndex i (rankedTrans transaction rank) + 1))])
        [] := rfl

theorem condFold_keys_nodup (T : List Nat) (np : Nat) :
    ∀ (R : List Nat) (acc : List (Nat × List Nat)), (acc.map Prod.fst).Nodup →
      ((R.foldl
          (fun acc i =>
            if (alGet acc (getPartitionId np i)).isSome then acc
            else acc ++ [(getPartitionId np i, T.take (pyIndex i T + 1))])
          acc).map Prod.fst).Nodup := by
  intro R
  induction R with
  | nil => intro acc h; exact h
  | cons i R ih =>
    intro acc h
    rw [List.foldl_cons]
    by_cases hs : (alGet acc (getPartitionId np i)).isSome
    · rw [if_pos hs]; exact ih acc h
    · rw [if_neg hs]
      refine ih _ ?_
      have hnm : getPartitionId np i ∉ acc.map Prod.fst := by
        rw [← alGet_isSome_iff_mem]; exact hs
      simpa using List.Nodup.append h (List.nodup_singleton _) (by simpa using hnm)

theorem condFold_get (T : List Nat) (np : Nat) :
    ∀ (R : List Nat) (acc : List (Nat × List Nat)) (p : Nat),
      alGet (R.foldl
          (fun acc i =>
            if (alGet acc (getPartitionId np i)).isSome then acc
            else acc ++ [(getPartitionId np i, T.take (pyIndex i T + 1))])
          acc) p =
        match alGet acc p with
        | some l => some l
        | none => (R.find? fun r => getPartitionId np r = p).map
            fun m => T.take (pyIndex m T + 1) := by
  intro R
  induction R with
  | nil =>
    intro acc p
    rw [List.foldl_nil]
    cases h : alGet acc p <;> rfl
  | cons i R ih =>
    intro acc p
    rw [List.foldl_cons]
    by_cases hs : (alGet acc (getPartitionId np i)).isSome
    · rw [if_pos hs, ih acc p]
      by_cases hp : getPartitionId np i = p
      · subst hp
        obtain ⟨l, hl⟩ := Option.isSome_iff_exists.mp hs
        rw [hl]
      · have : (List.find? (fun r => decide (getPartitionId np r = p)) (i :: R)) =
            List.find? (fun r => decide (getPartitionId np r = p)) R := by
          rw [List.find?_cons_of_neg]
          simpa using hp
        rw [this]
    · rw [if_neg hs]
      have hnone : alGet acc (getPartitionId np i) = none :=
        Option.not_isSome_iff_eq_none.mp hs
      rw [ih _ p]
      by_cases hp : getPartitionId np i = p
      · subst hp
        have hacc : alGet (acc ++ [(getPartitionId np i, T.take (pyIndex i T + 1))])
            (getPartitionId np i) = some (T.take (pyIndex i T + 1)) := by
          rw [alGet_append_of_eq_none _ _ _ hnone, alGet_cons]
          simp
        rw [hacc, hnone]
        have hfind : (List.find? (fun r => decide (getPartitionId np r = getPartitionId np i))
            (i :: R)) = some i := List.find?_cons_of_pos _ (by simp)
        rw [hfind]
        rfl
      · have hacc : alGet (acc ++ [(getPartitionId np i, T.take (pyIndex i T + 1))]) p =
            alGet acc p := by
          rw [alGet_append]
          cases hv : alGet acc p with
          | none => rw [alGet_cons]; simp [hp, alGet_nil]
          | some l => rfl
        rw [hacc]
        have : (List.find? (fun r => decide (getPartitionId np r = p)) (i :: R)) =
            List.find? (fun r => decide (getPartitionId np r = p)) R := by
          rw [List.find?_cons_of_neg]
          simpa using hp
        rw [this]

theorem find?_max_of_sorted_ge (f : Nat → Bool) :
    ∀ (R : List Nat), List.Pairwise (fun a b : Nat => b ≤ a) R →
      ∀ m, R.find? f = some m → ∀ r ∈ R, f r → r ≤ m := by
  intro R
  induction R with
  | nil => intro _ m hm; simp at hm
  | cons i R ih =>
    intro hpw m hm r hr hf
    rcases List.pairwise_cons.mp hpw with ⟨hle, hpw'⟩
    by_cases hi : f i
    · rw [List.find?_cons_of_pos _ hi] at hm
      obtain rfl : i = m := by injection hm
      rcases List.mem_cons.mp hr with rfl | hr'
      · exact le_refl r
      · exact hle r hr'
    · rw [List.find?_cons_of_neg _ (by simpa using hi)] at hm
      rcases List.mem_cons.mp hr with rfl | hr'
      · exact absurd hf (by simpa using hi)
      · exact ih hpw' m hm r hr' hf

theorem rankedTrans_sorted (transaction : List Item) (rank : Item → Option Nat) :
    List.Sorted (· ≤ ·) (rankedTrans transaction rank) :=
  List.sorted_insertionSort _ _

/-- C2: for the rank sequence `T` of a transaction (mapped to ranks,
unranked items dropped, sorted ascending), `genCondTransaction` emits at
most one pair per partition; it emits a pair for partition `p` iff `T`
contains a rank owned by `p`; and the emitted projected transaction is the
prefix of `T` up to and including (the first occurrence of) the highest
rank of `T` owned by `p`. -/
theorem genCondTransaction_spec (transaction : List Item)
    (rank : Item → Option Nat) (np : Nat) (_hnp : 1 ≤ np) :
    ((genCondTransaction transaction rank np).map Prod.fst).Nodup ∧
    (∀ p, (alGet (genCondTransaction transaction rank np) p).isSome ↔
      ∃ r ∈ rankedTrans transaction rank, getPartitionId np r = p) ∧
    (∀ p l, alGet (genCondTransaction transaction rank np) p = some l →
      ∃ m ∈ rankedTrans transaction rank, getPartitionId np m = p ∧
        (∀ r ∈ rankedTrans transaction rank, getPartitionId np r = p → r ≤ m) ∧
        l = (rankedTrans transaction rank).take
              (pyIndex m (rankedTrans transaction rank) + 1)) := by
  set T := rankedTrans transaction rank with hT
  have hget : ∀ p, alGet (genCondTransaction transaction rank np) p =
      (T.reverse.find? fun r => getPartitionId np r = p).map
        fun m => T.take (pyIndex m T + 1) := by
    intro p
    rw [genCondTransaction_eq_fold, ← hT, condFold_get T np T.reverse [] p]
    rfl
  have hrevpw : List.Pairwise (fun a b : Nat => b ≤ a) T.reverse := by
    rw [List.pairwise_reverse]
    exact rankedTrans_sorted transaction rank
  refine ⟨?_, ?_, ?_⟩
  · rw [genCondTransaction_eq_fold, ← hT]
    exact condFold_keys_nodup T np T.reverse [] (by simp)
  · intro p
    have hmap : ∀ (x : Option Nat),
        (x.map fun m => T.take (pyIndex m T + 1)).isSome = x.isSome := by
      intro x
      cases x <;> rfl
    rw [hget p, hmap, List.find?_isSome]
    constructor
    · rintro ⟨r, hr, hf⟩
      exact ⟨r, List.mem_reverse.mp hr, by simpa using hf⟩
    · rintro ⟨r, hr, hf⟩
      exact ⟨r, List.mem_reverse.mpr hr, by simpa using hf⟩
  · intro p l hl
    rw [hget p] at hl
    obtain ⟨m, hm, rfl⟩ := Option.map_eq_some'.mp hl
    refine ⟨m, List.mem_reverse.mp (List.mem_of_find?_eq_some hm), ?_, ?_, rfl⟩
    · simpa using List.find?_some hm
    · intro r hr hf
      exact find?_max_of_sorted_ge _ T.reverse hrevpw m hm r
        (List.mem_reverse.mpr hr) (by simpa using hf)

/-- Witness for `genCondTransaction_spec`: transaction `["b", "a", "c"]`
with ranks `a ↦ 0`, `b ↦ 1`, `c ↦ 3` and two partitions. -/
theorem genCondTransaction_spec_witness :
    1 ≤ 2 ∧
      (((genCondTransaction ["b", "a", "c"] (rankMap ["a", "b", "x", "c"]) 2).map
          Prod.fst).Nodup ∧
        (∀ p, (alGet (genCondTransaction ["b", "a", "c"]
            (rankMap ["a", "b", "x", "c"]) 2) p).isSome ↔
          ∃ r ∈ rankedTrans ["b", "a", "c"] (rankMap ["a", "b", "x", "c"]),
            getPartitionId 2 r = p) ∧
        (∀ p l, alGet (genCondTransaction ["b", "a", "c"]
            (rankMap ["a", "b", "x", "c"]) 2) p = some l →
          ∃ m ∈ rankedTrans ["b", "a", "c"] (rankMap ["a", "b", "x", "c"]),
            getPartitionId 2 m = p ∧
            (∀ r ∈ rankedTrans ["b", "a", "c"] (rankMap ["a", "b", "x", "c"]),
              getPartitionId 2 r = p → r ≤ m) ∧
            l = (rankedTrans ["b", "a", "c"] (rankMap ["a", "b", "x", "c"])).take
                  (pyIndex m (rankedTrans ["b", "a", "c"]
                    (rankMap ["a", "b", "x", "c"])) + 1))) :=
  ⟨by decide,
    genCondTransaction_spec ["b", "a", "c"] (rankMap ["a", "b", "x", "c"]) 2 (by decide)⟩

/-! ### C6: mining order and the ownership filter -/

theorem foldlM_if_filter {α β : Type} (P : β → Prop) [DecidablePred P]
    (g : α → β → Option α) :
    ∀ (l : List β) (acc : α),
      l.foldlM (fun a i => if P i then g a i else pure a) acc =
        (l.filter fun i => P i).foldlM g acc := by
  intro l
  induction l with
  | nil => intro acc; rfl
  | cons i l ih =>
    intro acc
    by_cases h : P i
    · have hf : List.filter (fun i => decide (P i)) (i :: l) =
          i :: List.filter (fun i => decide (P i)) l := by
        simp [List.filter_cons, h]
      rw [List.foldlM_cons, if_pos h, hf, List.foldlM_cons]
      cases hg : g acc i with
      | none => rfl
      | some a => exact ih a
    · have hf : List.filter (fun i => decide (P i)) (i :: l) =
          List.filter (fun i => decide (P i)) l := by
        simp [List.filter_cons, h]
      rw [List.foldlM_cons, if_neg h, hf]
      exact ih acc

/-- C6: in `genAllFrequentPatterns` the tree's ranks are traversed in
ascending order of the tree's `itemCount` aggregate, and `genFreqPatterns`
is invoked for a rank exactly when the rank's owner partition
(`rank mod numPartitions`) equals the partition id of the mined tree: the
mining fold equals the fold over the owner-filtered rank list, so ranks
owned by other partitions (present only as context) are never mined. -/
theorem genAll_mines_owned_ranks (minSup : ℚ) (np p : Nat) (t : Tree) :
    List.Sorted (fun a b => a.2 ≤ b.2)
      (t.itemCount.insertionSort fun a b => a.2 ≤ b.2) ∧
    genAllFrequentPatterns minSup np p t =
      (((t.itemCount.insertionSort fun a b => a.2 ≤ b.2).map Prod.fst).filter
          fun i => getPartitionId np i = p).foldlM
        (fun acc i => (genFreqPatterns minSup (i + 1) i [i] t).map
          fun sub => dictUpdate acc sub)
        [] := by
  constructor
  · haveI : IsTotal (Nat × Nat) (fun a b => a.2 ≤ b.2) :=
      ⟨fun a b => Nat.le_total a.2 b.2⟩
    haveI : IsTrans (Nat × Nat) (fun a b => a.2 ≤ b.2) :=
      ⟨fun _ _ _ h1 h2 => le_trans h1 h2⟩
    exact List.sorted_insertionSort _ _
  · exact foldlM_if_filter (fun i => getPartitionId np i = p) _ _ []

/-! ### Tree characterization: the tree built by a sequence of insertions

`buildOf W` folds `addTransaction` over a weighted transaction list `W`.
The lemmas below characterize every observable of the resulting tree
(`nodes`, `nodeLink`, `itemCount`) as a function of `W`. -/









theorem listLeads_nil (t : List Nat) : listLeads [] t = true := rfl

theorem listLeads_cons_nil (a : Nat) (q : List Nat) :
    listLeads (a :: q) [] = false := rfl

theorem listLeads_cons_cons (a b : Nat) (q t : List Nat) :
    listLeads (a :: q) (b :: t) = if a = b then listLeads q t else false := rfl

theorem pathSteps_length {cur rest : List Nat} :
    ∀ q ∈ pathSteps cur rest, cur.length < q.length := by
  induction rest generalizing cur with
  | nil => intro q hq; simp [pathSteps] at hq
  | cons item rest ih =>
    intro q hq
    rcases List.mem_cons.mp hq with rfl | hq'
    · simp
    · have := ih q hq'
      simpa using Nat.lt_of_le_of_lt (Nat.le_succ cur.length) (by simpa using this)

theorem pathSteps_nodup (cur rest : List Nat) : (pathSteps cur rest).Nodup := by
  induction rest generalizing cur with
  | nil => exact List.nodup_nil
  | cons item rest ih =>
    refine List.nodup_cons.mpr ⟨?_, ih (cur ++ [item])⟩
    intro hmem
    have := pathSteps_length _ hmem
    simp at this

theorem pathSteps_mem (rest : List Nat) :
    ∀ (cur q : List Nat), q ∈ pathSteps cur rest ↔
      ∃ q', q = cur ++ q' ∧ q' ≠ [] ∧ listLeads q' rest := by
  induction rest with
  | nil =>
    intro cur q
    simp only [pathSteps, List.not_mem_nil, false_iff]
    rintro ⟨q', rfl, hne, hl⟩
    cases q' with
    | nil => exact hne rfl
    | cons a q' => simp [listLeads_cons_nil] at hl
  | cons item rest ih =>
    intro cur q
    simp only [pathSteps, List.mem_cons]
    constructor
    · rintro (rfl | hq)
      · exact ⟨[item], rfl, by simp, by simp [listLeads_cons_cons, listLeads_nil]⟩
      · obtain ⟨q', rfl, hne, hl⟩ := (ih (cur ++ [item]) q).mp hq
        exact ⟨item :: q', by simp, by simp, by simp [listLeads_cons_cons, hl]⟩
    · rintro ⟨q', rfl, hne, hl⟩
      cases q' with
      | nil => exact absurd rfl hne
      | cons a q'' =>
        rw [listLeads_cons_cons] at hl
        by_cases hab : a = item
        · subst hab
          rw [if_pos rfl] at hl
          cases q'' with
          | nil => left; simp
          | cons b q₃ =>
            right
            exact (ih (cur ++ [a]) _).mpr ⟨b :: q₃, by simp, by simp, hl⟩
        · rw [if_neg hab] at hl
          exact absurd hl (by simp)

theorem getLastD_concat (l : List Nat) (a d : Nat) : (l ++ [a]).getLastD d = a := by
  rw [List.getLastD_eq_getLast?, List.getLast?_concat]
  rfl

theorem take_pyIndex_of_leads :
    ∀ (q tr : List Nat), listLeads q tr → ∀ item, q.getLast? = some item →
      tr.take (pyIndex item tr) = q.take (pyIndex item q) := by
  intro q
  induction q with
  | nil => intro tr _ item h; simp at h
  | cons a q ih =>
    intro tr hl item hlast
    cases tr with
    | nil => simp [listLeads_cons_nil] at hl
    | cons b tr' =>
      rw [listLeads_cons_cons] at hl
      by_cases hab : a = b
      · subst hab
        rw [if_pos rfl] at hl
        by_cases hai : a = item
        · subst hai
          simp [pyIndex_cons]
        · cases q with
          | nil =>
            rw [List.getLast?_singleton] at hlast
            exact absurd (by injection hlast) hai
          | cons c q₃ =>
            have hlast' : (c :: q₃).getLast? = some item := by
              rwa [List.getLast?_cons_cons] at hlast
            have hrec := ih tr' hl item hlast'
            rw [pyIndex_cons, pyIndex_cons, if_neg hai, if_neg hai,
              List.take_succ_cons, List.take_succ_cons, hrec]
      · rw [if_neg hab] at hl
        exact absurd hl (by simp)


theorem addTransGo_cons (tr : List Nat) (c : Nat) (T : Tree) (cur item : _) (rest : List Nat) :
    addTransGo tr c T cur (item :: rest) =
      addTransGo tr c (stepOnce tr c T cur item) (cur ++ [item]) rest := rfl

theorem stepOnce_nodes_self (tr : List Nat) (c : Nat) (T : Tree) (cur : List Nat)
    (item : Nat) :
    alGet (stepOnce tr c T cur item).nodes (cur ++ [item]) =
      match alGet T.nodes (cur ++ [item]) with
      | some pr => some (pr.1 + c, pr.2)
      | none => some (c, tr.take (pyIndex item tr)) := by
  cases h : alGet T.nodes (cur ++ [item]) with
  | some pr =>
    simp only [stepOnce, h]
    exact alGet_alPut_self _ _ _
  | none =>
    simp only [stepOnce, h]
    rw [alGet_append_of_eq_none _ _ _ h, alGet_cons]
    simp

theorem stepOnce_nodes_ne (tr : List Nat) (c : Nat) (T : Tree) (cur : List Nat)
    (item : Nat) (q : List Nat) (hq : q ≠ cur ++ [item]) :
    alGet (stepOnce tr c T cur item).nodes q = alGet T.nodes q := by
  cases h : alGet T.nodes (cur ++ [item]) with
  | some pr =>
    simp only [stepOnce, h]
    exact alGet_alPut_ne _ _ _ _ fun he => hq he.symm
  | none =>
    simp only [stepOnce, h]
    rw [alGet_append]
    cases hv : alGet T.nodes q with
    | some pr => rfl
    | none =>
      rw [alGet_cons, if_neg fun he => hq he.symm, alGet_nil]

theorem stepOnce_nodeLink_created (tr : List Nat) (c : Nat) (T : Tree) (cur : List Nat)
    (item : Nat) (h : alGet T.nodes (cur ++ [item]) = none) :
    (stepOnce tr c T cur item).nodeLink =
      addNodeToNodeLink T.nodeLink item (cur ++ [item]) := by
  simp only [stepOnce, h]

theorem stepOnce_nodeLink_existing (tr : List Nat) (c : Nat) (T : Tree) (cur : List Nat)
    (item : Nat) (pr : Nat × List Nat) (h : alGet T.nodes (cur ++ [item]) = some pr) :
    (stepOnce tr c T cur item).nodeLink = T.nodeLink := by
  simp only [stepOnce, h]

theorem stepOnce_itemCount (tr : List Nat) (c : Nat) (T : Tree) (cur : List Nat)
    (item : Nat) :
    (stepOnce tr c T cur item).itemCount = alBump T.itemCount item c := by
  cases h : alGet T.nodes (cur ++ [item]) <;> simp only [stepOnce, h]

theorem addNodeToNodeLink_get_self (nl : List (Nat × List (List Nat))) (item : Nat)
    (q : List Nat) :
    alGet (addNodeToNodeLink nl item q) item = some ((alGet nl item).getD [] ++ [q]) := by
  unfold addNodeToNodeLink
  cases h : alGet nl item with
  | none =>
    rw [alGet_append_of_eq_none _ _ _ h, alGet_cons]
    simp
  | some l =>
    rw [alGet_alPut_self]
    rfl

theorem addNodeToNodeLink_get_ne (nl : List (Nat × List (List Nat))) (item item' : Nat)
    (q : List Nat) (h : item' ≠ item) :
    alGet (addNodeToNodeLink nl item q) item' = alGet nl item' := by
  unfold addNodeToNodeLink
  cases hg : alGet nl item with
  | none =>
    rw [alGet_append]
    cases hv : alGet nl item' with
    | some l => rfl
    | none =>
      rw [alGet_cons, if_neg fun he => h he.symm, alGet_nil]
  | some l =>
    exact alGet_alPut_ne _ _ _ _ fun he => h he.symm

/-- The `nodes` map after an `addTransaction` walk: paths on the walk are
bumped (or created with the code's take-index prefix); all others are
untouched. -/
theorem addTransGo_nodes (tr : List Nat) (c : Nat) :
    ∀ (rest cur : List Nat) (T : Tree) (q : List Nat),
      alGet (addTransGo tr c T cur rest).nodes q =
        if q ∈ pathSteps cur rest then
          match alGet T.nodes q with
          | some pr => some (pr.1 + c, pr.2)
          | none => some (c, tr.take (pyIndex (q.getLastD 0) tr))
        else alGet T.nodes q := by
  intro rest
  induction rest with
  | nil =>
    intro cur T q
    rw [if_neg (by simp [pathSteps])]
    rfl
  | cons item rest ih =>
    intro cur T q
    rw [addTransGo_cons, ih (cur ++ [item]) (stepOnce tr c T cur item) q]
    by_cases h0 : q = cur ++ [item]
    · subst h0
      have hnot : (cur ++ [item]) ∉ pathSteps (cur ++ [item]) rest := by
        intro hm
        have := pathSteps_length _ hm
        simp at this
      have hin : cur ++ [item] ∈ pathSteps cur (item :: rest) := by
        rw [pathSteps]
        exact List.mem_cons_self _ _
      rw [if_neg hnot, if_pos hin, stepOnce_nodes_self, getLastD_concat]
    · have hmem : q ∈ pathSteps cur (item :: rest) ↔
          q ∈ pathSteps (cur ++ [item]) rest := by
        show q ∈ (cur ++ [item]) :: pathSteps (cur ++ [item]) rest ↔ _
        rw [List.mem_cons]
        exact ⟨fun h => h.resolve_left h0, Or.inr⟩
      rw [stepOnce_nodes_ne tr c T cur item q h0]
      by_cases hm : q ∈ pathSteps (cur ++ [item]) rest
      · rw [if_pos hm, if_pos (hmem.mpr hm)]
      · rw [if_neg hm, if_neg fun hh => hm (hmem.mp hh)]


theorem emptyTree_WF : TreeWF emptyTree :=
  ⟨List.nodup_nil, List.nodup_nil, fun item l h => by simp [emptyTree, alGet_nil] at h⟩

theorem linkOf_ne_nil_iff (T : Tree) (hWF : TreeWF T) (item : Nat) :
    linkOf T item ≠ [] ↔ (alGet T.nodeLink item).isSome := by
  unfold linkOf
  cases h : alGet T.nodeLink item with
  | none => simp
  | some l => simpa using hWF.2.2 item l h

theorem stepOnce_WF (tr : List Nat) (c : Nat) (T : Tree) (cur : List Nat) (item : Nat)
    (hWF : TreeWF T) : TreeWF (stepOnce tr c T cur item) := by
  obtain ⟨h1, h2, h3⟩ := hWF
  cases h : alGet T.nodes (cur ++ [item]) with
  | some pr =>
    rw [TreeWF, stepOnce_nodeLink_existing tr c T cur item pr h, stepOnce_itemCount]
    exact ⟨h1, alBump_nodup_keys _ _ _ h2, h3⟩
  | none =>
    rw [TreeWF, stepOnce_nodeLink_created tr c T cur item h, stepOnce_itemCount]
    refine ⟨?_, alBump_nodup_keys _ _ _ h2, ?_⟩
    · unfold addNodeToNodeLink
      cases hg : alGet T.nodeLink item with
      | none =>
        have : item ∉ T.nodeLink.map Prod.fst := by
          rw [← alGet_isSome_iff_mem, hg]
          simp
        simpa using List.Nodup.append h1 (List.nodup_singleton _) (by simpa using this)
      | some l => exact alPut_nodup_keys _ _ _ h1
    · intro item' l' hl'
      by_cases hii : item' = item
      · subst hii
        rw [addNodeToNodeLink_get_self] at hl'
        obtain rfl : (alGet T.nodeLink item').getD [] ++ [cur ++ [item']] = l' := by
          injection hl'
        simp
      · rw [addNodeToNodeLink_get_ne _ _ _ _ hii] at hl'
        exact h3 item' l' hl'

theorem addTransGo_WF (tr : List Nat) (c : Nat) :
    ∀ (rest cur : List Nat) (T : Tree), TreeWF T →
      TreeWF (addTransGo tr c T cur rest) := by
  intro rest
  induction rest with
  | nil => intro cur T h; exact h
  | cons item rest ih =>
    intro cur T h
    rw [addTransGo_cons]
    exact ih _ _ (stepOnce_WF tr c T cur item h)

/-- The `nodeLink` lists after an `addTransaction` walk: each rank's list is
extended, in creation order, with the newly created node paths carrying that
rank. -/
theorem addTransGo_linkOf (tr : List Nat) (c : Nat) :
    ∀ (rest cur : List Nat) (T : Tree) (item : Nat),
      linkOf (addTransGo tr c T cur rest) item =
        linkOf T item ++ ((pathSteps cur rest).filter fun q =>
          decide (q.getLastD 0 = item ∧ alGet T.nodes q = none)) := by
  intro rest
  induction rest with
  | nil =>
    intro cur T item
    simp only [pathSteps, List.filter_nil, List.append_nil]
    rfl
  | cons item0 rest ih =>
    intro cur T item
    rw [addTransGo_cons, ih (cur ++ [item0]) (stepOnce tr c T cur item0) item]
    have hfc : ((pathSteps (cur ++ [item0]) rest).filter fun q =>
          decide (q.getLastD 0 = item ∧ alGet (stepOnce tr c T cur item0).nodes q = none)) =
        ((pathSteps (cur ++ [item0]) rest).filter fun q =>
          decide (q.getLastD 0 = item ∧ alGet T.nodes q = none)) := by
      refine List.filter_congr ?_
      intro q hq
      have hne : q ≠ cur ++ [item0] := by
        intro he
        have := pathSteps_length _ hq
        rw [he] at this
        simp at this
      rw [stepOnce_nodes_ne tr c T cur item0 q hne]
    rw [hfc]
    have hsteps : pathSteps cur (item0 :: rest) =
        (cur ++ [item0]) :: pathSteps (cur ++ [item0]) rest := rfl
    rw [hsteps, List.filter_cons]
    cases h : alGet T.nodes (cur ++ [item0]) with
    | some pr =>
      have hlink : linkOf (stepOnce tr c T cur item0) item = linkOf T item := by
        unfold linkOf
        rw [stepOnce_nodeLink_existing tr c T cur item0 pr h]
      rw [hlink]
      simp
    | none =>
      have hlink0 : (stepOnce tr c T cur item0).nodeLink =
          addNodeToNodeLink T.nodeLink item0 (cur ++ [item0]) :=
        stepOnce_nodeLink_created tr c T cur item0 h
      by_cases hii : item0 = item
      · subst hii
        have hlink : linkOf (stepOnce tr c T cur item0) item0 =
            linkOf T item0 ++ [cur ++ [item0]] := by
          unfold linkOf
          rw [hlink0, addNodeToNodeLink_get_self]
          rfl
        rw [hlink]
        simp [getLastD_concat, List.append_assoc]
      · have hlink : linkOf (stepOnce tr c T cur item0) item = linkOf T item := by
          unfold linkOf
          rw [hlink0, addNodeToNodeLink_get_ne _ _ _ _ fun he => hii he.symm]
        rw [hlink]
        simp [getLastD_concat, hii]

/-- The `itemCount` map after an `addTransaction` walk. -/
theorem addTransGo_itemCount (tr : List Nat) (c : Nat) :
    ∀ (rest cur : List Nat) (T : Tree) (r : Nat),
      alGet (addTransGo tr c T cur rest).itemCount r =
        if r ∈ rest then some ((alGet T.itemCount r).getD 0 + c * rest.count r)
        else alGet T.itemCount r := by
  intro rest
  induction rest with
  | nil =>
    intro cur T r
    rw [if_neg (List.not_mem_nil r)]
    rfl
  | cons item rest ih =>
    intro cur T r
    rw [addTransGo_cons, ih (cur ++ [item]) (stepOnce tr c T cur item) r]
    have hic : alGet (stepOnce tr c T cur item).itemCount r =
        if item = r then some ((alGet T.itemCount item).getD 0 + c)
        else alGet T.itemCount r := by
      rw [stepOnce_itemCount, alGet_alBump]
    by_cases hir : item = r
    · subst hir
      have hcnt : (item :: rest).count item = rest.count item + 1 := by
        rw [List.count_cons]
        simp
      by_cases hmem : item ∈ rest
      · rw [if_pos hmem, if_pos (List.mem_cons_self item rest), hic, if_pos rfl, hcnt]
        simp only [Option.getD_some]
        congr 1
        ring
      · rw [if_neg hmem, if_pos (List.mem_cons_self item rest), hic, if_pos rfl, hcnt]
        have hc0 : rest.count item = 0 := List.count_eq_zero_of_not_mem hmem
        rw [hc0]
        simp
    · have hcnt : (item :: rest).count r = rest.count r := by
        rw [List.count_cons]
        simp [hir]
      by_cases hmem : r ∈ rest
      · have hmem2 : r ∈ item :: rest := List.mem_cons_of_mem _ hmem
        rw [if_pos hmem, if_pos hmem2, hic, if_neg hir, hcnt]
      · have hmem2 : r ∉ item :: rest := by
          intro hm
          rcases List.mem_cons.mp hm with he | hm2
          · exact hir he.symm
          · exact hmem hm2
        rw [if_neg hmem, if_neg hmem2, hic, if_neg hir]


/-! ### Characterization of `buildOf` -/

theorem buildOf_append (W : List (List Nat × Nat)) (e : List Nat × Nat) :
    buildOf (W ++ [e]) = (buildOf W).addTransaction e.1 e.2 := by
  unfold buildOf
  rw [List.foldl_append]
  rfl

theorem pathSteps_nil_mem (tr q : List Nat) :
    q ∈ pathSteps [] tr ↔ (q ≠ [] ∧ listLeads q tr) := by
  rw [pathSteps_mem]
  constructor
  · rintro ⟨q', rfl, h1, h2⟩
    simpa using ⟨h1, h2⟩
  · rintro ⟨h1, h2⟩
    exact ⟨q, by simp, h1, h2⟩

/-- `addTransaction` on the `nodes` map, with the walk condition expressed
through `listLeads`. -/
theorem addTransaction_nodes (T : Tree) (tr : List Nat) (c : Nat) (q : List Nat) :
    alGet (T.addTransaction tr c).nodes q =
      if q ≠ [] ∧ listLeads q tr then
        match alGet T.nodes q with
        | some pr => some (pr.1 + c, pr.2)
        | none => some (c, tr.take (pyIndex (q.getLastD 0) tr))
      else alGet T.nodes q := by
  show alGet (addTransGo tr c T [] tr).nodes q = _
  rw [addTransGo_nodes]
  by_cases h : q ∈ pathSteps [] tr
  · rw [if_pos h, if_pos ((pathSteps_nil_mem tr q).mp h)]
  · rw [if_neg h, if_neg fun hh => h ((pathSteps_nil_mem tr q).mpr hh)]

theorem pathWeight_append_single (W : List (List Nat × Nat)) (e : List Nat × Nat)
    (q : List Nat) :
    pathWeight (W ++ [e]) q =
      pathWeight W q + (if listLeads q e.1 then e.2 else 0) := by
  unfold pathWeight
  rw [List.filter_append, List.map_append, List.sum_append]
  congr 1
  by_cases h : listLeads q e.1
  · simp [h]
  · simp [h]

theorem pathWeight_eq_zero (W : List (List Nat × Nat)) (q : List Nat)
    (h : ∀ e ∈ W, ¬(listLeads q e.1 = true)) : pathWeight W q = 0 := by
  unfold pathWeight
  rw [List.filter_eq_nil_iff.mpr h]
  rfl

theorem mem_of_leads {t : List Nat} (x : Nat) :
    ∀ (q' : List Nat), listLeads q' t → x ∈ q' → x ∈ t := by
  intro q'
  induction q' generalizing t with
  | nil => intro _ h; simp at h
  | cons a q' ih =>
    intro hl hx
    cases t with
    | nil => simp [listLeads_cons_nil] at hl
    | cons b t' =>
      rw [listLeads_cons_cons] at hl
      by_cases hab : a = b
      · subst hab
        rw [if_pos rfl] at hl
        rcases List.mem_cons.mp hx with rfl | hx'
        · exact List.mem_cons_self _ _
        · exact List.mem_cons_of_mem _ (ih hl hx')
      · rw [if_neg hab] at hl
        exact absurd hl (by simp)

/-- The `nodes` map of `buildOf W` equals its specification. -/
theorem buildOf_nodes (W : List (List Nat × Nat)) (q : List Nat) :
    alGet (buildOf W).nodes q = nodeSpec W q := by
  induction W using List.reverseRecOn with
  | nil =>
    cases hq : q.getLast? <;>
      simp [buildOf, emptyTree, alGet_nil, nodeSpec, hq]
  | append_singleton W e ih =>
    rw [buildOf_append, addTransaction_nodes, ih]
    cases hq : q.getLast? with
    | none =>
      have hq0 : q = [] := List.getLast?_eq_none_iff.mp hq
      subst hq0
      rw [if_neg (by simp)]
      unfold nodeSpec
      simp
    | some item =>
      have hq0 : q ≠ [] := by
        intro h
        subst h
        simp at hq
      have hlastD : q.getLastD 0 = item := by
        rw [List.getLastD_eq_getLast?, hq]
        rfl
      by_cases hl : listLeads q e.1
      · rw [if_pos ⟨hq0, hl⟩]
        unfold nodeSpec
        rw [hq]
        cases hany : W.any fun e => listLeads q e.1 with
        | true =>
          simp [List.any_append, hany, hl, pathWeight_append_single]
        | false =>
          have hw0 : pathWeight W q = 0 := by
            refine pathWeight_eq_zero W q ?_
            intro e' he' hle
            have hh : (W.any fun e => listLeads q e.1) = true :=
              List.any_eq_true.mpr ⟨e', he', hle⟩
            rw [hany] at hh
            exact Bool.noConfusion hh
          have htake : e.1.take (pyIndex item e.1) = q.take (pyIndex item q) :=
            take_pyIndex_of_leads q e.1 hl item hq
          simp [List.any_append, hany, hl, pathWeight_append_single, hw0, hlastD, htake, hq]
      · rw [if_neg fun hh => hl hh.2]
        unfold nodeSpec
        rw [hq]
        cases hany : W.any fun e => listLeads q e.1 with
        | true =>
          simp [List.any_append, hany, hl, pathWeight_append_single]
        | false =>
          simp [List.any_append, hany, hl]


theorem buildOf_WF (W : List (List Nat × Nat)) : TreeWF (buildOf W) := by
  suffices h : ∀ (V : List (List Nat × Nat)) (T : Tree), TreeWF T →
      TreeWF (V.foldl (fun t e => t.addTransaction e.1 e.2) T) by
    exact h W emptyTree emptyTree_WF
  intro V
  induction V with
  | nil => intro T h; exact h
  | cons e V ih =>
    intro T h
    rw [List.foldl_cons]
    exact ih _ (addTransGo_WF e.1 e.2 e.1 [] T h)

/-- `addTransaction` on a `nodeLink` list. -/
theorem addTransaction_linkOf (T : Tree) (tr : List Nat) (c : Nat) (item : Nat) :
    linkOf (T.addTransaction tr c) item =
      linkOf T item ++ ((pathSteps [] tr).filter fun q =>
        decide (q.getLastD 0 = item ∧ alGet T.nodes q = none)) :=
  addTransGo_linkOf tr c tr [] T item

/-- Membership in a `nodeLink` list of `buildOf W`: exactly the existing
node paths ending in the given rank. -/
theorem buildOf_linkOf_mem (W : List (List Nat × Nat)) (item : Nat) (q : List Nat) :
    q ∈ linkOf (buildOf W) item ↔
      ((alGet (buildOf W).nodes q).isSome ∧ q.getLast? = some item) := by
  induction W using List.reverseRecOn with
  | nil =>
    simp [buildOf, emptyTree, linkOf, alGet_nil]
  | append_singleton W e ih =>
    rw [buildOf_append, addTransaction_linkOf, List.mem_append, ih,
      addTransaction_nodes]
    constructor
    · rintro (⟨hs, hlast⟩ | hmem)
      · refine ⟨?_, hlast⟩
        by_cases hc : q ≠ [] ∧ listLeads q e.1
        · rw [if_pos hc]
          obtain ⟨v, hv⟩ := Option.isSome_iff_exists.mp hs
          rw [hv]
          rfl
        · rw [if_neg hc]
          exact hs
      · rw [List.mem_filter] at hmem
        obtain ⟨hps, hcond⟩ := hmem
        rw [decide_eq_true_eq] at hcond
        obtain ⟨hlastD, hnone⟩ := hcond
        obtain ⟨hne, hleads⟩ := (pathSteps_nil_mem e.1 q).mp hps
        refine ⟨?_, ?_⟩
        · rw [if_pos ⟨hne, hleads⟩, hnone]
          rfl
        · cases hcase : q.getLast? with
          | none => exact absurd (List.getLast?_eq_none_iff.mp hcase) hne
          | some b =>
            rw [List.getLastD_eq_getLast?, hcase] at hlastD
            simp only [Option.getD_some] at hlastD
            rw [hlastD]
    · rintro ⟨hs, hlast⟩
      by_cases hc : q ≠ [] ∧ listLeads q e.1
      · rw [if_pos hc] at hs
        cases hnodes : alGet (buildOf W).nodes q with
        | some pr =>
          left
          exact ⟨rfl, hlast⟩
        | none =>
          right
          rw [List.mem_filter]
          refine ⟨(pathSteps_nil_mem e.1 q).mpr hc, ?_⟩
          rw [decide_eq_true_eq]
          exact ⟨by rw [List.getLastD_eq_getLast?, hlast]; rfl, hnodes⟩
      · rw [if_neg hc] at hs
        left
        exact ⟨hs, hlast⟩

theorem buildOf_linkOf_nodup (W : List (List Nat × Nat)) (item : Nat) :
    (linkOf (buildOf W) item).Nodup := by
  induction W using List.reverseRecOn with
  | nil => simp [buildOf, emptyTree, linkOf, alGet_nil]
  | append_singleton W e ih =>
    rw [buildOf_append, addTransaction_linkOf]
    refine List.Nodup.append ih ((pathSteps_nodup [] e.1).filter _) ?_
    intro q hq hq'
    rw [List.mem_filter, decide_eq_true_eq] at hq'
    have hsome := (buildOf_linkOf_mem W item q).mp hq
    rw [hq'.2.2] at hsome
    exact Bool.noConfusion hsome.1

/-- `addTransaction` on the `itemCount` map. -/
theorem addTransaction_itemCount (T : Tree) (tr : List Nat) (c : Nat) (r : Nat) :
    alGet (T.addTransaction tr c).itemCount r =
      if r ∈ tr then some ((alGet T.itemCount r).getD 0 + c * tr.count r)
      else alGet T.itemCount r :=
  addTransGo_itemCount tr c tr [] T r

theorem occWeight_append_single (W : List (List Nat × Nat)) (e : List Nat × Nat)
    (r : Nat) :
    occWeight (W ++ [e]) r = occWeight W r + e.2 * e.1.count r := by
  unfold occWeight
  rw [List.map_append, List.sum_append]
  rfl

/-- The `itemCount` map of `buildOf W` equals its specification. -/
theorem buildOf_itemCount (W : List (List Nat × Nat)) (r : Nat) :
    alGet (buildOf W).itemCount r = icSpec W r := by
  induction W using List.reverseRecOn with
  | nil => simp [buildOf, emptyTree, alGet_nil, icSpec]
  | append_singleton W e ih =>
    rw [buildOf_append, addTransaction_itemCount, ih]
    unfold icSpec
    by_cases hmem : r ∈ e.1
    · rw [if_pos hmem]
      cases hany : W.any fun e => decide (r ∈ e.1) with
      | true => simp [List.any_append, hany, occWeight_append_single]
      | false =>
        have hw0 : occWeight W r = 0 := by
          unfold occWeight
          have hz : ∀ x ∈ W.map fun e => e.2 * e.1.count r, x = 0 := by
            intro x hx
            rw [List.mem_map] at hx
            obtain ⟨e', he', rfl⟩ := hx
            have hcount : e'.1.count r = 0 := by
              refine List.count_eq_zero_of_not_mem ?_
              intro hmem'
              have hh : (W.any fun e => decide (r ∈ e.1)) = true :=
                List.any_eq_true.mpr ⟨e', he', by simpa using hmem'⟩
              rw [hany] at hh
              exact Bool.noConfusion hh
            rw [hcount]
            rfl
          exact List.sum_eq_zero hz
        simp [List.any_append, hany, hmem, hw0, occWeight_append_single]
    · rw [if_neg hmem]
      have hc0 : e.1.count r = 0 := List.count_eq_zero_of_not_mem hmem
      cases hany : W.any fun e => decide (r ∈ e.1) with
      | true => simp [List.any_append, hany, hmem, occWeight_append_single, hc0]
      | false => simp [List.any_append, hany, hmem]


/-! ### C7: insertion-order independence -/

theorem nodeSpec_perm (W W' : List (List Nat × Nat)) (hp : W.Perm W') (q : List Nat) :
    nodeSpec W q = nodeSpec W' q := by
  unfold nodeSpec
  cases q.getLast? with
  | none => rfl
  | some item =>
    have hany : (W.any fun e => listLeads q e.1) = (W'.any fun e => listLeads q e.1) := by
      rw [Bool.eq_iff_iff]
      simp only [List.any_eq_true]
      exact ⟨fun ⟨e, he, hl⟩ => ⟨e, hp.mem_iff.mp he, hl⟩,
             fun ⟨e, he, hl⟩ => ⟨e, hp.mem_iff.mpr he, hl⟩⟩
    have hpw : pathWeight W q = pathWeight W' q :=
      ((hp.filter _).map _).sum_eq
    rw [hany, hpw]

theorem icSpec_perm (W W' : List (List Nat × Nat)) (hp : W.Perm W') (r : Nat) :
    icSpec W r = icSpec W' r := by
  unfold icSpec
  have hany : (W.any fun e => decide (r ∈ e.1)) = (W'.any fun e => decide (r ∈ e.1)) := by
    rw [Bool.eq_iff_iff]
    simp only [List.any_eq_true]
    exact ⟨fun ⟨e, he, hl⟩ => ⟨e, hp.mem_iff.mp he, hl⟩,
           fun ⟨e, he, hl⟩ => ⟨e, hp.mem_iff.mpr he, hl⟩⟩
  have how : occWeight W r = occWeight W' r := (hp.map _).sum_eq
  rw [hany, how]

/-- C7: any two permutations of the same multiset of
`(transaction, count)` insertions into an empty tree yield trees with the
same node structure (the same paths carry nodes), the same per-node counts
and stored prefixes, and the same `itemCount` aggregates.  (The `nodeLink`
lists record creation order and so can differ in order — the claim does not
mention them.) -/
theorem buildOf_insertion_order_independent (W W' : List (List Nat × Nat))
    (hp : W.Perm W') :
    (∀ q, alGet (buildOf W).nodes q = alGet (buildOf W').nodes q) ∧
    (∀ r, alGet (buildOf W).itemCount r = alGet (buildOf W').itemCount r) :=
  ⟨fun q => by rw [buildOf_nodes, buildOf_nodes, nodeSpec_perm W W' hp],
   fun r => by rw [buildOf_itemCount, buildOf_itemCount, icSpec_perm W W' hp]⟩

/-- Witness for `buildOf_insertion_order_independent` on two insertions
performed in both orders. -/
theorem buildOf_insertion_order_independent_witness :
    ([([0, 1], 1), ([0], 2)] : List (List Nat × Nat)).Perm [([0], 2), ([0, 1], 1)] ∧
      ((∀ q, alGet (buildOf [([0, 1], 1), ([0], 2)]).nodes q =
          alGet (buildOf [([0], 2), ([0, 1], 1)]).nodes q) ∧
        (∀ r, alGet (buildOf [([0, 1], 1), ([0], 2)]).itemCount r =
          alGet (buildOf [([0], 2), ([0, 1], 1)]).itemCount r)) :=
  ⟨by decide,
    buildOf_insertion_order_independent [([0, 1], 1), ([0], 2)]
      [([0], 2), ([0, 1], 1)] (by decide)⟩


/-! ### Link sums: `freqItems` equals `itemCount` (C9) -/

theorem sum_map_add {α : Type} (l : List α) (f g : α → Nat) :
    (l.map fun a => f a + g a).sum = (l.map f).sum + (l.map g).sum := by
  induction l with
  | nil => rfl
  | cons a l ih =>
    simp only [List.map_cons, List.sum_cons, ih]
    ring

theorem sum_map_zero {β : Type} (W : List β) : (W.map fun _ => (0 : Nat)).sum = 0 := by
  induction W with
  | nil => rfl
  | cons b W ih => simp [ih]

theorem sum_sum_comm {α β : Type} (l : List α) (W : List β) (f : α → β → Nat) :
    (l.map fun a => (W.map fun b => f a b).sum).sum =
      (W.map fun b => (l.map fun a => f a b).sum).sum := by
  induction l with
  | nil =>
    simp only [List.map_nil, List.sum_nil]
    exact (sum_map_zero W).symm
  | cons a l ih =>
    simp only [List.map_cons, List.sum_cons, ih]
    exact (sum_map_add W _ _).symm

theorem sum_filter_eq_sum_ite {β : Type} (W : List β) (p : β → Bool) (g : β → Nat) :
    ((W.filter p).map g).sum = (W.map fun e => if p e then g e else 0).sum := by
  induction W with
  | nil => rfl
  | cons e W ih =>
    rw [List.filter_cons]
    cases h : p e with
    | true => simp [h, ih]
    | false => simp [h, ih]

theorem sum_ite_const {α : Type} (l : List α) (p : α → Bool) (c : Nat) :
    (l.map fun a => if p a then c else 0).sum = c * (l.filter p).length := by
  induction l with
  | nil => simp
  | cons a l ih =>
    rw [List.filter_cons]
    cases h : p a with
    | true => simp [h, ih, Nat.mul_succ, Nat.add_comm]
    | false => simp [h, ih]

theorem pathSteps_append (a : Nat) :
    ∀ (rest cur : List Nat),
      pathSteps cur (rest ++ [a]) = pathSteps cur rest ++ [cur ++ rest ++ [a]] := by
  intro rest
  induction rest with
  | nil => intro cur; simp [pathSteps]
  | cons b rest ih =>
    intro cur
    show (cur ++ [b]) :: pathSteps (cur ++ [b]) (rest ++ [a]) = _
    rw [ih (cur ++ [b])]
    simp [pathSteps]

theorem length_filter_lastEq (item : Nat) :
    ∀ (t : List Nat),
      ((pathSteps [] t).filter fun q => decide (q.getLast? = some item)).length =
        t.count item := by
  intro t
  induction t using List.reverseRecOn with
  | nil => rfl
  | append_singleton t a ih =>
    rw [pathSteps_append, List.filter_append, List.length_append, ih,
      List.count_append]
    congr 1
    simp only [List.nil_append, List.filter_cons, List.filter_nil]
    by_cases h : a = item
    · subst h
      rw [if_pos (by simp [List.getLast?_concat])]
      simp
    · rw [if_neg (by simp [List.getLast?_concat]; exact fun hh => h hh)]
      simp [List.count_cons, h]

theorem length_eq_of_nodup_mem_iff {l l' : List (List Nat)} (h1 : l.Nodup)
    (h2 : l'.Nodup) (h : ∀ q, q ∈ l ↔ q ∈ l') : l.length = l'.length := by
  rw [← List.toFinset_card_of_nodup h1, ← List.toFinset_card_of_nodup h2]
  congr 1
  ext q
  simpa using h q

theorem isSome_of_mem_linkOf (W : List (List Nat × Nat)) (r : Nat) (q : List Nat)
    (hq : q ∈ linkOf (buildOf W) r) : (alGet (buildOf W).nodes q).isSome :=
  ((buildOf_linkOf_mem W r q).mp hq).1

/-- The count of every node in a `nodeLink` list of `buildOf W` is its
`pathWeight`. -/
theorem count_of_mem_linkOf (W : List (List Nat × Nat)) (r : Nat) (q : List Nat)
    (hq : q ∈ linkOf (buildOf W) r) :
    ((alGet (buildOf W).nodes q).map Prod.fst).getD 0 = pathWeight W q := by
  have hs := isSome_of_mem_linkOf W r q hq
  rw [buildOf_nodes] at hs ⊢
  unfold nodeSpec at hs ⊢
  cases hl : q.getLast? with
  | none => rw [hl] at hs; simp at hs
  | some b =>
    rw [hl] at hs
    cases hany : W.any fun e => listLeads q e.1 with
    | false => rw [hany] at hs; simp at hs
    | true => simp

/-- The members of a `nodeLink` list that lie on a given transaction are
exactly the nonempty prefixes of that transaction ending in the rank. -/
theorem linkOf_filter_leads_count (W : List (List Nat × Nat)) (r : Nat)
    (e : List Nat × Nat) (he : e ∈ W) :
    ((linkOf (buildOf W) r).filter fun q => listLeads q e.1).length =
      e.1.count r := by
  rw [← length_filter_lastEq r e.1]
  refine length_eq_of_nodup_mem_iff
    ((buildOf_linkOf_nodup W r).filter _)
    ((pathSteps_nodup [] e.1).filter _) ?_
  intro q
  rw [List.mem_filter, List.mem_filter, buildOf_linkOf_mem, buildOf_nodes]
  constructor
  · rintro ⟨⟨hs, hlast⟩, hleads⟩
    have hne : q ≠ [] := by
      intro hq0
      subst hq0
      simp at hlast
    refine ⟨(pathSteps_nil_mem e.1 q).mpr ⟨hne, hleads⟩, ?_⟩
    rw [decide_eq_true_eq]
    exact hlast
  · rintro ⟨hps, hlast⟩
    rw [decide_eq_true_eq] at hlast
    obtain ⟨hne, hleads⟩ := (pathSteps_nil_mem e.1 q).mp hps
    refine ⟨⟨?_, hlast⟩, hleads⟩
    unfold nodeSpec
    rw [hlast]
    have hany : (W.any fun e => listLeads q e.1) = true :=
      List.any_eq_true.mpr ⟨e, he, hleads⟩
    simp [hany]

/-- The sum of the counts of the nodes in `nodeLink[r]` equals the total
weighted number of occurrences of `r`. -/
theorem sum_linkOf_counts (W : List (List Nat × Nat)) (r : Nat) :
    ((linkOf (buildOf W) r).map fun q =>
      ((alGet (buildOf W).nodes q).map Prod.fst).getD 0).sum = occWeight W r := by
  have h1 : ((linkOf (buildOf W) r).map fun q =>
      ((alGet (buildOf W).nodes q).map Prod.fst).getD 0).sum =
      ((linkOf (buildOf W) r).map fun q => pathWeight W q).sum := by
    congr 1
    exact List.map_congr_left fun q hq => count_of_mem_linkOf W r q hq
  rw [h1]
  have h2 : ((linkOf (buildOf W) r).map fun q => pathWeight W q).sum =
      ((linkOf (buildOf W) r).map fun q =>
        (W.map fun e => if listLeads q e.1 then e.2 else 0).sum).sum := by
    congr 1
    refine List.map_congr_left fun q _ => ?_
    unfold pathWeight
    exact sum_filter_eq_sum_ite W _ _
  rw [h2, sum_sum_comm]
  unfold occWeight
  congr 1
  refine List.map_congr_left fun e he => ?_
  rw [sum_ite_const, linkOf_filter_leads_count W r e he]

theorem linkSum_go (t : Tree) :
    ∀ (l : List (List Nat)) (s : Nat), (∀ q ∈ l, (alGet t.nodes q).isSome) →
      l.foldlM (fun s q => (alGet t.nodes q).map fun pr => s + pr.1) s =
        some (s + (l.map fun q => ((alGet t.nodes q).map Prod.fst).getD 0).sum) := by
  intro l
  induction l with
  | nil => intro s _; simp
  | cons q l ih =>
    intro s hall
    obtain ⟨pr, hpr⟩ := Option.isSome_iff_exists.mp (hall q (List.mem_cons_self q l))
    rw [List.foldlM_cons, hpr]
    have hrest := ih (s + pr.1) fun q' hq' => hall q' (List.mem_cons_of_mem _ hq')
    show ((some (s + pr.1)).bind fun s' =>
      l.foldlM (fun s q => (alGet t.nodes q).map fun pr => s + pr.1) s') = _
    rw [Option.some_bind, hrest, List.map_cons, List.sum_cons, hpr]
    simp [Nat.add_assoc]

theorem linkSum_linkOf (W : List (List Nat × Nat)) (r : Nat) (l : List (List Nat))
    (hl : alGet (buildOf W).nodeLink r = some l) :
    linkSum (buildOf W) l = some (occWeight W r) := by
  have hlof : linkOf (buildOf W) r = l := by
    unfold linkOf
    rw [hl]
    rfl
  unfold linkSum
  rw [← hlof]
  rw [linkSum_go (buildOf W) (linkOf (buildOf W) r) 0
    (fun q hq => isSome_of_mem_linkOf W r q hq)]
  rw [sum_linkOf_counts, Nat.zero_add]


/-! ### C9: the nodeLink/itemCount invariant -/

theorem mem_of_getLast?_eq :
    ∀ (l : List Nat) (r : Nat), l.getLast? = some r → r ∈ l := by
  intro l
  induction l with
  | nil => intro r h; simp at h
  | cons a l ih =>
    intro r h
    cases l with
    | nil =>
      rw [List.getLast?_singleton] at h
      obtain rfl : a = r := by injection h
      exact List.mem_cons_self _ _
    | cons b l' =>
      rw [List.getLast?_cons_cons] at h
      exact List.mem_cons_of_mem _ (ih r h)

theorem exists_leads_of_mem (r : Nat) :
    ∀ (t : List Nat), r ∈ t → ∃ q, q ≠ [] ∧ listLeads q t ∧ q.getLast? = some r := by
  intro t
  induction t with
  | nil => intro h; simp at h
  | cons a t ih =>
    intro h
    by_cases har : a = r
    · subst har
      exact ⟨[a], by simp, by simp [listLeads_cons_cons, listLeads_nil], rfl⟩
    · have hr : r ∈ t := by
        rcases List.mem_cons.mp h with he | hm
        · exact absurd he.symm har
        · exact hm
      obtain ⟨q, hne, hl, hlast⟩ := ih hr
      refine ⟨a :: q, by simp, by simp [listLeads_cons_cons, hl], ?_⟩
      cases q with
      | nil => exact absurd rfl hne
      | cons b q' => rw [List.getLast?_cons_cons]; exact hlast

theorem nodeLink_isSome_iff (W : List (List Nat × Nat)) (r : Nat) :
    (alGet (buildOf W).nodeLink r).isSome ↔ ∃ e ∈ W, r ∈ e.1 := by
  rw [← linkOf_ne_nil_iff _ (buildOf_WF W)]
  constructor
  · intro h
    obtain ⟨q, hq⟩ := List.exists_mem_of_ne_nil _ h
    obtain ⟨hs, hlast⟩ := (buildOf_linkOf_mem W r q).mp hq
    rw [buildOf_nodes] at hs
    unfold nodeSpec at hs
    rw [hlast] at hs
    cases hany : W.any fun e => listLeads q e.1 with
    | false => rw [hany] at hs; simp at hs
    | true =>
      obtain ⟨e, he, hl⟩ := List.any_eq_true.mp hany
      exact ⟨e, he, mem_of_leads r q hl (mem_of_getLast?_eq q r hlast)⟩
  · rintro ⟨e, he, hr⟩
    obtain ⟨q, hne, hl, hlast⟩ := exists_leads_of_mem r e.1 hr
    have hmem : q ∈ linkOf (buildOf W) r := by
      refine (buildOf_linkOf_mem W r q).mpr ⟨?_, hlast⟩
      rw [buildOf_nodes]
      unfold nodeSpec
      rw [hlast]
      have hany : (W.any fun e => listLeads q e.1) = true :=
        List.any_eq_true.mpr ⟨e, he, hl⟩
      simp [hany]
    intro hnil
    rw [hnil] at hmem
    exact List.not_mem_nil q hmem

theorem itemCount_isSome_iff (W : List (List Nat × Nat)) (r : Nat) :
    (alGet (buildOf W).itemCount r).isSome ↔ ∃ e ∈ W, r ∈ e.1 := by
  rw [buildOf_itemCount]
  unfold icSpec
  constructor
  · intro hs
    by_cases hany : (W.any fun e => decide (r ∈ e.1)) = true
    · obtain ⟨e, he, hm⟩ := List.any_eq_true.mp hany
      exact ⟨e, he, by simpa using hm⟩
    · rw [if_neg hany] at hs
      simp at hs
  · rintro ⟨e, he, hm⟩
    have hany : (W.any fun e => decide (r ∈ e.1)) = true :=
      List.any_eq_true.mpr ⟨e, he, by simpa using hm⟩
    rw [if_pos hany]
    rfl

theorem occWeight_pos (W : List (List Nat × Nat)) (r : Nat)
    (hpos : ∀ e ∈ W, 0 < e.2) (h : ∃ e ∈ W, r ∈ e.1) : 0 < occWeight W r := by
  obtain ⟨e, he, hr⟩ := h
  have h1 : 0 < e.2 * e.1.count r :=
    Nat.mul_pos (hpos e he) (List.count_pos_iff.mpr hr)
  have h2 : e.2 * e.1.count r ≤ occWeight W r := by
    refine List.single_le_sum (fun x _ => Nat.zero_le x) _ ?_
    exact List.mem_map.mpr ⟨e, he, rfl⟩
  exact Nat.lt_of_lt_of_le h1 h2


theorem itemCount_eq_occWeight (W : List (List Nat × Nat)) (r : Nat)
    (h : (alGet (buildOf W).itemCount r).isSome) :
    alGet (buildOf W).itemCount r = some (occWeight W r) := by
  rw [buildOf_itemCount] at h ⊢
  unfold icSpec at h ⊢
  by_cases hany : (W.any fun e => decide (r ∈ e.1)) = true
  · rw [if_pos hany]
  · rw [if_neg hany] at h
    simp at h

theorem condTree_fold_eq (t : Tree) :
    ∀ (l : List (List Nat)) (acc : Tree), (∀ q ∈ l, (alGet t.nodes q).isSome) →
      l.foldlM
          (fun acc q => (alGet t.nodes q).map fun pr => acc.addTransaction pr.2 pr.1)
          acc =
        some ((condData t l).foldl (fun acc e => acc.addTransaction e.1 e.2) acc) := by
  intro l
  induction l with
  | nil => intro acc _; rfl
  | cons q l ih =>
    intro acc hall
    obtain ⟨pr, hpr⟩ := Option.isSome_iff_exists.mp (hall q (List.mem_cons_self q l))
    rw [List.foldlM_cons, hpr]
    have hcd : condData t (q :: l) = (pr.2, pr.1) :: condData t l := by
      unfold condData
      rw [List.filterMap_cons, hpr]
      rfl
    rw [hcd, List.foldl_cons]
    show ((some (acc.addTransaction pr.2 pr.1)).bind fun acc' =>
      l.foldlM
        (fun acc q => (alGet t.nodes q).map fun pr => acc.addTransaction pr.2 pr.1)
        acc') = _
    rw [Option.some_bind]
    exact ih _ fun q' hq' => hall q' (List.mem_cons_of_mem _ hq')

theorem linkOf_eq_of_alGet (T : Tree) (r : Nat) (l : List (List Nat))
    (hl : alGet T.nodeLink r = some l) : linkOf T r = l := by
  unfold linkOf
  rw [hl]
  rfl

theorem generateConditionalTree_eq (W : List (List Nat × Nat)) (r : Nat)
    (l : List (List Nat)) (hl : alGet (buildOf W).nodeLink r = some l) :
    (buildOf W).generateConditionalTree r =
      some (buildOf (condData (buildOf W) l)) := by
  unfold Tree.generateConditionalTree
  rw [hl, Option.some_bind]
  have hall : ∀ q ∈ l, (alGet (buildOf W).nodes q).isSome := by
    intro q hq
    exact isSome_of_mem_linkOf W r q (by rw [linkOf_eq_of_alGet _ r l hl]; exact hq)
  rw [condTree_fold_eq (buildOf W) l emptyTree hall]
  rfl

/-- C9: after any sequence of `addTransaction` calls with positive counts
on a fresh tree, a rank is a `nodeLink` key iff it is an `itemCount` key
with positive value; `itemCount[r]` equals the sum of `node.count` over the
nodes of `nodeLink[r]` (so the per-rank aggregate computed from `nodeLink`
in step 2 of mining equals `itemCount`); and `generateConditionalTree`
succeeds on every `itemCount` key, so mining never indexes a missing
`nodeLink` key. -/
theorem nodeLink_itemCount_invariant (W : List (List Nat × Nat))
    (hpos : ∀ e ∈ W, 0 < e.2) :
    (∀ r, (alGet (buildOf W).nodeLink r).isSome ↔
      ∃ v, alGet (buildOf W).itemCount r = some v ∧ 0 < v) ∧
    (∀ r l, alGet (buildOf W).nodeLink r = some l →
      linkSum (buildOf W) l = alGet (buildOf W).itemCount r) ∧
    (∀ r, (alGet (buildOf W).itemCount r).isSome →
      ((buildOf W).generateConditionalTree r).isSome) := by
  refine ⟨?_, ?_, ?_⟩
  · intro r
    rw [nodeLink_isSome_iff]
    constructor
    · intro h
      have hic := (itemCount_isSome_iff W r).mpr h
      refine ⟨occWeight W r, itemCount_eq_occWeight W r hic, occWeight_pos W r hpos h⟩
    · rintro ⟨v, hv, -⟩
      exact (itemCount_isSome_iff W r).mp (by rw [hv]; rfl)
  · intro r l hl
    have hmem : ∃ e ∈ W, r ∈ e.1 :=
      (nodeLink_isSome_iff W r).mp (by rw [hl]; rfl)
    rw [linkSum_linkOf W r l hl,
      itemCount_eq_occWeight W r ((itemCount_isSome_iff W r).mpr hmem)]
  · intro r hic
    have hnl := (nodeLink_isSome_iff W r).mpr ((itemCount_isSome_iff W r).mp hic)
    obtain ⟨l, hl⟩ := Option.isSome_iff_exists.mp hnl
    rw [generateConditionalTree_eq W r l hl]
    rfl

/-- Witness for `nodeLink_itemCount_invariant` on one insertion of
`[0, 1]` with count `1`. -/
theorem nodeLink_itemCount_invariant_witness :
    (∀ e ∈ ([([0, 1], 1)] : List (List Nat × Nat)), 0 < e.2) ∧
      ((∀ r, (alGet (buildOf [([0, 1], 1)]).nodeLink r).isSome ↔
        ∃ v, alGet (buildOf [([0, 1], 1)]).itemCount r = some v ∧ 0 < v) ∧
      (∀ r l, alGet (buildOf [([0, 1], 1)]).nodeLink r = some l →
        linkSum (buildOf [([0, 1], 1)]) l = alGet (buildOf [([0, 1], 1)]).itemCount r) ∧
      (∀ r, (alGet (buildOf [([0, 1], 1)]).itemCount r).isSome →
        ((buildOf [([0, 1], 1)]).generateConditionalTree r).isSome)) :=
  ⟨by decide, nodeLink_itemCount_invariant [([0, 1], 1)] (by decide)⟩


/-! ### C10: prefixes hold smaller ranks only; mining terminates -/

theorem leads_take (q : List Nat) :
    ∀ (t : List Nat), listLeads q t → t.take q.length = q := by
  induction q with
  | nil => intro t _; rfl
  | cons a q ih =>
    intro t hl
    cases t with
    | nil => simp [listLeads_cons_nil] at hl
    | cons b t' =>
      rw [listLeads_cons_cons] at hl
      by_cases hab : a = b
      · subst hab
        rw [if_pos rfl] at hl
        rw [List.length_cons, List.take_succ_cons, ih t' hl]
      · rw [if_neg hab] at hl
        exact absurd hl (by simp)

theorem sorted_of_leads (q t : List Nat) (h : listLeads q t)
    (hs : List.Sorted (· < ·) t) : List.Sorted (· < ·) q := by
  rw [← leads_take q t h]
  exact List.Pairwise.sublist (List.take_sublist _ _) hs

theorem take_pyIndex_lt :
    ∀ (q' : List Nat) (r : Nat), List.Sorted (· < ·) q' → q'.getLast? = some r →
      ∀ x ∈ q'.take (pyIndex r q'), x < r := by
  intro q'
  induction q' with
  | nil => intro r _ h; simp at h
  | cons a q'' ih =>
    intro r hs hlast x hx
    cases q'' with
    | nil =>
      rw [List.getLast?_singleton] at hlast
      obtain rfl : a = r := by injection hlast
      rw [pyIndex_cons, if_pos rfl] at hx
      simp at hx
    | cons b q₃ =>
      rw [List.getLast?_cons_cons] at hlast
      have hr : r ∈ b :: q₃ := mem_of_getLast?_eq _ r hlast
      have har : a < r := (List.sorted_cons.mp hs).1 r hr
      rw [pyIndex_cons, if_neg (Nat.ne_of_lt har)] at hx
      rw [List.take_succ_cons] at hx
      rcases List.mem_cons.mp hx with rfl | hx'
      · exact har
      · exact ih r (List.sorted_cons.mp hs).2 hlast x hx'

theorem nodeSpec_of_getLast (W : List (List Nat × Nat)) (q : List Nat) (r : Nat)
    (hlast : q.getLast? = some r) :
    nodeSpec W q =
      if (W.any fun e => listLeads q e.1) = true then
        some (pathWeight W q, q.take (pyIndex r q))
      else none := by
  unfold nodeSpec
  rw [hlast]

/-- On trees built from strictly ascending transactions, every node's
stored `prefix` holds only ranks strictly below the node's own rank. -/
theorem buildOf_pfx_lt (W : List (List Nat × Nat))
    (hsorted : ∀ e ∈ W, List.Sorted (· < ·) e.1) (q : List Nat) (r cnt : Nat)
    (pfx : List Nat) (h : alGet (buildOf W).nodes (q ++ [r]) = some (cnt, pfx)) :
    ∀ x ∈ pfx, x < r := by
  rw [buildOf_nodes,
    nodeSpec_of_getLast W (q ++ [r]) r (List.getLast?_concat _)] at h
  by_cases hany : ((W.any fun e => listLeads (q ++ [r]) e.1) = true)
  · rw [if_pos hany] at h
    obtain ⟨e, he, hle⟩ := List.any_eq_true.mp hany
    have hqs : List.Sorted (· < ·) (q ++ [r]) :=
      sorted_of_leads _ e.1 hle (hsorted e he)
    have hpfx : (q ++ [r]).take (pyIndex r (q ++ [r])) = pfx := by
      injection h with h'
      exact congrArg Prod.snd h'
    rw [← hpfx]
    exact take_pyIndex_lt (q ++ [r]) r hqs (List.getLast?_concat _)
  · rw [if_neg hany] at h
    exact absurd h (by simp)

/-- Every transaction inserted by `generateConditionalTree` is strictly
ascending and holds only ranks strictly below the conditioning rank. -/
theorem condData_good (W : List (List Nat × Nat)) (r : Nat) (l : List (List Nat))
    (hl : alGet (buildOf W).nodeLink r = some l)
    (hsorted : ∀ e ∈ W, List.Sorted (· < ·) e.1) :
    ∀ e ∈ condData (buildOf W) l,
      List.Sorted (· < ·) e.1 ∧ ∀ x ∈ e.1, x < r := by
  intro e he
  unfold condData at he
  rw [List.mem_filterMap] at he
  obtain ⟨q, hq, hmap⟩ := he
  cases hget : alGet (buildOf W).nodes q with
  | none => rw [hget] at hmap; simp at hmap
  | some pr =>
    rw [hget] at hmap
    obtain rfl : (pr.2, pr.1) = e := by injection hmap
    have hqlink : q ∈ linkOf (buildOf W) r := by
      rw [linkOf_eq_of_alGet _ r l hl]
      exact hq
    have hlast := ((buildOf_linkOf_mem W r q).mp hqlink).2
    have hns := hget
    rw [buildOf_nodes, nodeSpec_of_getLast W q r hlast] at hns
    by_cases hany : ((W.any fun e => listLeads q e.1) = true)
    · rw [if_pos hany] at hns
      have hpr2 : q.take (pyIndex r q) = pr.2 := by
        injection hns with h'
        exact congrArg Prod.snd h'
      obtain ⟨e', he', hle⟩ := List.any_eq_true.mp hany
      have hqs : List.Sorted (· < ·) q := sorted_of_leads q e'.1 hle (hsorted e' he')
      constructor
      · show List.Sorted (· < ·) pr.2
        rw [← hpr2]
        exact List.Pairwise.sublist (List.take_sublist _ _) hqs
      · show ∀ x ∈ pr.2, x < r
        rw [← hpr2]
        exact take_pyIndex_lt q r hqs hlast
    · rw [if_neg hany] at hns
      exact absurd hns (by simp)

theorem foldlM_isSome {α β : Type} (g : α → β → Option α) :
    ∀ (l : List β) (acc : α), (∀ acc' b, b ∈ l → (g acc' b).isSome) →
      (l.foldlM g acc).isSome := by
  intro l
  induction l with
  | nil => intro acc _; rfl
  | cons b l ih =>
    intro acc hall
    rw [List.foldlM_cons]
    obtain ⟨a, ha⟩ := Option.isSome_iff_exists.mp
      (hall acc b (List.mem_cons_self b l))
    rw [ha]
    show ((some a).bind fun a' => l.foldlM g a').isSome
    rw [Option.some_bind]
    exact ih a fun acc' b' hb' => hall acc' b' (List.mem_cons_of_mem _ hb')

theorem mapM_some_mem {α β : Type} (f : α → Option β) :
    ∀ (l : List α) (res : List β), l.mapM f = some res →
      ∀ b ∈ res, ∃ a ∈ l, f a = some b := by
  intro l
  induction l with
  | nil =>
    intro res h b hb
    obtain rfl : [] = res := by injection h
    simp at hb
  | cons a l ih =>
    intro res h b hb
    rw [List.mapM_cons] at h
    cases hfa : f a with
    | none => rw [hfa] at h; simp at h
    | some b0 =>
      rw [hfa] at h
      cases hrest : l.mapM f with
      | none => rw [hrest] at h; simp at h
      | some res' =>
        rw [hrest] at h
        obtain rfl : b0 :: res' = res := by simpa using h
        rcases List.mem_cons.mp hb with rfl | hb'
        · exact ⟨a, List.mem_cons_self a l, hfa⟩
        · obtain ⟨a', ha', hfa'⟩ := ih res' hrest b hb'
          exact ⟨a', List.mem_cons_of_mem _ ha', hfa'⟩

theorem mapM_isSome {α β : Type} (f : α → Option β) :
    ∀ (l : List α), (∀ a ∈ l, (f a).isSome) → (l.mapM f).isSome := by
  intro l
  induction l with
  | nil => intro _; rfl
  | cons a l ih =>
    intro hall
    rw [List.mapM_cons]
    obtain ⟨b, hb⟩ := Option.isSome_iff_exists.mp (hall a (List.mem_cons_self a l))
    obtain ⟨res, hres⟩ := Option.isSome_iff_exists.mp
      (ih fun a' ha' => hall a' (List.mem_cons_of_mem _ ha'))
    rw [hb, hres]
    rfl

theorem freqItemsOf_isSome (W : List (List Nat × Nat)) :
    (freqItemsOf (buildOf W)).isSome := by
  unfold freqItemsOf
  refine mapM_isSome _ _ ?_
  intro e he
  have hget : alGet (buildOf W).nodeLink e.1 = some e.2 :=
    alGet_eq_some_of_mem (buildOf_WF W).1 he
  have hall : ∀ q ∈ e.2, (alGet (buildOf W).nodes q).isSome := by
    intro q hq
    exact isSome_of_mem_linkOf W e.1 q (by rw [linkOf_eq_of_alGet _ _ _ hget]; exact hq)
  rw [show linkSum (buildOf W) e.2 = some (occWeight W e.1) from
    linkSum_linkOf W e.1 e.2 hget]
  rfl

/-- The keys of the `freqItems` dict are `nodeLink` keys. -/
theorem freqItems_mem (t : Tree) (fi : List (Nat × Nat))
    (h : freqItemsOf t = some fi) (e : Nat × Nat) (he : e ∈ fi) :
    ∃ paths, (e.1, paths) ∈ t.nodeLink := by
  obtain ⟨a, ha, hfa⟩ := mapM_some_mem _ t.nodeLink fi h e he
  cases hsum : linkSum t a.2 with
  | none => rw [hsum] at hfa; simp at hfa
  | some sval =>
    rw [hsum] at hfa
    have : (a.1, sval) = e := by injection hfa
    refine ⟨a.2, ?_⟩
    rw [← this]
    show ((a.1, sval).1, a.2) ∈ t.nodeLink
    exact ha

/-- With fuel `item + 1` (more generally any fuel above the rank),
`genFreqPatterns` on a tree built from strictly ascending transactions
never exhausts its fuel nor hits a missing key. -/
theorem genFreqPatterns_isSome (minSup : ℚ) :
    ∀ (fuel item : Nat), item < fuel →
      ∀ (W : List (List Nat × Nat)), (∀ e ∈ W, List.Sorted (· < ·) e.1) →
        (alGet (buildOf W).nodeLink item).isSome →
        ∀ pre, (genFreqPatterns minSup fuel item pre (buildOf W)).isSome := by
  intro fuel
  induction fuel with
  | zero => intro item h; exact absurd h (Nat.not_lt_zero item)
  | succ f ih =>
    intro item hlt W hsorted hnl pre
    obtain ⟨l, hl⟩ := Option.isSome_iff_exists.mp hnl
    rw [genFreqPatterns, generateConditionalTree_eq W item l hl, Option.some_bind]
    have hgood := condData_good W item l hl hsorted
    have hW's : ∀ e ∈ condData (buildOf W) l, List.Sorted (· < ·) e.1 :=
      fun e he => (hgood e he).1
    obtain ⟨fi, hfi⟩ := Option.isSome_iff_exists.mp
      (freqItemsOf_isSome (condData (buildOf W) l))
    rw [hfi, Option.some_bind]
    refine foldlM_isSome _ _ _ ?_
    intro acc e he
    have hefi : e ∈ fi := List.mem_of_mem_filter he
    obtain ⟨paths, hpaths⟩ := freqItems_mem _ fi hfi e hefi
    have hkey : (alGet (buildOf (condData (buildOf W) l)).nodeLink e.1).isSome := by
      rw [alGet_isSome_iff_mem]
      exact List.mem_map.mpr ⟨(e.1, paths), hpaths, rfl⟩
    have hlt' : e.1 < item := by
      obtain ⟨e', he', hm⟩ := (nodeLink_isSome_iff _ e.1).mp hkey
      exact (hgood e' he').2 e.1 hm
    have hrec := ih e.1 (Nat.lt_of_lt_of_le hlt' (Nat.le_of_lt_succ hlt))
      (condData (buildOf W) l) hW's hkey (pre ++ [e.1])
    obtain ⟨res, hres⟩ := Option.isSome_iff_exists.mp hrec
    rw [hres]
    rfl


/-- C10: for trees built from ascending-sorted transactions of distinct
ranks (strictly ascending), every node's stored `prefix` holds only ranks
strictly below the node's own rank; every rank in a conditional tree is
strictly below the conditioning rank; and `genFreqPatterns` terminates with
recursion depth bounded by the starting rank — fuel `rank + 1` is never
exhausted. -/
theorem conditional_mining_terminates (W : List (List Nat × Nat))
    (hsorted : ∀ e ∈ W, List.Sorted (· < ·) e.1) :
    (∀ q r cnt pfx, alGet (buildOf W).nodes (q ++ [r]) = some (cnt, pfx) →
      ∀ x ∈ pfx, x < r) ∧
    (∀ r condT, (buildOf W).generateConditionalTree r = some condT →
      ∀ i, (alGet condT.itemCount i).isSome → i < r) ∧
    (∀ (minSup : ℚ) (item : Nat) (pre : List Nat),
      (alGet (buildOf W).nodeLink item).isSome →
      (genFreqPatterns minSup (item + 1) item pre (buildOf W)).isSome) := by
  refine ⟨fun q r cnt pfx h => buildOf_pfx_lt W hsorted q r cnt pfx h, ?_, ?_⟩
  · intro r condT hcond i hi
    cases hl : alGet (buildOf W).nodeLink r with
    | none =>
      unfold Tree.generateConditionalTree at hcond
      rw [hl] at hcond
      simp at hcond
    | some l =>
      have heq := generateConditionalTree_eq W r l hl
      rw [hcond] at heq
      obtain rfl : condT = buildOf (condData (buildOf W) l) := by injection heq
      obtain ⟨e, he, hm⟩ := (itemCount_isSome_iff _ i).mp hi
      exact (condData_good W r l hl hsorted e he).2 i hm
  · intro minSup item pre h
    exact genFreqPatterns_isSome minSup (item + 1) item (Nat.lt_succ_self item)
      W hsorted h pre

/-- Witness for `conditional_mining_terminates` on one sorted insertion. -/
theorem conditional_mining_terminates_witness :
    (∀ e ∈ ([([0, 1], 1)] : List (List Nat × Nat)), List.Sorted (· < ·) e.1) ∧
      ((∀ q r cnt pfx,
        alGet (buildOf [([0, 1], 1)]).nodes (q ++ [r]) = some (cnt, pfx) →
          ∀ x ∈ pfx, x < r) ∧
      (∀ r condT, (buildOf [([0, 1], 1)]).generateConditionalTree r = some condT →
        ∀ i, (alGet condT.itemCount i).isSome → i < r) ∧
      (∀ (minSup : ℚ) (item : Nat) (pre : List Nat),
        (alGet (buildOf [([0, 1], 1)]).nodeLink item).isSome →
        (genFreqPatterns minSup (item + 1) item pre (buildOf [([0, 1], 1)])).isSome)) :=
  ⟨by decide, conditional_mining_terminates [([0, 1], 1)] (by decide)⟩


/-! ### Semantic support lemmas for the mining proof -/

theorem mapM_eq_map {α β : Type} (f : α → Option β) (g : α → β) :
    ∀ l : List α, (∀ a ∈ l, f a = some (g a)) → l.mapM f = some (l.map g) := by
  intro l
  induction l with
  | nil => intro _; rfl
  | cons a l ih =>
    intro h
    rw [List.mapM_cons, h a (List.mem_cons_self a l),
      ih fun a' ha' => h a' (List.mem_cons_of_mem _ ha')]
    rfl

/-- `freqItems` of `buildOf V` in closed form: one entry per `nodeLink`
key, valued by the total weighted occurrence count. -/
theorem freqItemsOf_eq (V : List (List Nat × Nat)) :
    freqItemsOf (buildOf V) =
      some ((buildOf V).nodeLink.map fun e => (e.1, occWeight V e.1)) := by
  unfold freqItemsOf
  refine mapM_eq_map _ _ _ ?_
  intro e he
  have hget : alGet (buildOf V).nodeLink e.1 = some e.2 :=
    alGet_eq_some_of_mem (buildOf_WF V).1 he
  rw [linkSum_linkOf V e.1 e.2 hget]
  rfl

theorem wsupp_eq_sum_ite (V : List (List Nat × Nat)) (S : Finset Nat) :
    wsupp V S =
      (V.map fun e => if (∀ x ∈ S, x ∈ e.1) then e.2 else 0).sum := by
  unfold wsupp
  rw [sum_filter_eq_sum_ite]
  refine congrArg List.sum (List.map_congr_left fun e _ => ?_)
  by_cases h : ∀ x ∈ S, x ∈ e.1
  · simp [h]
  · simp [h]

theorem wsupp_anti (V : List (List Nat × Nat)) (S S' : Finset Nat)
    (hsub : S ⊆ S') : wsupp V S' ≤ wsupp V S := by
  rw [wsupp_eq_sum_ite, wsupp_eq_sum_ite]
  induction V with
  | nil => exact le_refl 0
  | cons e V ih =>
    simp only [List.map_cons, List.sum_cons]
    refine Nat.add_le_add ?_ ih
    by_cases h : ∀ x ∈ S', x ∈ e.1
    · rw [if_pos h, if_pos fun x hx => h x (hsub hx)]
    · by_cases h2 : ∀ x ∈ S, x ∈ e.1
      · rw [if_neg h, if_pos h2]
        exact Nat.zero_le _
      · rw [if_neg h, if_neg h2]

theorem wsupp_pos_mem (V : List (List Nat × Nat)) (S : Finset Nat)
    (h : 0 < wsupp V S) : ∃ e ∈ V, ∀ x ∈ S, x ∈ e.1 := by
  rw [wsupp_eq_sum_ite] at h
  by_contra hno
  push_neg at hno
  have hz : ∀ y ∈ V.map fun e => if (∀ x ∈ S, x ∈ e.1) then e.2 else 0, y = 0 := by
    intro y hy
    rw [List.mem_map] at hy
    obtain ⟨e, he, rfl⟩ := hy
    rw [if_neg]
    intro hall
    obtain ⟨x, hx, hxe⟩ := hno e he
    exact hxe (hall x hx)
  rw [List.sum_eq_zero hz] at h
  exact Nat.lt_irrefl 0 h

theorem count_eq_ite_of_nodup (t : List Nat) (hnd : t.Nodup) (i : Nat) :
    t.count i = if i ∈ t then 1 else 0 := by
  by_cases h : i ∈ t
  · rw [if_pos h]
    have hle := List.nodup_iff_count_le_one.mp hnd i
    have hpos := List.count_pos_iff.mpr h
    omega
  · rw [if_neg h, List.count_eq_zero_of_not_mem h]

theorem occWeight_eq_wsupp (V : List (List Nat × Nat))
    (hnd : ∀ e ∈ V, e.1.Nodup) (i : Nat) : occWeight V i = wsupp V {i} := by
  rw [wsupp_eq_sum_ite]
  unfold occWeight
  refine congrArg List.sum (List.map_congr_left fun e he => ?_)
  rw [count_eq_ite_of_nodup e.1 (hnd e he) i]
  by_cases h : i ∈ e.1
  · simp [h]
  · simp [h]

theorem pathWeight_pos (W : List (List Nat × Nat)) (q : List Nat)
    (hpos : ∀ e ∈ W, 0 < e.2)
    (hany : (W.any fun e => listLeads q e.1) = true) : 0 < pathWeight W q := by
  obtain ⟨e, he, hle⟩ := List.any_eq_true.mp hany
  have hmem : e.2 ∈ (W.filter fun e => listLeads q e.1).map Prod.snd :=
    List.mem_map.mpr ⟨e, List.mem_filter.mpr ⟨he, hle⟩, rfl⟩
  exact Nat.lt_of_lt_of_le (hpos e he)
    (List.single_le_sum (fun x _ => Nat.zero_le x) _ hmem)

/-- All the node data referenced from a `nodeLink` list, in closed form. -/
theorem nodes_eq_of_link (W : List (List Nat × Nat)) (r : Nat) (l : List (List Nat))
    (hl : alGet (buildOf W).nodeLink r = some l) (q : List Nat) (hq : q ∈ l) :
    alGet (buildOf W).nodes q = some (pathWeight W q, q.take (pyIndex r q)) ∧
      (W.any fun e => listLeads q e.1) = true ∧ q.getLast? = some r := by
  have hqlink : q ∈ linkOf (buildOf W) r := by
    rw [linkOf_eq_of_alGet _ r l hl]
    exact hq
  obtain ⟨hs, hlast⟩ := (buildOf_linkOf_mem W r q).mp hqlink
  rw [buildOf_nodes, nodeSpec_of_getLast W q r hlast] at hs ⊢
  by_cases hany : ((W.any fun e => listLeads q e.1) = true)
  · rw [if_pos hany]
    exact ⟨rfl, hany, hlast⟩
  · rw [if_neg hany] at hs
    exact absurd hs (by simp)

theorem condData_pos (W : List (List Nat × Nat)) (r : Nat) (l : List (List Nat))
    (hl : alGet (buildOf W).nodeLink r = some l) (hpos : ∀ e ∈ W, 0 < e.2) :
    ∀ e ∈ condData (buildOf W) l, 0 < e.2 := by
  intro e he
  unfold condData at he
  rw [List.mem_filterMap] at he
  obtain ⟨q, hq, hmap⟩ := he
  obtain ⟨hget, hany, -⟩ := nodes_eq_of_link W r l hl q hq
  rw [hget] at hmap
  obtain rfl : (q.take (pyIndex r q), pathWeight W q) = e := by injection hmap
  exact pathWeight_pos W q hpos hany

theorem filterMap_congr_map {α β : Type} (f : α → Option β) (g : α → β) :
    ∀ l : List α, (∀ a ∈ l, f a = some (g a)) → l.filterMap f = l.map g := by
  intro l
  induction l with
  | nil => intro _; rfl
  | cons a l ih =>
    intro h
    rw [List.filterMap_cons, h a (List.mem_cons_self a l),
      ih fun a' ha' => h a' (List.mem_cons_of_mem _ ha'), List.map_cons]

theorem condData_eq_map (W : List (List Nat × Nat)) (r : Nat) (l : List (List Nat))
    (hl : alGet (buildOf W).nodeLink r = some l) :
    condData (buildOf W) l =
      l.map fun q => (q.take (pyIndex r q), pathWeight W q) := by
  unfold condData
  refine filterMap_congr_map _ _ l fun q hq => ?_
  rw [(nodes_eq_of_link W r l hl q hq).1]
  rfl

theorem wsupp_map (l : List (List Nat)) (A : List Nat → List Nat)
    (B : List Nat → Nat) (S : Finset Nat) :
    wsupp (l.map fun q => (A q, B q)) S =
      ((l.filter fun q => decide (∀ x ∈ S, x ∈ A q)).map B).sum := by
  unfold wsupp
  rw [List.filter_map, List.map_map]
  rfl

theorem mem_take_pyIndex_iff :
    ∀ (t : List Nat) (r : Nat), List.Sorted (· < ·) t → r ∈ t →
      ∀ x, x ∈ t.take (pyIndex r t) ↔ (x ∈ t ∧ x < r) := by
  intro t
  induction t with
  | nil => intro r _ hr; simp at hr
  | cons a t' ih =>
    intro r hs hr x
    by_cases har : a = r
    · subst har
      rw [pyIndex_cons, if_pos rfl]
      simp only [List.take_zero, List.not_mem_nil, false_iff]
      rintro ⟨hx, hlt⟩
      rcases List.mem_cons.mp hx with rfl | hx'
      · exact Nat.lt_irrefl x hlt
      · exact absurd hlt (Nat.lt_asymm ((List.sorted_cons.mp hs).1 x hx'))
    · have hr' : r ∈ t' := by
        rcases List.mem_cons.mp hr with he | hm
        · exact absurd he.symm har
        · exact hm
      have halt : a < r := (List.sorted_cons.mp hs).1 r hr'
      rw [pyIndex_cons, if_neg har, List.take_succ_cons]
      constructor
      · intro hx
        rcases List.mem_cons.mp hx with rfl | hx'
        · exact ⟨List.mem_cons_self _ _, halt⟩
        · obtain ⟨hm, hlt⟩ := (ih r (List.sorted_cons.mp hs).2 hr' x).mp hx'
          exact ⟨List.mem_cons_of_mem _ hm, hlt⟩
      · rintro ⟨hx, hlt⟩
        rcases List.mem_cons.mp hx with rfl | hx'
        · exact List.mem_cons_self _ _
        · exact List.mem_cons_of_mem _
            ((ih r (List.sorted_cons.mp hs).2 hr' x).mpr ⟨hx', hlt⟩)

theorem mem_take_pyIndex_succ_iff (t : List Nat) (r : Nat)
    (hs : List.Sorted (· < ·) t) (hr : r ∈ t) (x : Nat) :
    x ∈ t.take (pyIndex r t + 1) ↔ (x ∈ t ∧ x ≤ r) := by
  have hidx : t.take (pyIndex r t + 1) = t.take (pyIndex r t) ++ [r] := by
    clear hs
    induction t with
    | nil => simp at hr
    | cons a t' ih =>
      by_cases har : a = r
      · subst har
        rw [pyIndex_cons, if_pos rfl]
        simp
      · have hr' : r ∈ t' := by
          rcases List.mem_cons.mp hr with he | hm
          · exact absurd he.symm har
          · exact hm
        rw [pyIndex_cons, if_neg har, List.take_succ_cons, List.take_succ_cons,
          ih hr']
        rfl
  rw [hidx, List.mem_append]
  rw [show ∀ y, (y ∈ [r]) = (y = r) from fun y => by simp]
  constructor
  · rintro (hx | rfl)
    · obtain ⟨hm, hlt⟩ := (mem_take_pyIndex_iff t r hs hr x).mp hx
      exact ⟨hm, Nat.le_of_lt hlt⟩
    · exact ⟨hr, Nat.le_refl x⟩
  · rintro ⟨hx, hle⟩
    rcases Nat.lt_or_ge x r with hlt | hge
    · exact Or.inl ((mem_take_pyIndex_iff t r hs hr x).mpr ⟨hx, hlt⟩)
    · exact Or.inr (Nat.le_antisymm hle hge)


theorem sorted_lt_nodup (t : List Nat) (h : List.Sorted (· < ·) t) : t.Nodup :=
  h.imp Nat.ne_of_lt

theorem linkOf_nodup_of_alGet (W : List (List Nat × Nat)) (r : Nat)
    (l : List (List Nat)) (hl : alGet (buildOf W).nodeLink r = some l) : l.Nodup := by
  rw [← linkOf_eq_of_alGet _ r l hl]
  exact buildOf_linkOf_nodup W r

/-- The key semantic step: the conditional tree for `r` represents, for
every rank set `S` below `r`, exactly the transactions of `W` containing
`S ∪ {r}`. -/
theorem condData_wsupp (W : List (List Nat × Nat)) (r : Nat) (l : List (List Nat))
    (hl : alGet (buildOf W).nodeLink r = some l)
    (hsorted : ∀ e ∈ W, List.Sorted (· < ·) e.1)
    (S : Finset Nat) (hS : ∀ x ∈ S, x < r) :
    wsupp (condData (buildOf W) l) S = wsupp W (insert r S) := by
  rw [condData_eq_map W r l hl, wsupp_map]
  have h1 : ((l.filter fun q => decide (∀ x ∈ S, x ∈ q.take (pyIndex r q))).map
        fun q => pathWeight W q).sum =
      ((l.filter fun q => decide (∀ x ∈ S, x ∈ q.take (pyIndex r q))).map
        fun q => (W.map fun e => if listLeads q e.1 then e.2 else 0).sum).sum := by
    refine congrArg List.sum (List.map_congr_left fun q _ => ?_)
    unfold pathWeight
    exact sum_filter_eq_sum_ite W _ _
  rw [h1, sum_sum_comm, wsupp_eq_sum_ite]
  refine congrArg List.sum (List.map_congr_left fun e he => ?_)
  rw [sum_ite_const]
  have hnodupl : l.Nodup := linkOf_nodup_of_alGet W r l hl
  by_cases hcond : ∀ x ∈ insert r S, x ∈ e.1
  · rw [if_pos hcond]
    have hre : r ∈ e.1 := hcond r (Finset.mem_insert_self r S)
    have hlen : (((l.filter fun q => decide (∀ x ∈ S, x ∈ q.take (pyIndex r q))).filter
        fun q => listLeads q e.1).length) = 1 := by
      have hmemiff : ∀ q,
          (q ∈ (l.filter fun q => decide (∀ x ∈ S, x ∈ q.take (pyIndex r q))).filter
            fun q => listLeads q e.1) ↔
          q ∈ (pathSteps [] e.1).filter fun q => decide (q.getLast? = some r) := by
        intro q
        rw [List.mem_filter, List.mem_filter, List.mem_filter, decide_eq_true_eq]
        constructor
        · rintro ⟨⟨hql, -⟩, hle⟩
          have hlast := (nodes_eq_of_link W r l hl q hql).2.2
          have hne : q ≠ [] := by
            intro h0
            subst h0
            simp at hlast
          exact ⟨(pathSteps_nil_mem e.1 q).mpr ⟨hne, hle⟩, by
            rw [decide_eq_true_eq]; exact hlast⟩
        · rintro ⟨hps, hlast⟩
          rw [decide_eq_true_eq] at hlast
          obtain ⟨hne, hle⟩ := (pathSteps_nil_mem e.1 q).mp hps
          have hql : q ∈ l := by
            rw [← linkOf_eq_of_alGet _ r l hl]
            refine (buildOf_linkOf_mem W r q).mpr ⟨?_, hlast⟩
            rw [buildOf_nodes, nodeSpec_of_getLast W q r hlast,
              if_pos (List.any_eq_true.mpr ⟨e, he, hle⟩)]
            rfl
          refine ⟨⟨hql, ?_⟩, hle⟩
          intro x hx
          rw [← take_pyIndex_of_leads q e.1 hle r hlast]
          exact (mem_take_pyIndex_iff e.1 r (hsorted e he) hre x).mpr
            ⟨hcond x (Finset.mem_insert_of_mem hx), hS x hx⟩
      rw [length_eq_of_nodup_mem_iff ((hnodupl.filter _).filter _)
        ((pathSteps_nodup [] e.1).filter _) hmemiff,
        length_filter_lastEq r e.1,
        count_eq_ite_of_nodup e.1 (sorted_lt_nodup e.1 (hsorted e he)) r,
        if_pos hre]
    rw [hlen, Nat.mul_one]
  · rw [if_neg hcond]
    have hempty : ((l.filter fun q => decide (∀ x ∈ S, x ∈ q.take (pyIndex r q))).filter
        fun q => listLeads q e.1) = [] := by
      rw [List.eq_nil_iff_forall_not_mem]
      intro q hq
      rw [List.mem_filter, List.mem_filter] at hq
      obtain ⟨⟨hql, hsub⟩, hle⟩ := hq
      rw [decide_eq_true_eq] at hsub
      have hlast := (nodes_eq_of_link W r l hl q hql).2.2
      refine hcond ?_
      intro x hx
      rcases Finset.mem_insert.mp hx with rfl | hxS
      · exact mem_of_leads x q hle (mem_of_getLast?_eq q x hlast)
      · have hxt : x ∈ q.take (pyIndex r q) := hsub x hxS
        exact mem_of_leads x q hle (List.mem_of_mem_take hxt)
    rw [hempty]
    rfl



/-! ### The mining characterization: `genFreqPatterns` output -/

theorem alPut_fresh {κ β : Type} [DecidableEq κ] :
    ∀ (l : List (κ × β)) (k : κ) (v : β), k ∉ l.map Prod.fst →
      alPut l k v = l ++ [(k, v)] := by
  intro l
  induction l with
  | nil => intro k v _; rfl
  | cons e r ih =>
    intro k v h
    rw [List.map_cons] at h
    have h1 : ¬(k = e.1 ∨ k ∈ r.map Prod.fst) := fun hc => h (List.mem_cons.mpr hc)
    push_neg at h1
    have hne : e.1 ≠ k := fun he => h1.1 he.symm
    show (if e.1 = k then (k, v) :: r else e :: alPut r k v) = e :: r ++ [(k, v)]
    rw [if_neg hne, ih k v h1.2]
    rfl

theorem dictUpdate_append {κ β : Type} [DecidableEq κ] :
    ∀ (e d : List (κ × β)),
      (∀ k ∈ e.map Prod.fst, k ∉ d.map Prod.fst) →
      (e.map Prod.fst).Nodup →
      dictUpdate d e = d ++ e := by
  intro e
  induction e with
  | nil => intro d _ _; rw [List.append_nil]; rfl
  | cons kv e ih =>
    intro d hdisj hnd
    rw [List.map_cons] at hdisj hnd
    have hfresh : kv.1 ∉ d.map Prod.fst := hdisj kv.1 (List.mem_cons_self _ _)
    have hk1 : kv.1 ∉ e.map Prod.fst := (List.nodup_cons.mp hnd).1
    have hnd' : (e.map Prod.fst).Nodup := (List.nodup_cons.mp hnd).2
    have hdisj' : ∀ k ∈ e.map Prod.fst, k ∉ (d ++ [(kv.1, kv.2)]).map Prod.fst := by
      intro k hk hmem
      rw [List.map_append, List.mem_append] at hmem
      rcases hmem with hd | hsingle
      · exact hdisj k (List.mem_cons_of_mem _ hk) hd
      · have hkk : k = kv.1 := by simpa using hsingle
        rw [hkk] at hk
        exact hk1 hk
    show dictUpdate (alPut d kv.1 kv.2) e = d ++ kv :: e
    rw [alPut_fresh d kv.1 kv.2 hfresh, ih (d ++ [(kv.1, kv.2)]) hdisj' hnd',
      List.append_assoc]
    rfl

theorem chain_gt_all :
    ∀ (ext : List Nat) (j : Nat), List.Chain' (· > ·) (j :: ext) →
      ∀ x ∈ ext, x < j := by
  intro ext
  induction ext with
  | nil => intro j _ x hx; simp at hx
  | cons k rest ih =>
    intro j hch x hx
    rw [List.chain'_cons] at hch
    rcases List.mem_cons.mp hx with rfl | hx'
    · exact hch.1
    · exact Nat.lt_trans (ih k hch.2 x hx') hch.1

theorem foldlM_cons_some {α β : Type} (g : α → β → Option α) (b : β) (l : List β)
    (acc a : α) (h : g acc b = some a) :
    (b :: l).foldlM g acc = l.foldlM g a := by
  rw [List.foldlM_cons, h]
  rfl

/-- Invariant of the accumulation fold of `genFreqPatterns`: after
processing the frequent-item entries `es` (each single rank paired with its
support), starting from an accumulator that holds exactly the patterns
whose first extension rank lies in `done`, the result holds exactly the
patterns whose first extension rank lies in `done` or among the keys
of `es`. -/
theorem mining_fold_spec (minSup : ℚ) (item : Nat) (pre : List Nat)
    (F : Nat → Option (List (List Nat × Nat))) (val : List Nat → Nat) :
    ∀ (es : List (Nat × Nat)) (acc : List (List Nat × Nat)) (done : List Nat),
      (es.map Prod.fst).Nodup →
      (∀ i ∈ done, i ∉ es.map Prod.fst) →
      (acc.map Prod.fst).Nodup →
      (∀ k v, (k, v) ∈ acc ↔ ∃ ext, k = pre ++ ext ∧ ext ≠ [] ∧
        ext.headD 0 ∈ done ∧ List.Chain' (· > ·) (item :: ext) ∧
        minSup ≤ ((val ext : Nat) : ℚ) ∧ v = val ext) →
      (∀ e ∈ es, e.2 = val [e.1] ∧ minSup ≤ ((val [e.1] : Nat) : ℚ) ∧ e.1 < item) →
      (∀ e ∈ es, ∃ out, F e.1 = some out ∧ (out.map Prod.fst).Nodup ∧
        (∀ k v, (k, v) ∈ out ↔ ∃ ext2, k = (pre ++ [e.1]) ++ ext2 ∧ ext2 ≠ [] ∧
          List.Chain' (· > ·) (e.1 :: ext2) ∧
          minSup ≤ ((val (e.1 :: ext2) : Nat) : ℚ) ∧ v = val (e.1 :: ext2))) →
      ∃ res, es.foldlM (fun acc2 e =>
          (F e.1).map fun sub => dictUpdate (alPut acc2 (pre ++ [e.1]) e.2) sub)
          acc = some res ∧
        (res.map Prod.fst).Nodup ∧
        (∀ k v, (k, v) ∈ res ↔ ∃ ext, k = pre ++ ext ∧ ext ≠ [] ∧
          ext.headD 0 ∈ done ++ es.map Prod.fst ∧
          List.Chain' (· > ·) (item :: ext) ∧
          minSup ≤ ((val ext : Nat) : ℚ) ∧ v = val ext) := by
  intro es
  induction es with
  | nil =>
    intro acc done _ _ haccnd haccch _ _
    refine ⟨acc, rfl, haccnd, ?_⟩
    have hlist : done ++ ([] : List (Nat × Nat)).map Prod.fst = done := by simp
    rw [hlist]
    exact haccch
  | cons ev es ih =>
    intro acc done hesnd hdisj haccnd haccch hvals hF
    obtain ⟨hv_val, hv_ms, hi_lt⟩ := hvals ev (List.mem_cons_self _ _)
    obtain ⟨out, hout, houtnd, houtch⟩ := hF ev (List.mem_cons_self _ _)
    rw [List.map_cons] at hesnd
    have hi_notin_es : ev.1 ∉ es.map Prod.fst := (List.nodup_cons.mp hesnd).1
    have hesnd' : (es.map Prod.fst).Nodup := (List.nodup_cons.mp hesnd).2
    have hi_notin_done : ev.1 ∉ done := fun h =>
      hdisj ev.1 h (List.mem_map.mpr ⟨ev, List.mem_cons_self _ _, rfl⟩)
    have hnewfresh : (pre ++ [ev.1]) ∉ acc.map Prod.fst := by
      intro hmem
      obtain ⟨kv, hkv, hkeq⟩ := List.mem_map.mp hmem
      obtain ⟨ext, hkext, -, hhd, -, -, -⟩ := (haccch kv.1 kv.2).mp hkv
      have hpe : pre ++ ext = pre ++ [ev.1] := by
        rw [← hkext, hkeq]
      have hexteq : ext = [ev.1] := List.append_cancel_left hpe
      rw [hexteq] at hhd
      exact hi_notin_done (by simpa using hhd)
    have haccput : alPut acc (pre ++ [ev.1]) ev.2 = acc ++ [(pre ++ [ev.1], ev.2)] :=
      alPut_fresh acc (pre ++ [ev.1]) ev.2 hnewfresh
    have houtfresh : ∀ k ∈ out.map Prod.fst,
        k ∉ (acc ++ [(pre ++ [ev.1], ev.2)]).map Prod.fst := by
      intro k hk hmem
      obtain ⟨kv, hkv, hkeq⟩ := List.mem_map.mp hk
      obtain ⟨ext2, hkext, hne2, -, -, -⟩ := (houtch kv.1 kv.2).mp hkv
      rw [List.map_append, List.mem_append] at hmem
      rcases hmem with hacc | hsingle
      · obtain ⟨kv', hkv', hkeq'⟩ := List.mem_map.mp hacc
        obtain ⟨ext, hkext', -, hhd, -, -, -⟩ := (haccch kv'.1 kv'.2).mp hkv'
        have h1 : pre ++ ext = pre ++ ev.1 :: ext2 := by
          rw [← hkext', hkeq', ← hkeq, hkext, List.append_cons pre ev.1 ext2]
        have h2 : ext = ev.1 :: ext2 := List.append_cancel_left h1
        rw [h2] at hhd
        exact hi_notin_done (by simpa using hhd)
      · have hks : k = pre ++ [ev.1] := by simpa using hsingle
        have h3 : (pre ++ [ev.1]) ++ ext2 = (pre ++ [ev.1]) ++ [] := by
          rw [List.append_nil, ← hkext, hkeq, hks]
        exact hne2 (List.append_cancel_left h3)
    have hupd : dictUpdate (acc ++ [(pre ++ [ev.1], ev.2)]) out =
        (acc ++ [(pre ++ [ev.1], ev.2)]) ++ out :=
      dictUpdate_append out (acc ++ [(pre ++ [ev.1], ev.2)]) houtfresh houtnd
    have hacc2nd : (((acc ++ [(pre ++ [ev.1], ev.2)]) ++ out).map Prod.fst).Nodup := by
      rw [List.map_append]
      refine List.Nodup.append ?_ houtnd ?_
      · rw [List.map_append]
        refine List.Nodup.append haccnd (List.nodup_singleton _) ?_
        intro a ha hb
        have haeq : a = pre ++ [ev.1] := by simpa using hb
        rw [haeq] at ha
        exact hnewfresh ha
      · intro a ha hb
        exact houtfresh a hb ha
    have hacc2ch : ∀ k v2, (k, v2) ∈ (acc ++ [(pre ++ [ev.1], ev.2)]) ++ out ↔
        ∃ ext, k = pre ++ ext ∧ ext ≠ [] ∧ ext.headD 0 ∈ done ++ [ev.1] ∧
          List.Chain' (· > ·) (item :: ext) ∧
          minSup ≤ ((val ext : Nat) : ℚ) ∧ v2 = val ext := by
      intro k v2
      rw [List.mem_append, List.mem_append]
      constructor
      · rintro ((hacc | hsingle) | hout2)
        · obtain ⟨ext, h1, h2, h3, h4, h5, h6⟩ := (haccch k v2).mp hacc
          exact ⟨ext, h1, h2, List.mem_append.mpr (Or.inl h3), h4, h5, h6⟩
        · injection List.mem_singleton.mp hsingle with hk1 hk2
          refine ⟨[ev.1], hk1, by simp, by simp, ?_, ?_, ?_⟩
          · exact List.chain'_pair.mpr hi_lt
          · exact hv_ms
          · exact hk2.trans hv_val
        · obtain ⟨ext2, h1, -, h3, h4, h5⟩ := (houtch k v2).mp hout2
          refine ⟨ev.1 :: ext2, ?_, by simp, by simp, ?_, h4, h5⟩
          · rw [h1, List.append_cons pre ev.1 ext2]
          · rw [List.chain'_cons]
            exact ⟨hi_lt, h3⟩
      · rintro ⟨ext, hk, hne, hhd, hch, hms, hv⟩
        rw [List.mem_append] at hhd
        cases ext with
        | nil => exact absurd rfl hne
        | cons h0 ext' =>
          rcases hhd with hdone | hnew
          · exact Or.inl (Or.inl ((haccch k v2).mpr
              ⟨h0 :: ext', hk, hne, hdone, hch, hms, hv⟩))
          · have hh0 : h0 = ev.1 := by simpa using hnew
            subst hh0
            cases ext' with
            | nil =>
              refine Or.inl (Or.inr ?_)
              rw [List.mem_singleton]
              have hveq : v2 = ev.2 := hv.trans hv_val.symm
              rw [hk, hveq]
            | cons h1 ext'' =>
              refine Or.inr ((houtch k v2).mpr ⟨h1 :: ext'', ?_, by simp, ?_, hms, hv⟩)
              · rw [hk, List.append_cons pre ev.1 (h1 :: ext'')]
              · exact (List.chain'_cons.mp hch).2
    have hdisj' : ∀ j ∈ done ++ [ev.1], j ∉ es.map Prod.fst := by
      intro j hj
      rw [List.mem_append] at hj
      rcases hj with hjd | hje
      · intro hmem
        refine hdisj j hjd ?_
        rw [List.map_cons]
        exact List.mem_cons_of_mem _ hmem
      · have hjeq : j = ev.1 := by simpa using hje
        rw [hjeq]
        exact hi_notin_es
    obtain ⟨res, hres, hresnd, hresch⟩ :=
      ih ((acc ++ [(pre ++ [ev.1], ev.2)]) ++ out) (done ++ [ev.1]) hesnd' hdisj'
        hacc2nd hacc2ch (fun e he => hvals e (List.mem_cons_of_mem _ he))
        (fun e he => hF e (List.mem_cons_of_mem _ he))
    have hstep : (F ev.1).map
        (fun sub => dictUpdate (alPut acc (pre ++ [ev.1]) ev.2) sub) =
        some ((acc ++ [(pre ++ [ev.1], ev.2)]) ++ out) := by
      rw [hout]
      show some (dictUpdate (alPut acc (pre ++ [ev.1]) ev.2) out) = _
      rw [haccput, hupd]
    refine ⟨res, ?_, hresnd, ?_⟩
    · exact (foldlM_cons_some _ ev es acc _ hstep).trans hres
    · have hlist : done ++ (ev :: es).map Prod.fst =
          (done ++ [ev.1]) ++ es.map Prod.fst := by
        rw [List.map_cons, List.append_cons done ev.1 (es.map Prod.fst)]
      rw [hlist]
      exact hresch

/-- Full characterization of `genFreqPatterns` on a tree built from
strictly ascending positive-weight data, for a positive threshold: mining
rank `item` with prefix `pre` returns exactly the patterns `pre ++ ext`
for the nonempty strictly descending rank extensions `ext` whose weighted
support together with `item` meets `minSup`, each valued by that support. -/
theorem genFreqPatterns_spec (minSup : ℚ) (hms0 : 0 < minSup) :
    ∀ (fuel item : Nat), item < fuel →
      ∀ (W : List (List Nat × Nat)), (∀ e ∈ W, List.Sorted (· < ·) e.1) →
        (∀ e ∈ W, 0 < e.2) →
        ∀ (l : List (List Nat)), alGet (buildOf W).nodeLink item = some l →
          ∀ (pre : List Nat), ∃ out,
            genFreqPatterns minSup fuel item pre (buildOf W) = some out ∧
            (out.map Prod.fst).Nodup ∧
            ∀ k v, (k, v) ∈ out ↔ ∃ ext, k = pre ++ ext ∧ ext ≠ [] ∧
              List.Chain' (· > ·) (item :: ext) ∧
              minSup ≤ ((wsupp W (insert item ext.toFinset) : Nat) : ℚ) ∧
              v = wsupp W (insert item ext.toFinset) := by
  intro fuel
  induction fuel with
  | zero => intro item h; exact absurd h (Nat.not_lt_zero item)
  | succ f ih =>
    intro item hlt W hsorted hpos l hl pre
    rw [genFreqPatterns, generateConditionalTree_eq W item l hl, Option.some_bind,
      freqItemsOf_eq (condData (buildOf W) l), Option.some_bind]
    set V := condData (buildOf W) l with hVdef
    have hgood := condData_good W item l hl hsorted
    have hVs : ∀ e ∈ V, List.Sorted (· < ·) e.1 := fun e he => (hgood e he).1
    have hVlt : ∀ e ∈ V, ∀ x ∈ e.1, x < item := fun e he => (hgood e he).2
    have hVpos : ∀ e ∈ V, 0 < e.2 := condData_pos W item l hl hpos
    have hcw : ∀ S : Finset Nat, (∀ x ∈ S, x < item) →
        wsupp V S = wsupp W (insert item S) := fun S hS =>
      condData_wsupp W item l hl hsorted S hS
    set es := (((buildOf V).nodeLink.map fun e => (e.1, occWeight V e.1)).filter
      fun e => minSup ≤ (e.2 : ℚ)) with hesdef
    have hkeysnd : (es.map Prod.fst).Nodup := by
      refine List.Sublist.nodup (List.Sublist.map Prod.fst (List.filter_sublist _)) ?_
      rw [List.map_map]
      exact (buildOf_WF V).1
    have hmemes : ∀ e, e ∈ es → (∃ paths, (e.1, paths) ∈ (buildOf V).nodeLink) ∧
        e.2 = occWeight V e.1 ∧ minSup ≤ (e.2 : ℚ) := by
      intro e he
      have h1 := List.mem_of_mem_filter he
      have h2 := List.of_mem_filter he
      obtain ⟨a, ha, haeq⟩ := List.mem_map.mp h1
      refine ⟨⟨a.2, ?_⟩, ?_, ?_⟩
      · have ha1 : e.1 = a.1 := by rw [← haeq]
        rw [ha1]
        exact ha
      · rw [← haeq]
      · simpa using h2
    have heslt : ∀ e, e ∈ es → e.1 < item := by
      intro e he
      obtain ⟨⟨paths, hpaths⟩, -, -⟩ := hmemes e he
      have hsome : (alGet (buildOf V).nodeLink e.1).isSome := by
        rw [alGet_isSome_iff_mem]
        exact List.mem_map.mpr ⟨(e.1, paths), hpaths, rfl⟩
      obtain ⟨e', he', hm⟩ := (nodeLink_isSome_iff V e.1).mp hsome
      exact hVlt e' he' e.1 hm
    have hVnodup : ∀ e ∈ V, e.1.Nodup :=
      fun e he => sorted_lt_nodup e.1 (hVs e he)
    have hvals : ∀ e ∈ es,
        e.2 = wsupp W (insert item ([e.1] : List Nat).toFinset) ∧
        minSup ≤ ((wsupp W (insert item ([e.1] : List Nat).toFinset) : Nat) : ℚ) ∧
        e.1 < item := by
      intro e he
      obtain ⟨-, hocc, hms⟩ := hmemes e he
      have hlt' := heslt e he
      have hkey : e.2 = wsupp W (insert item ([e.1] : List Nat).toFinset) := by
        have hset : ([e.1] : List Nat).toFinset = {e.1} := by simp
        rw [hset, hocc, occWeight_eq_wsupp V hVnodup e.1]
        refine hcw {e.1} ?_
        intro x hx
        have hxe : x = e.1 := Finset.mem_singleton.mp hx
        rw [hxe]
        exact hlt'
      refine ⟨hkey, ?_, hlt'⟩
      rw [← hkey]
      exact hms
    have hF : ∀ e ∈ es, ∃ out,
        genFreqPatterns minSup f e.1 (pre ++ [e.1]) (buildOf V) = some out ∧
        (out.map Prod.fst).Nodup ∧
        ∀ k v, (k, v) ∈ out ↔ ∃ ext2, k = (pre ++ [e.1]) ++ ext2 ∧ ext2 ≠ [] ∧
          List.Chain' (· > ·) (e.1 :: ext2) ∧
          minSup ≤ ((wsupp W (insert item ((e.1 :: ext2) : List Nat).toFinset)
            : Nat) : ℚ) ∧
          v = wsupp W (insert item ((e.1 :: ext2) : List Nat).toFinset) := by
      intro e he
      obtain ⟨⟨paths, hpaths⟩, -, -⟩ := hmemes e he
      have hget : alGet (buildOf V).nodeLink e.1 = some paths :=
        alGet_eq_some_of_mem (buildOf_WF V).1 hpaths
      have hlt' : e.1 < f := Nat.lt_of_lt_of_le (heslt e he) (Nat.le_of_lt_succ hlt)
      obtain ⟨out, hout, hnd, hch⟩ := ih e.1 hlt' V hVs hVpos paths hget (pre ++ [e.1])
      refine ⟨out, hout, hnd, fun k v => (hch k v).trans (exists_congr fun ext2 => ?_)⟩
      have hiff : List.Chain' (· > ·) (e.1 :: ext2) →
          wsupp V (insert e.1 ext2.toFinset) =
            wsupp W (insert item ((e.1 :: ext2) : List Nat).toFinset) := by
        intro hch2
        rw [List.toFinset_cons]
        refine hcw (insert e.1 ext2.toFinset) ?_
        intro x hx
        rcases Finset.mem_insert.mp hx with rfl | hx2
        · exact heslt e he
        · exact Nat.lt_trans
            (chain_gt_all ext2 e.1 hch2 x (List.mem_toFinset.mp hx2)) (heslt e he)
      constructor
      · rintro ⟨hk, hne, hch2, hms, hv⟩
        refine ⟨hk, hne, hch2, ?_, ?_⟩
        · rw [← hiff hch2]
          exact hms
        · rw [← hiff hch2]
          exact hv
      · rintro ⟨hk, hne, hch2, hms, hv⟩
        refine ⟨hk, hne, hch2, ?_, ?_⟩
        · rw [hiff hch2]
          exact hms
        · rw [hiff hch2]
          exact hv
    obtain ⟨res, hres, hresnd, hresch⟩ :=
      mining_fold_spec minSup item pre
        (fun i => genFreqPatterns minSup f i (pre ++ [i]) (buildOf V))
        (fun ext => wsupp W (insert item ext.toFinset)) es [] []
        hkeysnd (fun i hi => absurd hi (List.not_mem_nil i)) List.nodup_nil
        (fun k v => by
          constructor
          · intro h
            exact absurd h (List.not_mem_nil _)
          · rintro ⟨ext, -, -, hhd, -⟩
            exact absurd hhd (List.not_mem_nil _))
        hvals hF
    refine ⟨res, hres, hresnd, ?_⟩
    intro k v
    rw [hresch k v]
    refine exists_congr fun ext => ?_
    constructor
    · rintro ⟨hk, hne, -, hch2, hms, hv⟩
      exact ⟨hk, hne, hch2, hms, hv⟩
    · rintro ⟨hk, hne, hch2, hms, hv⟩
      refine ⟨hk, hne, ?_, hch2, hms, hv⟩
      cases ext with
      | nil => exact absurd rfl hne
      | cons h0 ext' =>
        rw [List.nil_append]
        have hh0lt : h0 < item := (List.chain'_cons.mp hch2).1
        have hSlt : ∀ x ∈ ((h0 :: ext') : List Nat).toFinset, x < item := by
          intro x hx
          rcases List.mem_cons.mp (List.mem_toFinset.mp hx) with rfl | hx'
          · exact hh0lt
          · exact Nat.lt_trans
              (chain_gt_all ext' h0 (List.chain'_cons.mp hch2).2 x hx') hh0lt
        have hwpos : 0 < wsupp W (insert item ((h0 :: ext') : List Nat).toFinset) := by
          by_contra hz
          have h0' : wsupp W (insert item ((h0 :: ext') : List Nat).toFinset) = 0 := by
            omega
          rw [h0'] at hms
          have hle0 : minSup ≤ 0 := by simpa using hms
          exact absurd hms0 (not_lt.mpr hle0)
        have hwV : 0 < wsupp V ((h0 :: ext') : List Nat).toFinset := by
          rw [hcw _ hSlt]
          exact hwpos
        obtain ⟨e', he', hall⟩ := wsupp_pos_mem V _ hwV
        have hh0mem : h0 ∈ e'.1 :=
          hall h0 (List.mem_toFinset.mpr (List.mem_cons_self _ _))
        have hsome : (alGet (buildOf V).nodeLink h0).isSome :=
          (nodeLink_isSome_iff V h0).mpr ⟨e', he', hh0mem⟩
        obtain ⟨paths, hpaths⟩ := Option.isSome_iff_exists.mp hsome
        have hlink : (h0, paths) ∈ (buildOf V).nodeLink :=
          mem_of_alGet_eq_some hpaths
        have hmapmem : (h0, occWeight V h0) ∈
            ((buildOf V).nodeLink.map fun e => (e.1, occWeight V e.1)) :=
          List.mem_map.mpr ⟨(h0, paths), hlink, rfl⟩
        have hwge : wsupp W (insert item ((h0 :: ext') : List Nat).toFinset) ≤
            occWeight V h0 := by
          rw [occWeight_eq_wsupp V hVnodup h0, ← hcw _ hSlt]
          refine wsupp_anti V _ _ ?_
          intro x hx
          have hxe : x = h0 := Finset.mem_singleton.mp hx
          rw [hxe]
          exact List.mem_toFinset.mpr (List.mem_cons_self _ _)
        have hfilter : (h0, occWeight V h0) ∈ es := by
          rw [hesdef]
          refine List.mem_filter.mpr ⟨hmapmem, ?_⟩
          simp only [decide_eq_true_eq]
          exact le_trans hms (Nat.cast_le.mpr hwge)
        exact List.mem_map.mpr ⟨(h0, occWeight V h0), hfilter, rfl⟩


/-! ### The per-partition characterization: `genAllFrequentPatterns` -/

/-- Invariant of the item fold of `genAllFrequentPatterns`: after the
items `is`, starting from an accumulator holding the patterns headed by a
processed owned item, the result holds the patterns headed by any
processed-or-pending owned item. -/
theorem genAll_fold_spec (minSup : ℚ) (np p : Nat)
    (G : Nat → Option (List (List Nat × Nat))) (val : Nat → List Nat → Nat) :
    ∀ (is : List Nat) (acc : List (List Nat × Nat)) (done : List Nat),
      is.Nodup →
      (∀ i ∈ done, i ∉ is) →
      (acc.map Prod.fst).Nodup →
      (∀ k v, (k, v) ∈ acc ↔ ∃ i ext, k = i :: ext ∧ ext ≠ [] ∧ i ∈ done ∧
        getPartitionId np i = p ∧ List.Chain' (· > ·) (i :: ext) ∧
        minSup ≤ ((val i ext : Nat) : ℚ) ∧ v = val i ext) →
      (∀ i ∈ is, getPartitionId np i = p → ∃ out, G i = some out ∧
        (out.map Prod.fst).Nodup ∧
        (∀ k v, (k, v) ∈ out ↔ ∃ ext, k = i :: ext ∧ ext ≠ [] ∧
          List.Chain' (· > ·) (i :: ext) ∧
          minSup ≤ ((val i ext : Nat) : ℚ) ∧ v = val i ext)) →
      ∃ res, is.foldlM (fun acc2 i =>
          if getPartitionId np i = p then (G i).map fun sub => dictUpdate acc2 sub
          else pure acc2) acc = some res ∧
        (res.map Prod.fst).Nodup ∧
        (∀ k v, (k, v) ∈ res ↔ ∃ i ext, k = i :: ext ∧ ext ≠ [] ∧
          i ∈ done ++ is ∧ getPartitionId np i = p ∧
          List.Chain' (· > ·) (i :: ext) ∧
          minSup ≤ ((val i ext : Nat) : ℚ) ∧ v = val i ext) := by
  intro is
  induction is with
  | nil =>
    intro acc done _ _ haccnd haccch _
    refine ⟨acc, rfl, haccnd, ?_⟩
    rw [List.append_nil]
    exact haccch
  | cons i0 is ih =>
    intro acc done hisnd hdisj haccnd haccch hG
    have hi0_notin : i0 ∉ is := (List.nodup_cons.mp hisnd).1
    have hisnd' : is.Nodup := (List.nodup_cons.mp hisnd).2
    have hi0_done : i0 ∉ done := fun h => hdisj i0 h (List.mem_cons_self _ _)
    have hdisj' : ∀ j ∈ done ++ [i0], j ∉ is := by
      intro j hj
      rw [List.mem_append] at hj
      rcases hj with hjd | hje
      · exact fun hm => hdisj j hjd (List.mem_cons_of_mem _ hm)
      · have hjeq : j = i0 := by simpa using hje
        rw [hjeq]
        exact hi0_notin
    have hlist : done ++ i0 :: is = (done ++ [i0]) ++ is :=
      List.append_cons done i0 is
    by_cases hown : getPartitionId np i0 = p
    · obtain ⟨out, hout, houtnd, houtch⟩ := hG i0 (List.mem_cons_self _ _) hown
      have hfresh : ∀ k ∈ out.map Prod.fst, k ∉ acc.map Prod.fst := by
        intro k hk hmem
        obtain ⟨kv, hkv, hkeq⟩ := List.mem_map.mp hk
        obtain ⟨ext, hkext, -, -, -, -⟩ := (houtch kv.1 kv.2).mp hkv
        obtain ⟨kv', hkv', hkeq'⟩ := List.mem_map.mp hmem
        obtain ⟨i', ext', hkext', -, hdone', -, -, -, -⟩ :=
          (haccch kv'.1 kv'.2).mp hkv'
        have hkk : (i0 :: ext : List Nat) = i' :: ext' := by
          rw [← hkext, hkeq, ← hkeq', hkext']
        have hii : i0 = i' := by injection hkk
        rw [← hii] at hdone'
        exact hi0_done hdone'
      have hupd : dictUpdate acc out = acc ++ out :=
        dictUpdate_append out acc hfresh houtnd
      have hnd2 : ((acc ++ out).map Prod.fst).Nodup := by
        rw [List.map_append]
        refine List.Nodup.append haccnd houtnd ?_
        intro a ha hb
        exact hfresh a hb ha
      have hch2 : ∀ k v, (k, v) ∈ acc ++ out ↔ ∃ i ext, k = i :: ext ∧ ext ≠ [] ∧
          i ∈ done ++ [i0] ∧ getPartitionId np i = p ∧
          List.Chain' (· > ·) (i :: ext) ∧
          minSup ≤ ((val i ext : Nat) : ℚ) ∧ v = val i ext := by
        intro k v
        rw [List.mem_append]
        constructor
        · rintro (hacc | hout2)
          · obtain ⟨i, ext, h1, h2, h3, h4, h5, h6, h7⟩ := (haccch k v).mp hacc
            exact ⟨i, ext, h1, h2, List.mem_append.mpr (Or.inl h3), h4, h5, h6, h7⟩
          · obtain ⟨ext, h1, h2, h3, h4, h5⟩ := (houtch k v).mp hout2
            exact ⟨i0, ext, h1, h2, List.mem_append.mpr (Or.inr (by simp)),
              hown, h3, h4, h5⟩
        · rintro ⟨i, ext, h1, h2, h3, h4, h5, h6, h7⟩
          rw [List.mem_append] at h3
          rcases h3 with h3d | h3n
          · exact Or.inl ((haccch k v).mpr ⟨i, ext, h1, h2, h3d, h4, h5, h6, h7⟩)
          · have hii : i = i0 := by simpa using h3n
            rw [hii] at h1 h5 h6 h7
            exact Or.inr ((houtch k v).mpr ⟨ext, h1, h2, h5, h6, h7⟩)
      obtain ⟨res, hres, hresnd, hresch⟩ :=
        ih (acc ++ out) (done ++ [i0]) hisnd' hdisj' hnd2 hch2
          (fun j hj hjo => hG j (List.mem_cons_of_mem _ hj) hjo)
      have hstep : (if getPartitionId np i0 = p
          then (G i0).map fun sub => dictUpdate acc sub else pure acc) =
          some (acc ++ out) := by
        rw [if_pos hown, hout]
        show some (dictUpdate acc out) = _
        rw [hupd]
      refine ⟨res, (foldlM_cons_some _ i0 is acc _ hstep).trans hres, hresnd, ?_⟩
      rw [hlist]
      exact hresch
    · have hch2 : ∀ k v, (k, v) ∈ acc ↔ ∃ i ext, k = i :: ext ∧ ext ≠ [] ∧
          i ∈ done ++ [i0] ∧ getPartitionId np i = p ∧
          List.Chain' (· > ·) (i :: ext) ∧
          minSup ≤ ((val i ext : Nat) : ℚ) ∧ v = val i ext := by
        intro k v
        rw [haccch k v]
        constructor
        · rintro ⟨i, ext, h1, h2, h3, h4, h5, h6, h7⟩
          exact ⟨i, ext, h1, h2, List.mem_append.mpr (Or.inl h3), h4, h5, h6, h7⟩
        · rintro ⟨i, ext, h1, h2, h3, h4, h5, h6, h7⟩
          rw [List.mem_append] at h3
          rcases h3 with h3d | h3n
          · exact ⟨i, ext, h1, h2, h3d, h4, h5, h6, h7⟩
          · have hii : i = i0 := by simpa using h3n
            rw [hii] at h4
            exact absurd h4 hown
      obtain ⟨res, hres, hresnd, hresch⟩ :=
        ih acc (done ++ [i0]) hisnd' hdisj' haccnd hch2
          (fun j hj hjo => hG j (List.mem_cons_of_mem _ hj) hjo)
      have hstep : (if getPartitionId np i0 = p
          then (G i0).map fun sub => dictUpdate acc sub else pure acc) =
          some acc := by
        rw [if_neg hown]
        rfl
      refine ⟨res, (foldlM_cons_some _ i0 is acc _ hstep).trans hres, hresnd, ?_⟩
      rw [hlist]
      exact hresch


/-- Characterization of `genAllFrequentPatterns` on a tree built from
strictly ascending positive-weight data: partition `p` produces exactly
the multi-rank patterns headed by a rank it owns. -/
theorem genAll_spec (minSup : ℚ) (hms0 : 0 < minSup) (np p : Nat)
    (V : List (List Nat × Nat)) (hVs : ∀ e ∈ V, List.Sorted (· < ·) e.1)
    (hVpos : ∀ e ∈ V, 0 < e.2) :
    ∃ res, genAllFrequentPatterns minSup np p (buildOf V) = some res ∧
      (res.map Prod.fst).Nodup ∧
      ∀ k v, (k, v) ∈ res ↔ ∃ i ext, k = i :: ext ∧ ext ≠ [] ∧
        getPartitionId np i = p ∧ List.Chain' (· > ·) (i :: ext) ∧
        minSup ≤ ((wsupp V (insert i ext.toFinset) : Nat) : ℚ) ∧
        v = wsupp V (insert i ext.toFinset) := by
  have hperm : ((buildOf V).itemCount.insertionSort fun a b => a.2 ≤ b.2).Perm
      (buildOf V).itemCount := List.perm_insertionSort _ _
  have hpermf := hperm.map Prod.fst
  have hisnd : (((buildOf V).itemCount.insertionSort fun a b => a.2 ≤ b.2).map
      Prod.fst).Nodup := hpermf.nodup_iff.mpr (buildOf_WF V).2.1
  have hmemit : ∀ i, i ∈ (((buildOf V).itemCount.insertionSort
      fun a b => a.2 ≤ b.2).map Prod.fst) ↔ ∃ e ∈ V, i ∈ e.1 := by
    intro i
    rw [hpermf.mem_iff]
    rw [← alGet_isSome_iff_mem]
    exact itemCount_isSome_iff V i
  have hG : ∀ i ∈ (((buildOf V).itemCount.insertionSort fun a b => a.2 ≤ b.2).map
      Prod.fst), getPartitionId np i = p → ∃ out,
      genFreqPatterns minSup (i + 1) i [i] (buildOf V) = some out ∧
      (out.map Prod.fst).Nodup ∧
      (∀ k v, (k, v) ∈ out ↔ ∃ ext, k = i :: ext ∧ ext ≠ [] ∧
        List.Chain' (· > ·) (i :: ext) ∧
        minSup ≤ ((wsupp V (insert i ext.toFinset) : Nat) : ℚ) ∧
        v = wsupp V (insert i ext.toFinset)) := by
    intro i hi _
    have hnl : (alGet (buildOf V).nodeLink i).isSome :=
      (nodeLink_isSome_iff V i).mpr ((hmemit i).mp hi)
    obtain ⟨l, hl⟩ := Option.isSome_iff_exists.mp hnl
    obtain ⟨out, hout, hnd, hch⟩ :=
      genFreqPatterns_spec minSup hms0 (i + 1) i (Nat.lt_succ_self i) V hVs hVpos
        l hl [i]
    refine ⟨out, hout, hnd, fun k v => (hch k v).trans (exists_congr fun ext => ?_)⟩
    constructor
    · rintro ⟨hk, h2, h3, h4, h5⟩
      exact ⟨hk, h2, h3, h4, h5⟩
    · rintro ⟨hk, h2, h3, h4, h5⟩
      exact ⟨hk, h2, h3, h4, h5⟩
  obtain ⟨res, hres, hresnd, hresch⟩ :=
    genAll_fold_spec minSup np p
      (fun i => genFreqPatterns minSup (i + 1) i [i] (buildOf V))
      (fun i ext => wsupp V (insert i ext.toFinset))
      (((buildOf V).itemCount.insertionSort fun a b => a.2 ≤ b.2).map Prod.fst)
      [] [] hisnd (fun i hi => absurd hi (List.not_mem_nil i)) List.nodup_nil
      (fun k v => by
        constructor
        · intro h
          exact absurd h (List.not_mem_nil _)
        · rintro ⟨i, ext, -, -, hdone, -⟩
          exact absurd hdone (List.not_mem_nil _))
      hG
  refine ⟨res, hres, hresnd, ?_⟩
  intro k v
  rw [hresch k v]
  refine exists_congr fun i => exists_congr fun ext => ?_
  constructor
  · rintro ⟨h1, h2, -, h4, h5, h6, h7⟩
    exact ⟨h1, h2, h4, h5, h6, h7⟩
  · rintro ⟨h1, h2, h4, h5, h6, h7⟩
    refine ⟨h1, h2, ?_, h4, h5, h6, h7⟩
    rw [List.nil_append]
    refine (hmemit i).mpr ?_
    have hwpos : 0 < wsupp V (insert i ext.toFinset) := by
      by_contra hz
      have h0' : wsupp V (insert i ext.toFinset) = 0 := by omega
      rw [h0'] at h6
      have hle0 : minSup ≤ 0 := by simpa using h6
      exact absurd hms0 (not_lt.mpr hle0)
    obtain ⟨e', he', hall⟩ := wsupp_pos_mem V _ hwpos
    exact ⟨e', he', hall i (Finset.mem_insert_self i _)⟩


/-! ### The rank dictionary and the singleton pass of `startMine` -/

theorem rankMap_eq_some_iff :
    ∀ (fpl : List Item), fpl.Nodup → ∀ (x : Item) (z : Nat),
      (rankMap fpl x = some z ↔ fpl.get? z = some x) := by
  intro fpl
  induction fpl with
  | nil =>
    intro _ x z
    constructor
    · intro h
      exact absurd h (by rw [rankMap]; simp)
    · intro h
      exact absurd h (by simp)
  | cons y r ih =>
    intro hnd x z
    have hynr : y ∉ r := (List.nodup_cons.mp hnd).1
    have hrnd : r.Nodup := (List.nodup_cons.mp hnd).2
    by_cases hyx : y = x
    · subst hyx
      rw [rankMap, if_pos rfl]
      cases z with
      | zero =>
        constructor
        · intro _
          rfl
        · intro _
          rfl
      | succ w =>
        constructor
        · intro h
          exact absurd h (by simp)
        · intro h
          have hmem : y ∈ r := List.get?_mem h
          exact absurd hmem hynr
    · rw [rankMap, if_neg hyx]
      cases z with
      | zero =>
        constructor
        · intro h
          cases hr : rankMap r x with
          | none =>
            rw [hr] at h
            exact absurd h (by simp)
          | some w =>
            rw [hr] at h
            simp at h
        · intro h
          have : y = x := by simpa using h
          exact absurd this hyx
      | succ w =>
        have hgs : ((y :: r).get? (w + 1) = some x) = (r.get? w = some x) := rfl
        rw [hgs]
        rw [← ih hrnd x w]
        constructor
        · intro h
          cases hr : rankMap r x with
          | none =>
            rw [hr] at h
            exact absurd h (by simp)
          | some w' =>
            rw [hr] at h
            have hw : w' = w := by simpa using h
            rw [← hw]
        · intro h
          rw [h]
          rfl

theorem rankMap_inj (fpl : List Item) (hnd : fpl.Nodup) (x y : Item) (z : Nat)
    (hx : rankMap fpl x = some z) (hy : rankMap fpl y = some z) : x = y := by
  rw [rankMap_eq_some_iff fpl hnd] at hx hy
  have h : (some x : Option Item) = some y := hx.symm.trans hy
  exact Option.some.inj h

/-- Total number of occurrences of an item in the database. -/
theorem alGet_alBump_getD (l : List (Item × Nat)) (k k' : Item) (c : Nat) :
    (alGet (alBump l k c) k').getD 0 =
      (alGet l k').getD 0 + (if k = k' then c else 0) := by
  rw [alGet_alBump]
  by_cases h : k = k'
  · subst h
    rw [if_pos rfl, if_pos rfl]
    rfl
  · rw [if_neg h, if_neg h]
    omega

theorem alGet_alBump_isSome (l : List (Item × Nat)) (k k' : Item) (c : Nat) :
    (alGet (alBump l k c) k').isSome = (k = k' || (alGet l k').isSome) := by
  rw [alGet_alBump]
  by_cases h : k = k'
  · rw [if_pos h]
    simp [h]
  · rw [if_neg h]
    simp [h]

theorem occFold_getD (x : Item) :
    ∀ (t : List Item) (acc : List (Item × Nat)),
      (alGet (t.foldl (fun a y => alBump a y 1) acc) x).getD 0 =
        (alGet acc x).getD 0 + t.count x := by
  intro t
  induction t with
  | nil => intro acc; rfl
  | cons y t ih =>
    intro acc
    rw [List.foldl_cons, ih (alBump acc y 1), alGet_alBump_getD, List.count_cons]
    by_cases h : y = x
    · subst h
      rw [if_pos rfl, if_pos (beq_self_eq_true y)]
      omega
    · have hne : ¬((y == x) = true) := by
        simp only [beq_iff_eq]
        exact h
      rw [if_neg h, if_neg hne]
      omega

theorem occFold_isSome (x : Item) :
    ∀ (t : List Item) (acc : List (Item × Nat)),
      (alGet (t.foldl (fun a y => alBump a y 1) acc) x).isSome ↔
        (x ∈ t ∨ (alGet acc x).isSome) := by
  intro t
  induction t with
  | nil =>
    intro acc
    constructor
    · intro h
      exact Or.inr h
    · rintro (h | h)
      · exact absurd h (List.not_mem_nil x)
      · exact h
  | cons y t ih =>
    intro acc
    rw [List.foldl_cons, ih (alBump acc y 1), alGet_alBump_isSome]
    constructor
    · rintro (h | h)
      · exact Or.inl (List.mem_cons_of_mem _ h)
      · rcases Bool.or_eq_true_iff.mp h with h1 | h2
        · have hyx : y = x := by simpa using h1
          exact Or.inl (hyx ▸ List.mem_cons_self _ _)
        · exact Or.inr h2
    · rintro (h | h)
      · rcases List.mem_cons.mp h with rfl | h2
        · exact Or.inr (Bool.or_eq_true_iff.mpr (Or.inl (by simp)))
        · exact Or.inl h2
      · exact Or.inr (Bool.or_eq_true_iff.mpr (Or.inr h))

theorem occFold_nodup_keys :
    ∀ (t : List Item) (acc : List (Item × Nat)), (acc.map Prod.fst).Nodup →
      (((t.foldl (fun a y => alBump a y 1) acc)).map Prod.fst).Nodup := by
  intro t
  induction t with
  | nil => intro acc h; exact h
  | cons y t ih =>
    intro acc h
    rw [List.foldl_cons]
    exact ih (alBump acc y 1) (alBump_nodup_keys acc y 1 h)

/-- `occCount db x`: the number of occurrences of `x` across the database
(an item occurring twice in one line counted twice). -/
theorem itemOccCounts_getD (db : List (List Item)) (x : Item) :
    (alGet (itemOccCounts db) x).getD 0 = (db.map fun t => t.count x).sum := by
  unfold itemOccCounts
  induction db using List.reverseRecOn with
  | nil => rfl
  | append_singleton db t ih =>
    rw [List.foldl_append, List.foldl_cons, List.foldl_nil, occFold_getD, ih,
      List.map_append, List.sum_append]
    rfl

theorem itemOccCounts_isSome (db : List (List Item)) (x : Item) :
    (alGet (itemOccCounts db) x).isSome ↔ ∃ t ∈ db, x ∈ t := by
  unfold itemOccCounts
  induction db using List.reverseRecOn with
  | nil =>
    constructor
    · intro h
      exact absurd h (by simp [alGet])
    · rintro ⟨t, ht, -⟩
      exact absurd ht (by simp)
  | append_singleton db t ih =>
    rw [List.foldl_append, List.foldl_cons, List.foldl_nil, occFold_isSome]
    constructor
    · rintro (hc | hs)
      · exact ⟨t, by simp, hc⟩
      · obtain ⟨t', ht', hx⟩ := ih.mp hs
        exact ⟨t', by simp [ht'], hx⟩
    · rintro ⟨t', ht', hx⟩
      rcases List.mem_append.mp ht' with hd | hs
      · exact Or.inr (ih.mpr ⟨t', hd, hx⟩)
      · have htt : t' = t := by simpa using hs
        rw [htt] at hx
        exact Or.inl hx

theorem itemOccCounts_nodup_keys (db : List (List Item)) :
    ((itemOccCounts db).map Prod.fst).Nodup := by
  unfold itemOccCounts
  induction db using List.reverseRecOn with
  | nil => exact List.nodup_nil
  | append_singleton db t ih =>
    rw [List.foldl_append, List.foldl_cons, List.foldl_nil]
    exact occFold_nodup_keys t _ ih

theorem mem_itemOccCounts_iff (db : List (List Item)) (x : Item) (c : Nat) :
    (x, c) ∈ itemOccCounts db ↔
      (∃ t ∈ db, x ∈ t) ∧ c = (db.map fun t => t.count x).sum := by
  rw [← alGet_eq_some_iff_mem (itemOccCounts_nodup_keys db)]
  constructor
  · intro h
    have hs : (alGet (itemOccCounts db) x).isSome := by
      rw [h]
      rfl
    refine ⟨(itemOccCounts_isSome db x).mp hs, ?_⟩
    have hd := itemOccCounts_getD db x
    rw [h] at hd
    have hcd : c = (db.map fun t => t.count x).sum := by simpa using hd
    exact hcd
  · rintro ⟨hocc, hc⟩
    have hs := (itemOccCounts_isSome db x).mpr hocc
    obtain ⟨c', hc'⟩ := Option.isSome_iff_exists.mp hs
    have hd := itemOccCounts_getD db x
    rw [hc'] at hd
    have hcc : c' = (db.map fun t => t.count x).sum := by simpa using hd
    rw [hc', hc, ← hcc]

theorem sum_map_one {α : Type} : ∀ l : List α, (l.map fun _ => 1).sum = l.length := by
  intro l
  induction l with
  | nil => rfl
  | cons a l ih =>
    rw [List.map_cons, List.sum_cons, ih, List.length_cons]
    omega

theorem count_eq_ite_of_nodup_str (t : List Item) (hnd : t.Nodup) (x : Item) :
    t.count x = if x ∈ t then 1 else 0 := by
  by_cases h : x ∈ t
  · rw [if_pos h]
    have hle := List.nodup_iff_count_le_one.mp hnd x
    have hpos := List.count_pos_iff.mpr h
    omega
  · rw [if_neg h, List.count_eq_zero_of_not_mem h]

/-- Under duplicate-free transactions, the occurrence total of an item is
its true support as a singleton itemset. -/
theorem occTotal_eq_trueSupport (db : List (List Item))
    (hnd : ∀ t ∈ db, t.Nodup) (x : Item) :
    (db.map fun t => t.count x).sum = trueSupport db {x} := by
  unfold trueSupport
  rw [← sum_map_one (db.filter fun t => decide (∀ y ∈ ({x} : Finset Item), y ∈ t)),
    sum_filter_eq_sum_ite]
  refine congrArg List.sum (List.map_congr_left fun t ht => ?_)
  rw [count_eq_ite_of_nodup_str t (hnd t ht) x]
  by_cases h : x ∈ t
  · rw [if_pos h, if_pos (by simpa using h)]
  · rw [if_neg h, if_neg (by simpa using h)]

theorem mem_freqItemsSorted_iff (db : List (List Item)) (minSup : ℚ)
    (x : Item) (c : Nat) :
    (x, c) ∈ freqItemsSorted db minSup ↔
      (x, c) ∈ itemOccCounts db ∧ minSup ≤ (c : ℚ) := by
  unfold freqItemsSorted
  rw [(List.perm_insertionSort _ _).mem_iff, List.mem_filter]
  constructor
  · rintro ⟨h1, h2⟩
    exact ⟨h1, by simpa using h2⟩
  · rintro ⟨h1, h2⟩
    exact ⟨h1, by simpa using h2⟩

theorem freqItemsSorted_nodup_keys (db : List (List Item)) (minSup : ℚ) :
    ((freqItemsSorted db minSup).map Prod.fst).Nodup := by
  unfold freqItemsSorted
  refine ((List.perm_insertionSort _ _).map Prod.fst).nodup_iff.mpr ?_
  exact List.Sublist.nodup (List.Sublist.map Prod.fst (List.filter_sublist _))
    (itemOccCounts_nodup_keys db)


/-! ### Projection bridge: partition data in terms of the ranked database -/

theorem mem_rankedTrans_iff (t : List Item) (rk : Item → Option Nat) (z : Nat) :
    z ∈ rankedTrans t rk ↔ ∃ x ∈ t, rk x = some z := by
  unfold rankedTrans
  rw [(List.perm_insertionSort _ _).mem_iff, List.mem_filterMap]

theorem rankedTrans_sorted_lt (t : List Item) (rk : Item → Option Nat)
    (hnd : t.Nodup) (hinj : ∀ x y z, rk x = some z → rk y = some z → x = y) :
    List.Sorted (· < ·) (rankedTrans t rk) := by
  have h1 : (t.filterMap rk).Nodup := by
    refine List.Nodup.filterMap ?_ hnd
    intro a a' b hb hb'
    rw [Option.mem_def] at hb hb'
    exact hinj a a' b hb hb'
  have h2 : (rankedTrans t rk).Nodup :=
    ((List.perm_insertionSort _ _).nodup_iff).mpr h1
  have h3 : List.Sorted (· ≤ ·) (rankedTrans t rk) := rankedTrans_sorted t rk
  refine (List.Pairwise.and h3 h2).imp ?_
  rintro a b ⟨hle, hne⟩
  exact lt_of_le_of_ne hle hne

/-- Restatement of the `genCondTransaction` lookup characterization used by
the pipeline proofs (membership and maximality of the projected prefix). -/
theorem genCond_get_char (transaction : List Item) (rank : Item → Option Nat)
    (np : Nat) :
    (∀ p, (alGet (genCondTransaction transaction rank np) p).isSome ↔
      ∃ r ∈ rankedTrans transaction rank, getPartitionId np r = p) ∧
    (∀ p l, alGet (genCondTransaction transaction rank np) p = some l →
      ∃ m ∈ rankedTrans transaction rank, getPartitionId np m = p ∧
        (∀ r ∈ rankedTrans transaction rank, getPartitionId np r = p → r ≤ m) ∧
        l = (rankedTrans transaction rank).take
              (pyIndex m (rankedTrans transaction rank) + 1)) := by
  set T := rankedTrans transaction rank with hT
  have hget : ∀ p, alGet (genCondTransaction transaction rank np) p =
      (T.reverse.find? fun r => getPartitionId np r = p).map
        fun m => T.take (pyIndex m T + 1) := by
    intro p
    rw [genCondTransaction_eq_fold, ← hT, condFold_get T np T.reverse [] p]
    rfl
  have hrevpw : List.Pairwise (fun a b : Nat => b ≤ a) T.reverse := by
    rw [List.pairwise_reverse]
    exact rankedTrans_sorted transaction rank
  refine ⟨?_, ?_⟩
  · intro p
    have hmap : ∀ (x : Option Nat),
        (x.map fun m => T.take (pyIndex m T + 1)).isSome = x.isSome := by
      intro x
      cases x <;> rfl
    rw [hget p, hmap, List.find?_isSome]
    constructor
    · rintro ⟨r, hr, hf⟩
      exact ⟨r, List.mem_reverse.mp hr, by simpa using hf⟩
    · rintro ⟨r, hr, hf⟩
      exact ⟨r, List.mem_reverse.mpr hr, by simpa using hf⟩
  · intro p l hl
    rw [hget p] at hl
    obtain ⟨m, hm, rfl⟩ := Option.map_eq_some'.mp hl
    refine ⟨m, List.mem_reverse.mp (List.mem_of_find?_eq_some hm), ?_, ?_, rfl⟩
    · simpa using List.find?_some hm
    · intro r hr hf
      exact find?_max_of_sorted_ge _ T.reverse hrevpw m hm r
        (List.mem_reverse.mpr hr) (by simpa using hf)

theorem buildTree_eq_buildOf (data : List (List Nat)) :
    buildTree data = buildOf (data.map fun t => (t, 1)) := by
  unfold buildTree buildOf
  rw [List.foldl_map]

theorem wsupp_unit (data : List (List Nat)) (S : Finset Nat) :
    wsupp (data.map fun t => (t, 1)) S =
      (data.filter fun t => decide (∀ x ∈ S, x ∈ t)).length := by
  unfold wsupp
  rw [List.filter_map, List.map_map]
  show (List.map (fun _ => (1 : Nat))
    (data.filter fun t => decide (∀ x ∈ S, x ∈ t))).sum = _
  rw [sum_map_one]

theorem length_filter_filterMap {α β : Type} (f : α → Option β) (q : β → Bool) :
    ∀ l : List α, ((l.filterMap f).filter q).length =
      (l.filter fun a => ((f a).map q).getD false).length := by
  intro l
  induction l with
  | nil => rfl
  | cons a l ih =>
    cases hfa : f a with
    | none =>
      rw [List.filterMap_cons_none hfa, List.filter_cons, hfa]
      simp only [Option.map_none', Option.getD_none, Bool.false_eq_true, if_false]
      exact ih
    | some b =>
      rw [List.filterMap_cons_some hfa, List.filter_cons, List.filter_cons, hfa]
      simp only [Option.map_some', Option.getD_some]
      by_cases hqb : q b = true
      · rw [if_pos hqb, if_pos hqb, List.length_cons, List.length_cons, ih]
      · rw [if_neg hqb, if_neg hqb]
        exact ih


/-- The partition bridge: the weighted support, in the partition's
projected data, of a rank set headed by a rank the partition owns equals
the number of database transactions whose rank sequence contains the whole
set. -/
theorem wsupp_partTrans (db : List (List Item)) (rk : Item → Option Nat)
    (np : Nat) (p : Nat)
    (hsorted : ∀ t ∈ db, List.Sorted (· < ·) (rankedTrans t rk))
    (i : Nat) (hp : getPartitionId np i = p) (S : Finset Nat)
    (hS : ∀ x ∈ S, x < i) :
    wsupp ((partTrans db rk np p).map fun T => (T, 1)) (insert i S) =
      (db.filter fun t =>
        decide (∀ x ∈ insert i S, x ∈ rankedTrans t rk)).length := by
  rw [wsupp_unit]
  unfold partTrans
  rw [length_filter_filterMap]
  refine congrArg List.length (List.filter_congr ?_)
  intro t ht
  obtain ⟨hiff, hchar⟩ := genCond_get_char t rk np
  cases hl : alGet (genCondTransaction t rk np) p with
  | none =>
    have hrhs : ¬(∀ x ∈ insert i S, x ∈ rankedTrans t rk) := by
      intro hall
      have hsome : (alGet (genCondTransaction t rk np) p).isSome :=
        (hiff p).mpr ⟨i, hall i (Finset.mem_insert_self i S), hp⟩
      rw [hl] at hsome
      exact absurd hsome (by simp)
    show false = decide (∀ x ∈ insert i S, x ∈ rankedTrans t rk)
    rw [decide_eq_false hrhs]
  | some l =>
    obtain ⟨m, hm, hmp, hmax, hleq⟩ := hchar p l hl
    show decide (∀ x ∈ insert i S, x ∈ l) =
      decide (∀ x ∈ insert i S, x ∈ rankedTrans t rk)
    refine decide_eq_decide.mpr ?_
    constructor
    · intro hall x hx
      have hxl := hall x hx
      rw [hleq] at hxl
      exact List.mem_of_mem_take hxl
    · intro hall x hx
      have him : i ≤ m := hmax i (hall i (Finset.mem_insert_self i S)) hp
      have hxm : x ≤ m := by
        rcases Finset.mem_insert.mp hx with rfl | hxS
        · exact him
        · exact Nat.le_trans (Nat.le_of_lt (hS x hxS)) him
      rw [hleq]
      exact (mem_take_pyIndex_succ_iff (rankedTrans t rk) m (hsorted t ht) hm x).mpr
        ⟨hall x hx, hxm⟩


/-! ### Combining the partitions: `minedAll` -/

/-- Invariant of the partition fold of `minedAll`: each partition
contributes exactly the patterns whose owner it is, for a partition-free
pattern condition `C`. -/
theorem part_fold_spec (C : List Nat → Nat → Prop) (owner : List Nat → Nat)
    (H : Nat → Option (List (List Nat × Nat))) :
    ∀ (ps : List Nat) (acc : List (List Nat × Nat)) (done : List Nat),
      ps.Nodup →
      (∀ p ∈ done, p ∉ ps) →
      (acc.map Prod.fst).Nodup →
      (∀ k v, (k, v) ∈ acc ↔ C k v ∧ owner k ∈ done) →
      (∀ p ∈ ps, ∃ out, H p = some out ∧ (out.map Prod.fst).Nodup ∧
        (∀ k v, (k, v) ∈ out ↔ C k v ∧ owner k = p)) →
      ∃ res, ps.foldlM (fun acc2 p => (H p).map fun sub => dictUpdate acc2 sub) acc
          = some res ∧
        (res.map Prod.fst).Nodup ∧
        (∀ k v, (k, v) ∈ res ↔ C k v ∧ owner k ∈ done ++ ps) := by
  intro ps
  induction ps with
  | nil =>
    intro acc done _ _ haccnd haccch _
    refine ⟨acc, rfl, haccnd, ?_⟩
    rw [List.append_nil]
    exact haccch
  | cons p0 ps ih =>
    intro acc done hpsnd hdisj haccnd haccch hH
    have hp0_notin : p0 ∉ ps := (List.nodup_cons.mp hpsnd).1
    have hpsnd' : ps.Nodup := (List.nodup_cons.mp hpsnd).2
    have hp0_done : p0 ∉ done := fun h => hdisj p0 h (List.mem_cons_self _ _)
    have hdisj' : ∀ q ∈ done ++ [p0], q ∉ ps := by
      intro q hq
      rw [List.mem_append] at hq
      rcases hq with hqd | hqe
      · exact fun hm => hdisj q hqd (List.mem_cons_of_mem _ hm)
      · have hqeq : q = p0 := by simpa using hqe
        rw [hqeq]
        exact hp0_notin
    obtain ⟨out, hout, houtnd, houtch⟩ := hH p0 (List.mem_cons_self _ _)
    have hfresh : ∀ k ∈ out.map Prod.fst, k ∉ acc.map Prod.fst := by
      intro k hk hmem
      obtain ⟨kv, hkv, hkeq⟩ := List.mem_map.mp hk
      obtain ⟨-, hownp⟩ := (houtch kv.1 kv.2).mp hkv
      obtain ⟨kv', hkv', hkeq'⟩ := List.mem_map.mp hmem
      obtain ⟨-, hownd⟩ := (haccch kv'.1 kv'.2).mp hkv'
      rw [hkeq] at hownp
      rw [hkeq'] at hownd
      rw [hownp] at hownd
      exact hp0_done hownd
    have hupd : dictUpdate acc out = acc ++ out :=
      dictUpdate_append out acc hfresh houtnd
    have hnd2 : ((acc ++ out).map Prod.fst).Nodup := by
      rw [List.map_append]
      refine List.Nodup.append haccnd houtnd ?_
      intro a ha hb
      exact hfresh a hb ha
    have hch2 : ∀ k v, (k, v) ∈ acc ++ out ↔ C k v ∧ owner k ∈ done ++ [p0] := by
      intro k v
      rw [List.mem_append]
      constructor
      · rintro (hacc | hout2)
        · obtain ⟨hc, hd⟩ := (haccch k v).mp hacc
          exact ⟨hc, List.mem_append.mpr (Or.inl hd)⟩
        · obtain ⟨hc, hd⟩ := (houtch k v).mp hout2
          exact ⟨hc, List.mem_append.mpr (Or.inr (by simp [hd]))⟩
      · rintro ⟨hc, hd⟩
        rw [List.mem_append] at hd
        rcases hd with hdd | hdn
        · exact Or.inl ((haccch k v).mpr ⟨hc, hdd⟩)
        · have hop : owner k = p0 := by simpa using hdn
          exact Or.inr ((houtch k v).mpr ⟨hc, hop⟩)
    obtain ⟨res, hres, hresnd, hresch⟩ :=
      ih (acc ++ out) (done ++ [p0]) hpsnd' hdisj' hnd2 hch2
        (fun q hq => hH q (List.mem_cons_of_mem _ hq))
    have hstep : (H p0).map (fun sub => dictUpdate acc sub) = some (acc ++ out) := by
      rw [hout]
      show some (dictUpdate acc out) = _
      rw [hupd]
    refine ⟨res, (foldlM_cons_some _ p0 ps acc _ hstep).trans hres, hresnd, ?_⟩
    rw [List.append_cons done p0 ps]
    exact hresch

/-- Characterization of `minedAll`: the union over all partitions of the
multi-rank patterns, now phrased partition-free through `suppRank`. -/
theorem minedAll_spec (db : List (List Item)) (rk : Item → Option Nat)
    (np : Nat) (hnp : 1 ≤ np) (minSup : ℚ) (hms0 : 0 < minSup)
    (hsorted : ∀ t ∈ db, List.Sorted (· < ·) (rankedTrans t rk)) :
    ∃ mined, minedAll db rk np minSup = some mined ∧
      (mined.map Prod.fst).Nodup ∧
      ∀ k v, (k, v) ∈ mined ↔ ∃ i ext, k = i :: ext ∧ ext ≠ [] ∧
        List.Chain' (· > ·) (i :: ext) ∧
        minSup ≤ ((suppRank db rk (insert i ext.toFinset) : Nat) : ℚ) ∧
        v = suppRank db rk (insert i ext.toFinset) := by
  have hpsnd : ((List.range np).filter
      fun p => !(partTrans db rk np p).isEmpty).Nodup :=
    List.Sublist.nodup (List.filter_sublist _) (List.nodup_range np)
  have hperp : ∀ p ∈ (List.range np).filter
      fun p => !(partTrans db rk np p).isEmpty, ∃ out,
      genAllFrequentPatterns minSup np p (buildTree (partTrans db rk np p)) =
        some out ∧
      (out.map Prod.fst).Nodup ∧
      (∀ k v, (k, v) ∈ out ↔
        (∃ i ext, k = i :: ext ∧ ext ≠ [] ∧
          List.Chain' (· > ·) (i :: ext) ∧
          minSup ≤ ((suppRank db rk (insert i ext.toFinset) : Nat) : ℚ) ∧
          v = suppRank db rk (insert i ext.toFinset)) ∧
        getPartitionId np (k.headD 0) = p) := by
    intro p _
    have hVs : ∀ e ∈ (partTrans db rk np p).map fun T => (T, 1),
        List.Sorted (· < ·) e.1 := by
      intro e he
      obtain ⟨T, hT, rfl⟩ := List.mem_map.mp he
      obtain ⟨t, ht, hget⟩ := List.mem_filterMap.mp hT
      obtain ⟨m, -, -, -, hleq⟩ := (genCond_get_char t rk np).2 p T hget
      rw [hleq]
      exact List.Pairwise.sublist (List.take_sublist _ _) (hsorted t ht)
    have hVpos : ∀ e ∈ (partTrans db rk np p).map fun T => (T, 1), 0 < e.2 := by
      intro e he
      obtain ⟨T, -, rfl⟩ := List.mem_map.mp he
      exact Nat.one_pos
    obtain ⟨out, hout, houtnd, houtch⟩ :=
      genAll_spec minSup hms0 np p ((partTrans db rk np p).map fun T => (T, 1))
        hVs hVpos
    rw [buildTree_eq_buildOf]
    refine ⟨out, hout, houtnd, ?_⟩
    intro k v
    rw [houtch k v]
    constructor
    · rintro ⟨i, ext, hk, hne, hown, hch, hms, hv⟩
      have hbr := wsupp_partTrans db rk np p hsorted i hown ext.toFinset
        (fun x hx => chain_gt_all ext i hch x (List.mem_toFinset.mp hx))
      refine ⟨⟨i, ext, hk, hne, hch, ?_, ?_⟩, ?_⟩
      · rw [show suppRank db rk (insert i ext.toFinset) =
          wsupp ((partTrans db rk np p).map fun T => (T, 1))
            (insert i ext.toFinset) from hbr.symm]
        exact hms
      · rw [show suppRank db rk (insert i ext.toFinset) =
          wsupp ((partTrans db rk np p).map fun T => (T, 1))
            (insert i ext.toFinset) from hbr.symm]
        exact hv
      · rw [hk]
        exact hown
    · rintro ⟨⟨i, ext, hk, hne, hch, hms, hv⟩, hown⟩
      have hip : getPartitionId np i = p := by
        rw [hk] at hown
        exact hown
      have hbr := wsupp_partTrans db rk np p hsorted i hip ext.toFinset
        (fun x hx => chain_gt_all ext i hch x (List.mem_toFinset.mp hx))
      refine ⟨i, ext, hk, hne, hip, hch, ?_, ?_⟩
      · rw [hbr]
        exact hms
      · rw [hbr]
        exact hv
  obtain ⟨res, hres, hresnd, hresch⟩ :=
    part_fold_spec
      (fun k v => ∃ i ext, k = i :: ext ∧ ext ≠ [] ∧
        List.Chain' (· > ·) (i :: ext) ∧
        minSup ≤ ((suppRank db rk (insert i ext.toFinset) : Nat) : ℚ) ∧
        v = suppRank db rk (insert i ext.toFinset))
      (fun k => getPartitionId np (k.headD 0))
      (fun p => genAllFrequentPatterns minSup np p
        (buildTree (partTrans db rk np p)))
      ((List.range np).filter fun p => !(partTrans db rk np p).isEmpty)
      [] [] hpsnd (fun p hp => absurd hp (List.not_mem_nil p)) List.nodup_nil
      (fun k v => by
        constructor
        · intro h
          exact absurd h (List.not_mem_nil _)
        · rintro ⟨-, hd⟩
          exact absurd hd (List.not_mem_nil _))
      hperp
  refine ⟨res, hres, hresnd, ?_⟩
  intro k v
  rw [hresch k v]
  constructor
  · rintro ⟨hc, -⟩
    exact hc
  · intro hc
    refine ⟨hc, ?_⟩
    rw [List.nil_append]
    obtain ⟨i, ext, hk, -, -, hms, -⟩ := hc
    have hpos : 0 < suppRank db rk (insert i ext.toFinset) := by
      by_contra hz
      have h0' : suppRank db rk (insert i ext.toFinset) = 0 := by omega
      rw [h0'] at hms
      have hle0 : minSup ≤ 0 := by simpa using hms
      exact absurd hms0 (not_lt.mpr hle0)
    unfold suppRank at hpos
    rw [List.length_pos] at hpos
    obtain ⟨t, ht⟩ := List.exists_mem_of_ne_nil _ hpos
    have htdb : t ∈ db := List.mem_of_mem_filter ht
    have hall : ∀ x ∈ insert i ext.toFinset, x ∈ rankedTrans t rk := by
      have := List.of_mem_filter ht
      simpa using this
    have hi_mem : i ∈ rankedTrans t rk := hall i (Finset.mem_insert_self i _)
    have hsome : (alGet (genCondTransaction t rk np)
        (getPartitionId np i)).isSome :=
      ((genCond_get_char t rk np).1 (getPartitionId np i)).mpr ⟨i, hi_mem, rfl⟩
    obtain ⟨l, hl⟩ := Option.isSome_iff_exists.mp hsome
    have hmemp : l ∈ partTrans db rk np (getPartitionId np i) :=
      List.mem_filterMap.mpr ⟨t, htdb, hl⟩
    have hne2 : partTrans db rk np (getPartitionId np i) ≠ [] := by
      intro h0
      rw [h0] at hmemp
      exact List.not_mem_nil l hmemp
    have howner : getPartitionId np (k.headD 0) = getPartitionId np i := by
      rw [hk]
      rfl
    refine List.mem_filter.mpr ⟨?_, ?_⟩
    · rw [howner]
      exact List.mem_range.mpr (Nat.mod_lt i (Nat.lt_of_lt_of_le Nat.zero_lt_one hnp))
    · rw [howner]
      simpa using hne2


/-! ### Assembling `startMine`: translation back to labels -/

theorem pos_of_minSup_le (minSup : ℚ) (hms0 : 0 < minSup) (n : Nat)
    (h : minSup ≤ (n : ℚ)) : 0 < n := by
  by_contra hz
  have h0 : n = 0 := by omega
  rw [h0] at h
  have hle : minSup ≤ 0 := by simpa using h
  exact absurd hms0 (not_lt.mpr hle)

theorem valid_of_suppRank_pos (db : List (List Item)) (fpl : List Item)
    (hfplnd : fpl.Nodup) (rks : List Nat)
    (hpos : 0 < suppRank db (rankMap fpl) rks.toFinset) :
    ∀ z ∈ rks, ((fpl.get? z).isSome : Prop) := by
  unfold suppRank at hpos
  rw [List.length_pos] at hpos
  obtain ⟨t, ht⟩ := List.exists_mem_of_ne_nil _ hpos
  have hall : ∀ x ∈ rks.toFinset, x ∈ rankedTrans t (rankMap fpl) := by
    have hf := List.of_mem_filter ht
    simpa using hf
  intro z hz
  have hzr := hall z (List.mem_toFinset.mpr hz)
  rw [mem_rankedTrans_iff] at hzr
  obtain ⟨x, -, hrk⟩ := hzr
  rw [rankMap_eq_some_iff fpl hfplnd] at hrk
  rw [hrk]
  rfl

theorem map_getD_inj (fpl : List Item) (hfplnd : fpl.Nodup) :
    ∀ (k1 k2 : List Nat), (∀ z ∈ k1, ((fpl.get? z).isSome : Prop)) →
      (∀ z ∈ k2, ((fpl.get? z).isSome : Prop)) →
      k1.map (fun z => (fpl.get? z).getD "") =
        k2.map (fun z => (fpl.get? z).getD "") →
      k1 = k2 := by
  intro k1
  induction k1 with
  | nil =>
    intro k2 _ _ h
    cases k2 with
    | nil => rfl
    | cons z2 k2 => simp at h
  | cons z1 k1 ih =>
    intro k2 hv1 hv2 h
    cases k2 with
    | nil => simp at h
    | cons z2 k2 =>
      rw [List.map_cons, List.map_cons] at h
      injection h with h1 h2
      obtain ⟨x1, hx1⟩ := Option.isSome_iff_exists.mp
        (hv1 z1 (List.mem_cons_self _ _))
      obtain ⟨x2, hx2⟩ := Option.isSome_iff_exists.mp
        (hv2 z2 (List.mem_cons_self _ _))
      have hxx : x1 = x2 := by
        have h1' := h1
        rw [hx1, hx2] at h1'
        simpa using h1'
      have hr1 := (rankMap_eq_some_iff fpl hfplnd x1 z1).mpr hx1
      have hr2 := (rankMap_eq_some_iff fpl hfplnd x2 z2).mpr hx2
      rw [← hxx] at hr2
      have hz : z1 = z2 := by
        rw [hr1] at hr2
        exact Option.some.inj hr2
      rw [hz, ih k2 (fun z hzm => hv1 z (List.mem_cons_of_mem _ hzm))
        (fun z hzm => hv2 z (List.mem_cons_of_mem _ hzm)) h2]

/-- Shared characterization of the final mapping of `startMine`: the
singleton pass entries, updated with the translated multi-item patterns.
The right-hand side does not mention the partition count. -/
theorem startMineModel_spec (db : List (List Item)) (minSup : ℚ) (np : Nat)
    (hnodup : ∀ t ∈ db, t.Nodup) (hms0 : 0 < minSup) (hnp : 1 ≤ np) :
    ∃ final, startMineModel db minSup np = some final ∧
      (final.map Prod.fst).Nodup ∧
      ∀ k v, (k, v) ∈ final ↔
        ((∃ x, k = [x] ∧ (x, v) ∈ freqItemsSorted db minSup) ∨
         (∃ rks : List Nat, 2 ≤ rks.length ∧ List.Chain' (· > ·) rks ∧
           rks.mapM (fun z => ((freqItemsSorted db minSup).map Prod.fst).get? z)
             = some k ∧
           minSup ≤ ((suppRank db
             (rankMap ((freqItemsSorted db minSup).map Prod.fst))
             rks.toFinset : Nat) : ℚ) ∧
           v = suppRank db (rankMap ((freqItemsSorted db minSup).map Prod.fst))
             rks.toFinset)) := by
  set fi := freqItemsSorted db minSup with hfidef
  set fpl := fi.map Prod.fst with hfpldef
  set rk := rankMap fpl with hrkdef
  have hfplnd : fpl.Nodup := freqItemsSorted_nodup_keys db minSup
  have hinj : ∀ x y z, rk x = some z → rk y = some z → x = y :=
    fun x y z hx hy => rankMap_inj fpl hfplnd x y z hx hy
  have hsorted : ∀ t ∈ db, List.Sorted (· < ·) (rankedTrans t rk) :=
    fun t ht => rankedTrans_sorted_lt t rk (hnodup t ht) hinj
  obtain ⟨mined, hmined, hminednd, hminedch⟩ :=
    minedAll_spec db rk np hnp minSup hms0 hsorted
  have hvalid : ∀ e ∈ mined, ∀ z ∈ e.1, ((fpl.get? z).isSome : Prop) := by
    intro e he
    obtain ⟨i, ext, hk, -, -, hms, -⟩ := (hminedch e.1 e.2).mp he
    have hpos : 0 < suppRank db rk (insert i ext.toFinset) :=
      pos_of_minSup_le minSup hms0 _ hms
    have hposk : 0 < suppRank db rk e.1.toFinset := by
      rw [hk, List.toFinset_cons]
      exact hpos
    exact valid_of_suppRank_pos db fpl hfplnd e.1 hposk
  have hmapM : mined.mapM (fun e : List Nat × Nat =>
      (e.1.mapM fun z => fpl.get? z).map fun labs => (labs, e.2)) =
      some (mined.map fun e =>
        (e.1.map fun z => (fpl.get? z).getD "", e.2)) := by
    refine mapM_eq_map _ _ mined ?_
    intro e he
    have hinner : e.1.mapM (fun z => fpl.get? z) =
        some (e.1.map fun z => (fpl.get? z).getD "") := by
      refine mapM_eq_map _ _ e.1 ?_
      intro z hz
      obtain ⟨x, hx⟩ := Option.isSome_iff_exists.mp (hvalid e he z hz)
      rw [hx]
      rfl
    rw [hinner]
    rfl
  have hunfold : startMineModel db minSup np =
      (minedAll db rk np minSup).bind fun mined2 =>
        (mined2.mapM fun e : List Nat × Nat =>
            (e.1.mapM fun z => fpl.get? z).map fun labs => (labs, e.2)).map
          fun result => dictUpdate (fi.map fun e => ([e.1], e.2)) result := rfl
  have hfinal_eq : startMineModel db minSup np =
      some (dictUpdate (fi.map fun e => (([e.1] : List Item), e.2))
        (mined.map fun e => (e.1.map fun z => (fpl.get? z).getD "", e.2))) := by
    rw [hunfold, hmined, Option.some_bind, hmapM, Option.map_some']
  have hsinglesnd : ((fi.map fun e => (([e.1] : List Item), e.2)).map
      Prod.fst).Nodup := by
    rw [List.map_map]
    show (fi.map fun e => ([e.1] : List Item)).Nodup
    have hmm : fi.map (fun e => ([e.1] : List Item)) = fpl.map fun x => [x] := by
      rw [hfpldef, List.map_map]
      rfl
    rw [hmm]
    refine List.Nodup.map_on ?_ hfplnd
    intro a _ b _ hab
    simpa using hab
  have hkeylen : ∀ e ∈ mined, 2 ≤ e.1.length := by
    intro e he
    obtain ⟨i, ext, hk, hne, -, -, -⟩ := (hminedch e.1 e.2).mp he
    rw [hk]
    cases ext with
    | nil => exact absurd rfl hne
    | cons a l2 =>
      rw [List.length_cons, List.length_cons]
      omega
  have hresnd : ((mined.map fun e =>
      (e.1.map fun z => (fpl.get? z).getD "", e.2)).map Prod.fst).Nodup := by
    rw [List.map_map]
    show (mined.map fun e => e.1.map fun z => (fpl.get? z).getD "").Nodup
    have hmm : (mined.map fun e => e.1.map fun z => (fpl.get? z).getD "") =
        (mined.map Prod.fst).map fun k => k.map fun z => (fpl.get? z).getD "" := by
      rw [List.map_map]
      rfl
    rw [hmm]
    refine List.Nodup.map_on ?_ hminednd
    intro k1 hk1 k2 hk2 heq
    obtain ⟨e1, he1, hke1⟩ := List.mem_map.mp hk1
    obtain ⟨e2, he2, hke2⟩ := List.mem_map.mp hk2
    refine map_getD_inj fpl hfplnd k1 k2 ?_ ?_ heq
    · rw [← hke1]
      exact hvalid e1 he1
    · rw [← hke2]
      exact hvalid e2 he2
  have hdisj : ∀ k ∈ (mined.map fun e =>
      (e.1.map fun z => (fpl.get? z).getD "", e.2)).map Prod.fst,
      k ∉ (fi.map fun e => (([e.1] : List Item), e.2)).map Prod.fst := by
    intro k hk hmem
    rw [List.map_map] at hk hmem
    obtain ⟨e, he, hke⟩ := List.mem_map.mp hk
    obtain ⟨e', he', hke'⟩ := List.mem_map.mp hmem
    have hlen2 : 2 ≤ k.length := by
      rw [← hke]
      show 2 ≤ (e.1.map fun z => (fpl.get? z).getD "").length
      rw [List.length_map]
      exact hkeylen e he
    have hlen1 : k.length = 1 := by
      rw [← hke']
      rfl
    omega
  have hupd : dictUpdate (fi.map fun e => (([e.1] : List Item), e.2))
      (mined.map fun e => (e.1.map fun z => (fpl.get? z).getD "", e.2)) =
      (fi.map fun e => (([e.1] : List Item), e.2)) ++
      (mined.map fun e => (e.1.map fun z => (fpl.get? z).getD "", e.2)) :=
    dictUpdate_append _ _ hdisj hresnd
  refine ⟨(fi.map fun e => (([e.1] : List Item), e.2)) ++
      (mined.map fun e => (e.1.map fun z => (fpl.get? z).getD "", e.2)),
    by rw [hfinal_eq, hupd], ?_, ?_⟩
  · rw [List.map_append]
    refine List.Nodup.append hsinglesnd hresnd ?_
    intro a ha hb
    exact hdisj a hb ha
  · intro k v
    rw [List.mem_append]
    constructor
    · rintro (hs | hr)
      · left
        obtain ⟨e, he, heq⟩ := List.mem_map.mp hs
        injection heq with h1 h2
        refine ⟨e.1, h1.symm, ?_⟩
        rw [← h2]
        exact he
      · right
        obtain ⟨e, he, heq⟩ := List.mem_map.mp hr
        injection heq with h1 h2
        obtain ⟨i, ext, hk, hne, hch, hms, hv⟩ := (hminedch e.1 e.2).mp he
        refine ⟨e.1, hkeylen e he, ?_, ?_, ?_, ?_⟩
        · rw [hk]
          exact hch
        · have hin : e.1.mapM (fun z => fpl.get? z) =
              some (e.1.map fun z => (fpl.get? z).getD "") := by
            refine mapM_eq_map _ _ e.1 ?_
            intro z hz
            obtain ⟨x, hx⟩ := Option.isSome_iff_exists.mp (hvalid e he z hz)
            rw [hx]
            rfl
          rw [hin, h1]
        · rw [hk, List.toFinset_cons]
          exact hms
        · rw [hk, List.toFinset_cons, ← h2]
          exact hv
    · rintro (⟨x, hk, hx⟩ | ⟨rks, hlen, hch, hmapMk, hms, hv⟩)
      · left
        rw [List.mem_map]
        exact ⟨(x, v), hx, by rw [hk]⟩
      · right
        cases rks with
        | nil => simp at hlen
        | cons i ext =>
          cases ext with
          | nil => simp at hlen
          | cons a ext2 =>
            have hne : (a :: ext2 : List Nat) ≠ [] := by simp
            have hms' : minSup ≤
                ((suppRank db rk (insert i (a :: ext2).toFinset) : Nat) : ℚ) := by
              rw [← List.toFinset_cons]
              exact hms
            have hv' : v = suppRank db rk (insert i (a :: ext2).toFinset) := by
              rw [← List.toFinset_cons]
              exact hv
            have hminedmem : ((i :: a :: ext2 : List Nat), v) ∈ mined :=
              (hminedch _ v).mpr ⟨i, a :: ext2, rfl, hne, hch, hms', hv'⟩
            have hposk : 0 < suppRank db rk (i :: a :: ext2 : List Nat).toFinset :=
              pos_of_minSup_le minSup hms0 _ hms
            have hvalid2 := valid_of_suppRank_pos db fpl hfplnd (i :: a :: ext2) hposk
            have hin : (i :: a :: ext2 : List Nat).mapM (fun z => fpl.get? z) =
                some ((i :: a :: ext2 : List Nat).map
                  fun z => (fpl.get? z).getD "") := by
              refine mapM_eq_map _ _ _ ?_
              intro z hz
              obtain ⟨x, hx⟩ := Option.isSome_iff_exists.mp (hvalid2 z hz)
              rw [hx]
              rfl
            have hkeq : k = (i :: a :: ext2 : List Nat).map
                fun z => (fpl.get? z).getD "" := by
              rw [hin] at hmapMk
              exact (Option.some.inj hmapMk).symm
            rw [List.mem_map]
            refine ⟨((i :: a :: ext2 : List Nat), v), hminedmem, ?_⟩
            rw [hkeq]


/-! ### True-support semantics of the assembled result -/

theorem trueSupport_anti (db : List (List Item)) (S S' : Finset Item)
    (hsub : S ⊆ S') : trueSupport db S' ≤ trueSupport db S := by
  unfold trueSupport
  induction db with
  | nil => exact Nat.le_refl 0
  | cons t db ih =>
    rw [List.filter_cons, List.filter_cons]
    by_cases h' : ∀ x ∈ S', x ∈ t
    · have h : ∀ x ∈ S, x ∈ t := fun x hx => h' x (hsub hx)
      rw [if_pos (by simpa using h'), if_pos (by simpa using h)]
      rw [List.length_cons, List.length_cons]
      omega
    · by_cases h : ∀ x ∈ S, x ∈ t
      · rw [if_neg (by simpa using h'), if_pos (by simpa using h)]
        rw [List.length_cons]
        omega
      · rw [if_neg (by simpa using h'), if_neg (by simpa using h)]
        exact ih

theorem trueSupport_pos_mem (db : List (List Item)) (S : Finset Item)
    (h : 0 < trueSupport db S) : ∃ t ∈ db, ∀ x ∈ S, x ∈ t := by
  unfold trueSupport at h
  rw [List.length_pos] at h
  obtain ⟨t, ht⟩ := List.exists_mem_of_ne_nil _ h
  refine ⟨t, List.mem_of_mem_filter ht, ?_⟩
  have hf := List.of_mem_filter ht
  simpa using hf

/-- Translating a rank set through `FPList` turns `suppRank` into the true
support of the corresponding label set. -/
theorem suppRank_eq_trueSupport (db : List (List Item)) (fpl : List Item)
    (hfplnd : fpl.Nodup) (rks : List Nat)
    (hval : ∀ z ∈ rks, ((fpl.get? z).isSome : Prop)) :
    suppRank db (rankMap fpl) rks.toFinset =
      trueSupport db ((rks.map fun z => (fpl.get? z).getD "").toFinset) := by
  unfold suppRank trueSupport
  refine congrArg List.length (List.filter_congr ?_)
  intro t _
  refine decide_eq_decide.mpr ?_
  constructor
  · intro hall x hx
    rw [List.mem_toFinset, List.mem_map] at hx
    obtain ⟨z, hz, rfl⟩ := hx
    have hzr := hall z (List.mem_toFinset.mpr hz)
    rw [mem_rankedTrans_iff] at hzr
    obtain ⟨y, hy, hrky⟩ := hzr
    have hgy : fpl.get? z = some y := (rankMap_eq_some_iff fpl hfplnd y z).mp hrky
    rw [hgy]
    exact hy
  · intro hall z hz
    rw [List.mem_toFinset] at hz
    obtain ⟨x, hgx⟩ := Option.isSome_iff_exists.mp (hval z hz)
    have hmem : x ∈ t := by
      have hx := hall ((fpl.get? z).getD "")
        (List.mem_toFinset.mpr (List.mem_map.mpr ⟨z, hz, rfl⟩))
      rw [hgx] at hx
      exact hx
    rw [mem_rankedTrans_iff]
    exact ⟨x, hmem, (rankMap_eq_some_iff fpl hfplnd x z).mpr hgx⟩

theorem labOf_inj (fpl : List Item) (hfplnd : fpl.Nodup) (z1 z2 : Nat)
    (h1 : ((fpl.get? z1).isSome : Prop)) (h2 : ((fpl.get? z2).isSome : Prop))
    (heq : (fpl.get? z1).getD "" = (fpl.get? z2).getD "") : z1 = z2 := by
  obtain ⟨x1, hx1⟩ := Option.isSome_iff_exists.mp h1
  obtain ⟨x2, hx2⟩ := Option.isSome_iff_exists.mp h2
  have hxx : x1 = x2 := by
    rw [hx1, hx2] at heq
    simpa using heq
  have hr1 := (rankMap_eq_some_iff fpl hfplnd x1 z1).mpr hx1
  have hr2 := (rankMap_eq_some_iff fpl hfplnd x2 z2).mpr hx2
  rw [← hxx] at hr2
  rw [hr1] at hr2
  exact Option.some.inj hr2

theorem chain_gt_nodup (rks : List Nat) (hch : List.Chain' (· > ·) rks) :
    rks.Nodup := by
  have hpw : List.Pairwise (· > ·) rks := List.chain'_iff_pairwise.mp hch
  exact hpw.imp fun h => ne_of_gt h

/-- C1 (corrected): when every transaction is duplicate-free, the resolved
threshold is positive, and there is at least one partition, the final
pattern mapping of `startMine` holds exactly the nonempty itemsets whose
true support meets the threshold: every entry is keyed by a nonempty
duplicate-free label list and valued by the true support of its item set
(strictly positive and meeting the threshold); every qualifying itemset
appears; and no itemset appears under two different keys.  (With repeated
items inside one transaction the counts are occurrence counts, not true
supports — see the counterexample.) -/
theorem startMine_pattern_correct (db : List (List Item)) (minSup : ℚ) (np : Nat)
    (hnodup : ∀ t ∈ db, t.Nodup) (hms0 : 0 < minSup) (hnp : 1 ≤ np) :
    ∃ final, startMineModel db minSup np = some final ∧
      (final.map Prod.fst).Nodup ∧
      (∀ k v, (k, v) ∈ final →
        k ≠ [] ∧ k.Nodup ∧ v = trueSupport db k.toFinset ∧
        minSup ≤ (v : ℚ) ∧ 0 < v) ∧
      (∀ S : Finset Item, S.Nonempty → minSup ≤ ((trueSupport db S : Nat) : ℚ) →
        ∃ k v, (k, v) ∈ final ∧ k.toFinset = S ∧ v = trueSupport db S) ∧
      (∀ k v k' v', (k, v) ∈ final → (k', v') ∈ final →
        k.toFinset = k'.toFinset → k = k' ∧ v = v') := by
  obtain ⟨final, hfin, hfinnd, hfinch⟩ :=
    startMineModel_spec db minSup np hnodup hms0 hnp
  set fi := freqItemsSorted db minSup with hfidef
  set fpl := fi.map Prod.fst with hfpldef
  have hfplnd : fpl.Nodup := freqItemsSorted_nodup_keys db minSup
  have hsing : ∀ x v, (x, v) ∈ fi ↔
      ((∃ t ∈ db, x ∈ t) ∧ v = trueSupport db {x} ∧ minSup ≤ (v : ℚ)) := by
    intro x v
    rw [hfidef, mem_freqItemsSorted_iff, mem_itemOccCounts_iff]
    constructor
    · rintro ⟨⟨hocc, hc⟩, hms⟩
      exact ⟨hocc, by rw [hc, occTotal_eq_trueSupport db hnodup x], hms⟩
    · rintro ⟨hocc, hv, hms⟩
      exact ⟨⟨hocc, by rw [hv, ← occTotal_eq_trueSupport db hnodup x]⟩, hms⟩
  have hstruct : ∀ k v, (k, v) ∈ final →
      (∃ x, k = [x] ∧ v = trueSupport db {x} ∧ minSup ≤ (v : ℚ)) ∨
      (∃ rks : List Nat, 2 ≤ rks.length ∧ List.Chain' (· > ·) rks ∧
        (∀ z ∈ rks, ((fpl.get? z).isSome : Prop)) ∧
        k = rks.map (fun z => (fpl.get? z).getD "") ∧
        v = trueSupport db ((rks.map fun z => (fpl.get? z).getD "").toFinset) ∧
        minSup ≤ (v : ℚ)) := by
    intro k v hkv
    rcases (hfinch k v).mp hkv with ⟨x, hk, hx⟩ | ⟨rks, hlen, hch, hmapMk, hms, hv⟩
    · obtain ⟨-, hv, hms⟩ := (hsing x v).mp hx
      exact Or.inl ⟨x, hk, hv, hms⟩
    · right
      have hpos : 0 < suppRank db (rankMap fpl) rks.toFinset :=
        pos_of_minSup_le minSup hms0 _ hms
      have hvalid := valid_of_suppRank_pos db fpl hfplnd rks hpos
      have hin : rks.mapM (fun z => fpl.get? z) =
          some (rks.map fun z => (fpl.get? z).getD "") := by
        refine mapM_eq_map _ _ _ ?_
        intro z hz
        obtain ⟨x, hx⟩ := Option.isSome_iff_exists.mp (hvalid z hz)
        rw [hx]
        rfl
      have hkeq : k = rks.map fun z => (fpl.get? z).getD "" := by
        rw [hin] at hmapMk
        exact (Option.some.inj hmapMk).symm
      have hsupp := suppRank_eq_trueSupport db fpl hfplnd rks hvalid
      refine ⟨rks, hlen, hch, hvalid, hkeq, ?_, ?_⟩
      · rw [hv, hsupp]
      · rw [hv]
        exact hms
  have hsound : ∀ k v, (k, v) ∈ final →
      k ≠ [] ∧ k.Nodup ∧ v = trueSupport db k.toFinset ∧
      minSup ≤ (v : ℚ) ∧ 0 < v := by
    intro k v hkv
    rcases hstruct k v hkv with ⟨x, hk, hv, hms⟩ |
      ⟨rks, hlen, hch, hvalid, hkeq, hv, hms⟩
    · subst hk
      refine ⟨by simp, List.nodup_singleton x, ?_, hms,
        pos_of_minSup_le minSup hms0 v hms⟩
      have hts : ([x] : List Item).toFinset = {x} := by simp
      rw [hts]
      exact hv
    · subst hkeq
      refine ⟨?_, ?_, hv, hms, pos_of_minSup_le minSup hms0 v hms⟩
      · intro h0
        rw [List.map_eq_nil_iff] at h0
        rw [h0] at hlen
        simp at hlen
      · refine List.Nodup.map_on ?_ (chain_gt_nodup rks hch)
        intro z1 hz1 z2 hz2 heq
        exact labOf_inj fpl hfplnd z1 z2 (hvalid z1 hz1) (hvalid z2 hz2) heq
  have hcomp : ∀ S : Finset Item, S.Nonempty →
      minSup ≤ ((trueSupport db S : Nat) : ℚ) →
      ∃ k v, (k, v) ∈ final ∧ k.toFinset = S ∧ v = trueSupport db S := by
    intro S hSne hSms
    have hTpos : 0 < trueSupport db S := pos_of_minSup_le minSup hms0 _ hSms
    obtain ⟨t0, ht0, hallS⟩ := trueSupport_pos_mem db S hTpos
    have hfreq : ∀ x ∈ S, (x, trueSupport db {x}) ∈ fi := by
      intro x hx
      refine (hsing x _).mpr ⟨⟨t0, ht0, hallS x hx⟩, rfl, ?_⟩
      have hle : trueSupport db S ≤ trueSupport db {x} := by
        refine trueSupport_anti db {x} S ?_
        intro y hy
        have hyx : y = x := Finset.mem_singleton.mp hy
        rw [hyx]
        exact hx
      exact le_trans hSms (Nat.cast_le.mpr hle)
    have hrank : ∀ x ∈ S, ∃ z, fpl.get? z = some x := by
      intro x hx
      have hmem : x ∈ fpl := by
        rw [hfpldef]
        exact List.mem_map.mpr ⟨(x, trueSupport db {x}), hfreq x hx, rfl⟩
      exact List.mem_iff_get?.mp hmem
    by_cases hcard : S.card ≤ 1
    · have hc1 : S.card = 1 :=
        Nat.le_antisymm hcard (Finset.card_pos.mpr hSne)
      obtain ⟨x, hSx⟩ := Finset.card_eq_one.mp hc1
      subst hSx
      refine ⟨[x], trueSupport db {x}, ?_, by simp, rfl⟩
      exact (hfinch _ _).mpr (Or.inl ⟨x, rfl, hfreq x (Finset.mem_singleton_self x)⟩)
    · push_neg at hcard
      set rks := ((List.range fpl.length).filter
        fun z => decide ((fpl.get? z).getD "" ∈ S)).reverse with hrksdef
      have hmemrks : ∀ z, z ∈ rks ↔ z < fpl.length ∧ (fpl.get? z).getD "" ∈ S := by
        intro z
        rw [hrksdef, List.mem_reverse, List.mem_filter, List.mem_range]
        constructor
        · rintro ⟨h1, h2⟩
          exact ⟨h1, by simpa using h2⟩
        · rintro ⟨h1, h2⟩
          exact ⟨h1, by simpa using h2⟩
      have hvalid : ∀ z ∈ rks, ((fpl.get? z).isSome : Prop) := by
        intro z hz
        have hlt := ((hmemrks z).mp hz).1
        rw [List.get?_eq_get hlt]
        rfl
      have hch : List.Chain' (· > ·) rks := by
        rw [List.chain'_iff_pairwise, hrksdef, List.pairwise_reverse]
        exact List.Pairwise.sublist (List.filter_sublist _)
          (List.pairwise_lt_range fpl.length)
      have hmapfin : ((rks.map fun z => (fpl.get? z).getD "").toFinset) = S := by
        refine Finset.ext fun x => ?_
        rw [List.mem_toFinset, List.mem_map]
        constructor
        · rintro ⟨z, hz, rfl⟩
          exact ((hmemrks z).mp hz).2
        · intro hx
          obtain ⟨z, hgz⟩ := hrank x hx
          obtain ⟨hlt, -⟩ := List.get?_eq_some.mp hgz
          refine ⟨z, (hmemrks z).mpr ⟨hlt, ?_⟩, ?_⟩
          · rw [hgz]
            exact hx
          · rw [hgz]
            rfl
      have hlen2 : 2 ≤ rks.length := by
        have hcle : S.card ≤ rks.length := by
          rw [← hmapfin]
          refine le_trans (List.toFinset_card_le _) ?_
          rw [List.length_map]
        omega
      have hin : rks.mapM (fun z => fpl.get? z) =
          some (rks.map fun z => (fpl.get? z).getD "") := by
        refine mapM_eq_map _ _ _ ?_
        intro z hz
        obtain ⟨x, hx⟩ := Option.isSome_iff_exists.mp (hvalid z hz)
        rw [hx]
        rfl
      have hsupp := suppRank_eq_trueSupport db fpl hfplnd rks hvalid
      refine ⟨rks.map fun z => (fpl.get? z).getD "",
        suppRank db (rankMap fpl) rks.toFinset, ?_, hmapfin, ?_⟩
      · refine (hfinch _ _).mpr (Or.inr ⟨rks, hlen2, hch, hin, ?_, rfl⟩)
        rw [hsupp, hmapfin]
        exact hSms
      · rw [hsupp, hmapfin]
  refine ⟨final, hfin, hfinnd, hsound, hcomp, ?_⟩
  intro k v k' v' h1 h2 hts
  have hkk : k = k' := by
    rcases hstruct k v h1 with ⟨x, hk, -, -⟩ |
      ⟨rks, hlen, hch, hvalid, hkeq, -, -⟩ <;>
      rcases hstruct k' v' h2 with ⟨x', hk', -, -⟩ |
        ⟨rks', hlen', hch', hvalid', hkeq', -, -⟩
    · subst hk
      subst hk'
      have hxx : x = x' := by
        have hss : ({x} : Finset Item) = {x'} := by simpa using hts
        simpa using hss
      rw [hxx]
    · exfalso
      subst hk
      have hnd' : k'.Nodup := (hsound k' v' h2).2.1
      have hc2 : 2 ≤ k'.toFinset.card := by
        rw [List.toFinset_card_of_nodup hnd', hkeq', List.length_map]
        exact hlen'
      rw [← hts] at hc2
      simp at hc2
    · exfalso
      subst hk'
      have hnd : k.Nodup := (hsound k v h1).2.1
      have hc2 : 2 ≤ k.toFinset.card := by
        rw [List.toFinset_card_of_nodup hnd, hkeq, List.length_map]
        exact hlen
      rw [hts] at hc2
      simp at hc2
    · subst hkeq
      subst hkeq'
      have hrkset : rks.toFinset = rks'.toFinset := by
        refine Finset.ext fun z => ?_
        rw [List.mem_toFinset, List.mem_toFinset]
        constructor
        · intro hz
          have hxin : (fpl.get? z).getD "" ∈
              (rks'.map fun z => (fpl.get? z).getD "").toFinset := by
            rw [← hts]
            exact List.mem_toFinset.mpr (List.mem_map.mpr ⟨z, hz, rfl⟩)
          rw [List.mem_toFinset, List.mem_map] at hxin
          obtain ⟨z', hz', heq⟩ := hxin
          have hzz : z' = z :=
            labOf_inj fpl hfplnd z' z (hvalid' z' hz') (hvalid z hz) heq
          rw [← hzz]
          exact hz'
        · intro hz
          have hxin : (fpl.get? z).getD "" ∈
              (rks.map fun z => (fpl.get? z).getD "").toFinset := by
            rw [hts]
            exact List.mem_toFinset.mpr (List.mem_map.mpr ⟨z, hz, rfl⟩)
          rw [List.mem_toFinset, List.mem_map] at hxin
          obtain ⟨z', hz', heq⟩ := hxin
          have hzz : z' = z :=
            labOf_inj fpl hfplnd z' z (hvalid z' hz') (hvalid' z hz) heq
          rw [← hzz]
          exact hz'
      have hperm : rks.Perm rks' := List.perm_of_nodup_nodup_toFinset_eq
        (chain_gt_nodup rks hch) (chain_gt_nodup rks' hch') hrkset
      haveI : IsAntisymm Nat (· > ·) :=
        ⟨fun a b hab hba => absurd hab (Nat.lt_asymm hba)⟩
      have hre : rks = rks' := List.eq_of_perm_of_sorted hperm
        (List.chain'_iff_pairwise.mp hch) (List.chain'_iff_pairwise.mp hch')
      rw [hre]
  refine ⟨hkk, ?_⟩
  have hv1 := (hsound k v h1).2.2.1
  have hv2 := (hsound k' v' h2).2.2.1
  rw [hv1, hv2, hts]


/-- C1 counterexample: the transaction `["a", "a"]` repeats an item; with
resolved threshold 2 the run reports the itemset `{a}` with count 2,
although its true support (number of transactions containing `a`) is 1 and
hence below the threshold: the final mapping is keyed by occurrence
counts, not true supports, and contains an itemset whose true support is
below the threshold. -/
theorem startMine_overcount_cex :
    startMineModel [["a", "a"]] 2 1 = some [(["a"], 2)] ∧
      trueSupport [["a", "a"]] {"a"} = 1 :=
  ⟨by decide, by decide⟩

/-- Witness for `startMine_pattern_correct` on a duplicate-free database. -/
theorem startMine_pattern_correct_witness :
    (∀ t ∈ ([["a", "b"], ["a"]] : List (List Item)), t.Nodup) ∧
      (0 : ℚ) < 1 ∧ (1 ≤ 2) ∧
      (∃ final, startMineModel [["a", "b"], ["a"]] 1 2 = some final ∧
        (final.map Prod.fst).Nodup ∧
        (∀ k v, (k, v) ∈ final →
          k ≠ [] ∧ k.Nodup ∧ v = trueSupport [["a", "b"], ["a"]] k.toFinset ∧
          (1 : ℚ) ≤ (v : ℚ) ∧ 0 < v) ∧
        (∀ S : Finset Item, S.Nonempty →
          (1 : ℚ) ≤ ((trueSupport [["a", "b"], ["a"]] S : Nat) : ℚ) →
          ∃ k v, (k, v) ∈ final ∧ k.toFinset = S ∧
            v = trueSupport [["a", "b"], ["a"]] S) ∧
        (∀ k v k' v', (k, v) ∈ final → (k', v') ∈ final →
          k.toFinset = k'.toFinset → k = k' ∧ v = v')) :=
  ⟨by decide, by decide, by decide,
    startMine_pattern_correct [["a", "b"], ["a"]] 1 2 (by decide) (by decide)
      (by decide)⟩

/-- C3 (corrected): when every transaction is duplicate-free and the
resolved threshold is positive, the final mapping of `startMine` is
identical for every partition count: the same entries are present and every
key looks up to the same support.  (With a repeated item inside one
transaction the results can differ between partition counts — see the
counterexample.) -/
theorem startMine_partition_invariant (db : List (List Item)) (minSup : ℚ)
    (np np' : Nat) (hnodup : ∀ t ∈ db, t.Nodup) (hms0 : 0 < minSup)
    (hnp : 1 ≤ np) (hnp' : 1 ≤ np') :
    ∃ final final', startMineModel db minSup np = some final ∧
      startMineModel db minSup np' = some final' ∧
      (∀ k v, (k, v) ∈ final ↔ (k, v) ∈ final') ∧
      (∀ k, alGet final k = alGet final' k) := by
  obtain ⟨f1, h1, hnd1, hch1⟩ := startMineModel_spec db minSup np hnodup hms0 hnp
  obtain ⟨f2, h2, hnd2, hch2⟩ := startMineModel_spec db minSup np' hnodup hms0 hnp'
  have hmem : ∀ k v, (k, v) ∈ f1 ↔ (k, v) ∈ f2 :=
    fun k v => (hch1 k v).trans (hch2 k v).symm
  refine ⟨f1, f2, h1, h2, hmem, ?_⟩
  intro k
  cases hg1 : alGet f1 k with
  | some v =>
    have hm := mem_of_alGet_eq_some hg1
    have hm2 := (hmem k v).mp hm
    rw [alGet_eq_some_of_mem hnd2 hm2]
  | none =>
    cases hg2 : alGet f2 k with
    | none => rfl
    | some v =>
      have hm2 := mem_of_alGet_eq_some hg2
      have hm1 := (hmem k v).mpr hm2
      rw [alGet_eq_some_of_mem hnd1 hm1] at hg1
      exact absurd hg1 (by simp)

/-- C3 counterexample: the first transaction repeats the item `d`; the
pattern `["d", "c"]` is reported with support 2 under one partition but
with support 1 under three partitions, so the result set depends on
`numPartitions`. -/
theorem startMine_np_dependent_cex :
    (startMineModel [["c", "d", "d", "e"], ["a"], ["a"], ["a"], ["a"], ["a"],
        ["b"], ["b"], ["b"], ["b"], ["c"], ["c"]] 1 1).map
      (fun f => alGet f ["d", "c"]) = some (some 2) ∧
    (startMineModel [["c", "d", "d", "e"], ["a"], ["a"], ["a"], ["a"], ["a"],
        ["b"], ["b"], ["b"], ["b"], ["c"], ["c"]] 1 3).map
      (fun f => alGet f ["d", "c"]) = some (some 1) :=
  ⟨by decide, by decide⟩

/-- Witness for `startMine_partition_invariant` on a duplicate-free
database and partition counts 1 and 2. -/
theorem startMine_partition_invariant_witness :
    (∀ t ∈ ([["a", "b"], ["a"]] : List (List Item)), t.Nodup) ∧
      (0 : ℚ) < 1 ∧ (1 ≤ 1) ∧ (1 ≤ 2) ∧
      (∃ final final', startMineModel [["a", "b"], ["a"]] 1 1 = some final ∧
        startMineModel [["a", "b"], ["a"]] 1 2 = some final' ∧
        (∀ k v, (k, v) ∈ final ↔ (k, v) ∈ final') ∧
        (∀ k, alGet final k = alGet final' k)) :=
  ⟨by decide, by decide, by decide, by decide,
    startMine_partition_invariant [["a", "b"], ["a"]] 1 1 2 (by decide) (by decide)
      (by decide) (by decide)⟩

end PFPG
